import Mathlib

/-!
HLLL reduction (fplll): Householder engine, reduction driver, verification predicate.

Shallow embedding of `src/fplll/householder.h` and `src/fplll/hlll.cpp`.

* The exact integer type `ZT` is `ℤ`.
* The floating type `FT` is idealised as `ℚ` (exact arithmetic, no rounding, no NaN / infinity).
  Division is the field division of `ℚ`, where `x / 0 = 0`, while the floating division of the
  code gives an infinity or NaN there: statements about the value of a quotient assume its
  divisor `R(j,j)` nonzero, and the sample inputs only divide by nonzero entries.
* C++ `int` indices are natural numbers; matrices are total functions of their indices, so an
  out-of-range access (undefined behaviour in C++) simply reads the function.
* The arithmetic backend and the bodies of `update_R(i, last_j)` and `add_mul_b_rows` are not part
  of the two embedded files.  What the driver needs from them is collected in `Backend`.
-/

namespace HLLL

/-- Exact integer entries (`ZT`). -/
abbrev ZT := ℤ

/-- Floating approximation entries (`FT`), idealised as exact rationals. -/
abbrev FT := ℚ

/-- Fields of `class MatHouseholder` (householder.h, lines 152-196). -/
structure MatHouseholder where
  d : Nat
  n : Nat
  b : Nat → Nat → ZT
  R : Nat → Nat → FT
  V : Nat → Nat → FT
  sigma : Nat → FT
  n_known_rows : Nat
  enable_row_expo : Bool
  row_expo : Nat → Int

/-- What the embedded code uses but does not define: the build flag `DEBUG`, the Householder
update `update_R(i, last_j)` (householder.cpp), the rounding primitive `FP_NR::rnd_we` and the
mantissa / exponent conversion `Z_NR::get_f_exp`. -/
structure Backend where
  DEBUG : Bool
  update_R_raw : MatHouseholder → Nat → Nat → MatHouseholder
  rnd_we : FT → Int → FT
  get_f_exp : ZT → FT × Int

/-- Constructor `MatHouseholder(arg_b, flags)` (householder.h, lines 46-69): the cursor starts at
`0`; without row exponents the table is filled with `-1`. -/
def MatHouseholder.mk0 (d n : Nat) (b : Nat → Nat → ZT) (flag : Bool) : MatHouseholder :=
  { d := d, n := n, b := b, R := fun _ _ => 0, V := fun _ _ => 0, sigma := fun _ => 0,
    n_known_rows := 0, enable_row_expo := flag,
    row_expo := fun _ => if flag then 0 else -1 }

/-- Read `R(i, j)` with the exponent of row `i` (householder.h, lines 199-205). -/
def get_R (m : MatHouseholder) (i j : Nat) : FT × Int :=
  (m.R i j, m.row_expo i)

/-- Overwrite `R(i, j)` (householder.h, lines 221-226). -/
def set_R (m : MatHouseholder) (f : FT) (i j : Nat) : MatHouseholder :=
  { m with R := fun r c => if r = i ∧ c = j then f else m.R r c }

/-- Modelled from the spec: `update_R(i, last_j)` is declared in householder.h (line 110) and
defined in householder.cpp.  R, V, sigma (and the row exponents when scaling is enabled, and the
validity cursor) are derived data recomputed from the basis; the basis, the dimensions and the
scaling flag are never written by it.  The derived data comes from the backend. -/
def update_R (E : Backend) (m : MatHouseholder) (i last_j : Nat) : MatHouseholder :=
  let r := E.update_R_raw m i last_j
  { m with R := r.R, V := r.V, sigma := r.sigma, n_known_rows := r.n_known_rows,
           row_expo := if m.enable_row_expo then r.row_expo else m.row_expo }

/-- Single-row update `update_R(i)` (householder.h, lines 228-231). -/
def update_R_row (E : Backend) (m : MatHouseholder) (i : Nat) : MatHouseholder :=
  update_R E m i i

/-- Full update `update_R()` (householder.h, lines 233-237): rows `0 .. d-1` in index order. -/
def update_R_all (E : Backend) (m : MatHouseholder) : MatHouseholder :=
  (List.range m.d).foldl (fun acc i => update_R_row E acc i) m

/-- Integer dot product `b[k].dot_product(ztmp0, b[k], 0, n)`. -/
def dot_b (m : MatHouseholder) (k : Nat) : ZT :=
  ∑ c in Finset.range m.n, m.b k c * m.b k c

/-- Squared norm of basis row `k` with its exponent (householder.h, lines 239-252). -/
def norm_square_b_row (E : Backend) (m : MatHouseholder) (k : Nat) : FT × Int :=
  if m.enable_row_expo then E.get_f_exp (dot_b m k) else ((dot_b m k : ℤ), -1)

/-- Truncated squared norm of R row `k` (householder.h, lines 254-269). -/
def norm_square_R_row (m : MatHouseholder) (k end_ : Nat) : FT × Int :=
  (if end_ = 0 then 0 else ∑ c in Finset.range end_, m.R k c * m.R k c, 2 * m.row_expo k)

/-- Lower the validity cursor (householder.h, lines 271-277); the body is compiled only when
`DEBUG` is defined. -/
def invalidate_row (E : Backend) (m : MatHouseholder) (k : Nat) : MatHouseholder :=
  if E.DEBUG then
    (if k < m.n_known_rows then { m with n_known_rows := k } else m)
  else m

/-- Modelled from the spec: `Matrix::swap_rows` (nr/matrix.h) exchanges two rows of the basis. -/
def swap_rows (b : Nat → Nat → ZT) (i j : Nat) : Nat → Nat → ZT :=
  fun r => if r = i then b j else if r = j then b i else b r

/-- Row swap `swap(i, j)` (householder.h, lines 279-286). -/
def swap (E : Backend) (m : MatHouseholder) (i j : Nat) : MatHouseholder :=
  let m1 := invalidate_row E m i
  { m1 with b := swap_rows m1.b i j }

/-- Modelled from the spec: conversion of an integer-valued `FT` coefficient to `ZT`
(`Z_NR::set_f`); the identity on integer values. -/
def set_f (x : FT) : ZT := Int.floor x

/-- Modelled from the spec: `add_mul_b_rows(k, xf)` is declared in householder.h (lines 135-138)
and defined in householder.cpp.  Size reduction (§4.2.1) applies to the basis, in one exact
combination, the accumulated coefficients `x[i] = -round(R(k,i)/R(i,i))` that it has folded into
R with `R(k,j) ← R(k,j) + x[i]·R(i,j)`; the operation therefore adds `xf[i]·b[i]` to basis row
`k` for every `i < k`.  (The one-line summaries in §4.1 and in the header comment write the same
combination as `b[k] - Σ x[i]·b[i]`, with `x[i]` the rounded quotient before the driver negates
it.) -/
def add_mul_b_rows (m : MatHouseholder) (k : Nat) (xf : Nat → FT) : MatHouseholder :=
  { m with b := fun r c =>
      if r = k then m.b k c + ∑ i in Finset.range k, set_f (xf i) * m.b i c else m.b r c }

/-- Multiplication by a power of two, `FP_NR::mul_2si`. -/
def mul_2si (x : FT) (e : Int) : FT := x * (2 : ℚ) ^ e

/-! ## Reduction driver (hlll.cpp) -/

/-- Fold step of `size_reduction` (hlll.cpp, lines 105-112): for `j = 0 .. i-1`,
`R(k, j) ← R(k, j) + x * R(i, j)`. -/
def fold_R (m : MatHouseholder) (x : FT) (k i : Nat) : MatHouseholder :=
  (List.range i).foldl
    (fun acc j =>
      let ftmp1 := x * (get_R acc i j).1
      let ftmp0 := (get_R acc k j).1 + ftmp1
      set_R acc ftmp0 k j) m

/-- Body of the loop `for (i = k - 1; i >= 0; i--)` of `size_reduction` (hlll.cpp, lines 93-113),
on the pair (engine, coefficient vector `xf`). -/
def coeff_step (E : Backend) (k : Nat) (s : MatHouseholder × (Nat → FT)) (i : Nat) :
    MatHouseholder × (Nat → FT) :=
  let a := get_R s.1 k i
  let c := get_R s.1 i i
  let x := - E.rnd_we (a.1 / c.1) (a.2 - c.2)
  let xf := fun t => if t = i then x else s.2 t
  if x ≠ 0 then (fold_R s.1 x k i, xf) else (s.1, xf)

/-- The whole loop over `i = k-1, ..., 0` (hlll.cpp, lines 91-114). -/
def coeff_loop (E : Backend) (m : MatHouseholder) (k : Nat) : MatHouseholder × (Nat → FT) :=
  (List.range k).reverse.foldl (coeff_step E k) (m, fun _ => 0)

/-- One pass of the `do ... while` loop of `size_reduction` (hlll.cpp, lines 88-121): the engine
after the pass and the value of the loop condition `ftmp0.cmp(ftmp1) <= 0`. -/
def size_reduction_pass (E : Backend) (sr : FT) (m : MatHouseholder) (k : Nat) :
    MatHouseholder × Bool :=
  let m1 := update_R E m k (k - 1)
  let s := coeff_loop E m1 k
  let old := norm_square_b_row E s.1 k
  let m3 := add_mul_b_rows s.1 k s.2
  let new := norm_square_b_row E m3 k
  let ftmp1 := sr * old.1
  let ftmp0 := if new.2 > -1 then mul_2si new.1 (new.2 - old.2) else new.1
  (m3, decide (ftmp0 ≤ ftmp1))

/-- The procedure `size_reduction(k)` (hlll.cpp, lines 82-124) with a bound on the number of
passes: `none` when the bound is reached before the loop condition becomes false. -/
def size_reduction (E : Backend) (sr : FT) : Nat → MatHouseholder → Nat → Option MatHouseholder
  | 0, _, _ => none
  | fuel + 1, m, k =>
    let p := size_reduction_pass E sr m k
    if p.2 then size_reduction E sr fuel p.1 k else some (update_R_row E p.1 k)

/-- Local variables of `lll()` that survive an iteration, with the engine. -/
structure LLLState where
  m : MatHouseholder
  k : Nat
  k_max : Nat
  update_R_row_0 : Bool

/-- What one iteration of the main loop did: whether it ran `update_R(0)`, and the pair
`(k - 1, k)` of the swap `swap(k - 1, k)` when the Lovasz test failed. -/
structure StepLog where
  ran_update_R_0 : Bool
  swapped : Option (Nat × Nat)
  deriving DecidableEq

/-- Initial state of `lll()` (hlll.cpp, lines 27-33). -/
def lll_init (m : MatHouseholder) : LLLState :=
  { m := m, k := 1, k_max := 0, update_R_row_0 := true }

/-- The Lovasz test of the driver after size reduction (hlll.cpp, lines 59-70): the value of
`tmp <= s`. -/
def lovasz_test (delta : FT) (m : MatHouseholder) (k : Nat) : Bool :=
  let a := get_R m k (k - 1)
  let s := a.1 * a.1
  let c := get_R m k k
  let tmp := c.1 * c.1
  let s := tmp + s
  let e := get_R m (k - 1) (k - 1)
  let tmp := delta * (e.1 * e.1)
  let s := if e.2 > -1 then mul_2si s (2 * (c.2 - e.2)) else s
  decide (tmp ≤ s)

/-- Value of the local `update_R_row_0` after lines 42-46 of hlll.cpp, that is, at the point of
the Lovasz test. -/
def flag_at_test (s : LLLState) : Bool :=
  if s.update_R_row_0 then !s.update_R_row_0 else s.update_R_row_0

/-- The engine after lines 42-46 of hlll.cpp: `update_R(0)` runs when the flag is set. -/
def engine_at_head (E : Backend) (s : LLLState) : MatHouseholder :=
  if s.update_R_row_0 then update_R_row E s.m 0 else s.m

/-- One iteration of `while (k < m.get_d())` (hlll.cpp, lines 41-78), given the state at the loop
head with `k < d`; `none` when `size_reduction(k)` does not return within `passes` passes. -/
def lll_step (E : Backend) (delta sr : FT) (passes : Nat) (s : LLLState) :
    Option (LLLState × StepLog) :=
  let k_max := if s.k > s.k_max then s.k else s.k_max
  match size_reduction E sr passes (engine_at_head E s) s.k with
  | none => none
  | some m1 =>
    if lovasz_test delta m1 s.k then
      some ({ m := m1, k := s.k + 1, k_max := k_max, update_R_row_0 := flag_at_test s },
            { ran_update_R_0 := s.update_R_row_0, swapped := none })
    else
      some ({ m := swap E m1 (s.k - 1) s.k, k := max (s.k - 1) 1, k_max := k_max,
              update_R_row_0 := if s.k - 1 = 0 then !flag_at_test s else flag_at_test s },
            { ran_update_R_0 := s.update_R_row_0, swapped := some (s.k - 1, s.k) })

/-- The main loop of `lll()` (hlll.cpp, lines 40-79) with a bound `fuel` on the number of
iterations and a bound `passes` on the passes of each size reduction: the final state and the
log of the iterations, or `none` when a bound is reached. -/
def lll_loop (E : Backend) (delta sr : FT) (passes : Nat) :
    Nat → LLLState → Option (LLLState × List StepLog)
  | 0, _ => none
  | fuel + 1, s =>
    if s.k < s.m.d then
      match lll_step E delta sr passes s with
      | none => none
      | some (s1, e) =>
        match lll_loop E delta sr passes fuel s1 with
        | none => none
        | some (s2, es) => some (s2, e :: es)
    else some (s, [])

/-- The procedure `lll()` (hlll.cpp, lines 25-80). -/
def lll (E : Backend) (delta sr : FT) (passes fuel : Nat) (m : MatHouseholder) :
    Option (LLLState × List StepLog) :=
  lll_loop E delta sr passes fuel (lll_init m)

/-! ## Verification predicate (hlll.cpp, lines 127-161) -/

/-- Inner loop `for (j = 0; j < i; j++)` of the size-reduction check, over the remaining column
indices; `false` as soon as `|R(i,j) / R(j,j)| > 0.5`. -/
def size_check_row (m : MatHouseholder) (i : Nat) : List Nat → Bool
  | [] => true
  | j :: js =>
    let ftmp0 := (get_R m i j).1
    let ftmp1 := (get_R m j j).1
    let ftmp1 := |ftmp0 / ftmp1|
    if ftmp1 > 1 / 2 then false else size_check_row m i js

/-- Outer loop `for (i = 0; i < d; i++)` of the size-reduction check. -/
def size_check (m : MatHouseholder) : List Nat → Bool
  | [] => true
  | i :: is => if size_check_row m i (List.range i) then size_check m is else false

/-- Loop `for (i = 1; i < d; i++)` of the Lovasz check; `false` as soon as
`delta * R(i-1,i-1)^2 > ||b[i]||^2 - norm_square_R_row(i, i-1)`. -/
def lovasz_check (E : Backend) (delta : FT) (m : MatHouseholder) : List Nat → Bool
  | [] => true
  | i :: is =>
    let ftmp0 := (norm_square_b_row E m i).1
    let ftmp1 := (norm_square_R_row m i (i - 1)).1
    let ftmp1 := ftmp0 - ftmp1
    let ftmp0 := (get_R m (i - 1) (i - 1)).1
    let ftmp0 := delta * (ftmp0 * ftmp0)
    if ftmp0 > ftmp1 then false else lovasz_check E delta m is

/-- The predicate `is_hlll_reduced(m, delta, eta)`: its result and the engine it leaves. -/
def is_hlll_reduced (E : Backend) (m : MatHouseholder) (delta _eta : FT) :
    Bool × MatHouseholder :=
  let m1 := update_R_all E m
  if size_check m1 (List.range m1.d) then
    (lovasz_check E delta m1 ((List.range m1.d).tail), m1)
  else (false, m1)

/-! ## Concrete backends and engines used to evaluate the definitions -/

/-- Rounding to the nearest integer, ties to the even integer (the C function `rint` in the
default rounding mode). -/
def rint (x : ℚ) : ℤ :=
  if x - ⌊x⌋ < 1 / 2 then ⌊x⌋
  else if 1 / 2 < x - ⌊x⌋ then ⌊x⌋ + 1
  else if ⌊x⌋ % 2 = 0 then ⌊x⌋ else ⌊x⌋ + 1

/-- A backend that is exact on lower-triangular bases with positive diagonal, where the R-factor
is the basis itself (`Q` is the identity): `update_R(i, last_j)` copies basis row `i` into R row
`i`; rounding is `rint`; `get_f_exp` returns the integer with exponent `0`. -/
def triangularBackend (dbg : Bool) : Backend :=
  { DEBUG := dbg
    update_R_raw := fun m i _ =>
      { m with R := fun r c => if r = i then ((m.b i c : ℤ) : ℚ) else m.R r c }
    rnd_we := fun x _ => ((rint x : ℤ) : ℚ)
    get_f_exp := fun z => ((z : ℚ), 0) }

/-- The basis `[[1,0],[0,1]]`. -/
def basisId2 : Nat → Nat → ZT := fun r c => if r = c ∧ r < 2 then 1 else 0

/-- An engine over `[[1,0],[0,1]]` whose validity cursor is `2` (both rows known). -/
def engineKnown2 : MatHouseholder :=
  { MatHouseholder.mk0 2 2 basisId2 false with n_known_rows := 2 }

/-- Two engines with the same dimensions and scaling flag (no operation changes these). -/
def SameShape (m m1 : MatHouseholder) : Prop :=
  m1.d = m.d ∧ m1.n = m.n ∧ m1.enable_row_expo = m.enable_row_expo

/-- States of `lll()` at the head of the main loop: the initial state, and the state after an
iteration run from a loop-head state that passes the loop test `k < d`. -/
inductive Reach (E : Backend) (delta sr : FT) (passes : Nat) (m0 : MatHouseholder) :
    LLLState → Prop
  | init : Reach E delta sr passes m0 (lll_init m0)
  | step {s s1 : LLLState} {e : StepLog} :
      Reach E delta sr passes m0 s → s.k < s.m.d →
      lll_step E delta sr passes s = some (s1, e) → Reach E delta sr passes m0 s1

/-- The first `d` rows and columns of a basis as a square matrix. -/
def basisMatrix (b : Nat → Nat → ZT) (d : Nat) : Matrix (Fin d) (Fin d) ℤ :=
  Matrix.of fun i j => b i.val j.val

/-- Basis row `k` after adding the first `t` terms `z i · b[i]` of the row combination. -/
def add_rows_upto (b : Nat → Nat → ZT) (k : Nat) (z : Nat → ZT) (t : Nat) : Nat → Nat → ZT :=
  fun r c => if r = k then b k c + ∑ i in Finset.range t, z i * b i c else b r c

/-- Row `k` of the basis is not an integer combination of the rows before it: whatever integer
multiples `z i` of rows `i < k` are subtracted, the squared norm of the result is positive.
Linearly independent rows have this property. -/
def RowIndep (b : Nat → Nat → ZT) (n k : Nat) : Prop :=
  ∀ z : Nat → ZT, 0 < ∑ c in Finset.range n, (b k c - ∑ i in Finset.range k, z i * b i c) ^ 2

/-- The backend's `get_f_exp` is exact: it returns a mantissa `f` and an exponent `e ≥ 0` with
`z = f * 2^e`. -/
def ExactExp (E : Backend) : Prop :=
  ∀ z : ZT, ((z : ℤ) : ℚ) = (E.get_f_exp z).1 * (2 : ℚ) ^ (E.get_f_exp z).2 ∧
    0 ≤ (E.get_f_exp z).2

/-- The integer coefficients a pass of `size_reduction(k)` hands to `add_mul_b_rows`. -/
def pass_coeffs (E : Backend) (m : MatHouseholder) (k : Nat) : Nat → ZT :=
  fun i => set_f ((coeff_loop E (update_R E m k (k - 1)) k).2 i)

/-- An engine over `[[1,0],[0,1]]` as built by the constructor, scaling disabled. -/
def engineId2 : MatHouseholder := MatHouseholder.mk0 2 2 basisId2 false

/-- The backend's `update_R(i, last_j)` is exact with R-factor `Rex`: it sets the entries
`R(i, 0..last_j)` to the entries of the R-factor of the current basis and leaves the other rows
of R as they are. -/
def ExactR (E : Backend) (Rex : (Nat → Nat → ZT) → Nat → Nat → FT) : Prop :=
  ∀ (m : MatHouseholder) (i j : Nat),
    (∀ c, c ≤ j → (E.update_R_raw m i j).R i c = Rex m.b i c) ∧
    (∀ r, r ≠ i → ∀ c, (E.update_R_raw m i j).R r c = m.R r c)

/-- The backend's rounding sends every value of absolute value at most one half to zero. -/
def RoundsSmallToZero (E : Backend) : Prop :=
  ∀ (q : FT) (e : Int), |q| ≤ 1 / 2 → E.rnd_we q e = 0

/-- Row `i` of R holds the R-factor of the current basis up to the diagonal. -/
def RowValid (Rex : (Nat → Nat → ZT) → Nat → Nat → FT) (m : MatHouseholder) (i : Nat) : Prop :=
  ∀ c, c ≤ i → m.R i c = Rex m.b i c

/-- Loop-head states of a run of `lll()` that has not changed the basis `b0`: scaling is
disabled, the cursor is at least `1`, and the R rows below the cursor are valid, row 0 possibly
still waiting for the pending `update_R(0)`. -/
def IdemInv (Rex : (Nat → Nat → ZT) → Nat → Nat → FT) (m0 : MatHouseholder) (s : LLLState) :
    Prop :=
  s.m.b = m0.b ∧ s.m.d = m0.d ∧ s.m.n = m0.n ∧ s.m.enable_row_expo = false ∧
  (∀ i, s.m.row_expo i = -1) ∧ 1 ≤ s.k ∧
  (∀ i, i < s.k → (1 ≤ i ∨ s.update_R_row_0 = false) → RowValid Rex s.m i)

/-- An engine over the basis of `m0`, with the dimensions of `m0` and scaling disabled. -/
def EngineOver (m0 m : MatHouseholder) : Prop :=
  m.b = m0.b ∧ m.d = m0.d ∧ m.n = m0.n ∧ m.enable_row_expo = false ∧ (∀ i, m.row_expo i = -1)

/-- The magnitude an R entry stands for: `R(i, j) * 2^row_expo[i]` when row-exponent scaling is
enabled, the stored entry otherwise. -/
def trueR (m : MatHouseholder) (i j : Nat) : FT :=
  if m.enable_row_expo then m.R i j * (2 : ℚ) ^ (m.row_expo i) else m.R i j

/-- The documented state of the row-exponent table (householder.h, lines 192-196, and the
constructor): non-negative exponents when scaling is enabled, the sentinel `-1` in every entry
when it is disabled. -/
def ExpoInvariant (m : MatHouseholder) : Prop :=
  if m.enable_row_expo then ∀ i, 0 ≤ m.row_expo i else ∀ i, m.row_expo i = -1

/-- An engine over `[[1,0],[0,1]]` with `R = [[1,0],[0,1]]`, scaling disabled. -/
def engineId2R : MatHouseholder :=
  { MatHouseholder.mk0 2 2 basisId2 false with
    R := fun r c => if r = c ∧ r < 2 then 1 else 0, n_known_rows := 2 }

/-- An engine with scaling enabled, `R = [[1,0],[1,1]]` and row exponents `0` and `1`. -/
def engineExpo : MatHouseholder :=
  { MatHouseholder.mk0 2 2 basisId2 true with
    R := fun r c => if c ≤ r ∧ r < 2 then 1 else 0,
    row_expo := fun r => if r = 1 then 1 else 0 }

/-- An engine over the basis `[[1,0,0],[1,1,0],[0,2,2]]` with scaling enabled: row exponents
`0, 0, 1` and stored `R = [[1,0,0],[1,1,0],[0,1,1]]`, so that `R(i,j) * 2^row_expo[i]` is the
R-factor of the basis (the basis itself). -/
def engineExpo3 : MatHouseholder :=
  { MatHouseholder.mk0 3 3
      (fun r c => if (r = 0 ∧ c = 0) ∨ (r = 1 ∧ c ≤ 1) then 1
        else if r = 2 ∧ (c = 1 ∨ c = 2) then 2 else 0) true with
    R := fun r c =>
      if (r = 0 ∧ c = 0) ∨ (r = 1 ∧ c ≤ 1) ∨ (r = 2 ∧ (c = 1 ∨ c = 2)) then 1 else 0,
    row_expo := fun r => if r = 2 then 1 else 0 }

/-- The backend's rounding, called with exponent argument `0`, returns an integer nearest to its
argument. -/
def RoundsNearest (E : Backend) : Prop :=
  ∀ q : FT, ∃ z : ℤ, E.rnd_we q 0 = (z : ℚ) ∧ |q - (z : ℚ)| ≤ 1 / 2

/-- State of the coefficient loop of `size_reduction(k)`, started on the engine `m`, once the
steps `i = k-1, ..., t` are done: rows other than `k` and the exponents are as in `m`; for
`j < t` the entry `R(k,j)` holds `R(k,j) + Σ_{t ≤ l < k} x[l] * R(l,j)`; and for `t ≤ i < k` the
coefficient `x[i]` is an integer with `|R(k,i) + Σ_{i ≤ l < k} x[l] * R(l,i)| ≤ |R(i,i)| / 2`. -/
def CoeffInv (m : MatHouseholder) (k t : Nat) (s : MatHouseholder × (Nat → FT)) : Prop :=
  (∀ r c, r ≠ k → s.1.R r c = m.R r c) ∧
  s.1.row_expo = m.row_expo ∧
  (∀ j, j < t → s.1.R k j = m.R k j + ∑ l in Finset.Ico t k, s.2 l * m.R l j) ∧
  (∀ i, t ≤ i → i < k →
    (∃ z : ℤ, s.2 i = (z : ℚ)) ∧
    |m.R k i + ∑ l in Finset.Ico i k, s.2 l * m.R l i| ≤ |m.R i i| / 2)

/-- An engine over the basis `[[1,0],[1,1]]` in the state `lll()` hands to `size_reduction(1)`:
scaling disabled and R row 0 computed, `R(0,0) = 1`. -/
def engineLow : MatHouseholder :=
  { MatHouseholder.mk0 2 2 (fun r c => if c ≤ r ∧ r < 2 then 1 else 0) false with
    R := fun r c => if r = 0 ∧ c = 0 then 1 else 0 }

/-- An engine over the basis `[[1,0],[0,0]]` in the state `lll()` hands to `size_reduction(1)`:
scaling disabled and R row 0 computed, `R(0,0) = 1`. -/
def engineZeroRow : MatHouseholder :=
  { MatHouseholder.mk0 2 2 (fun r c => if r = 0 ∧ c = 0 then 1 else 0) false with
    R := fun r c => if r = 0 ∧ c = 0 then 1 else 0 }

/-- A call into the engine that carries an index assertion, or an access `xf[i]` to the
coefficient vector of size `size`, with its C++ `int` arguments. -/
inductive Call where
  | get_R (i j : Int)
  | set_R (i j : Int)
  | norm_square_b_row (k : Int)
  | norm_square_R_row (k end_ : Int)
  | swap (i j : Int)
  | xf_at (size i : Int)

/-- The `FPLLL_DEBUG_CHECK` condition of a call on an engine with `d` rows (householder.h,
lines 202, 223-224, 242, 257-258, 281); for `xf[i]`, the bounds of the vector. -/
def Call.ok (d : Int) : Call → Prop
  | .get_R i j => i ≥ 0 ∧ i < d ∧ j ≥ 0 ∧ j ≤ i
  | .set_R i j => (i ≥ 0 ∧ i < d ∧ i ≥ j ∧ j ≥ 0) ∧ j ≤ i
  | .norm_square_b_row k => k ≥ 0 ∧ k < d
  | .norm_square_R_row k end_ => (k ≥ 0 ∧ k < d) ∧ (0 ≤ end_ ∧ end_ ≤ k)
  | .swap i j => 0 ≤ i ∧ i < j ∧ j < d
  | .xf_at size i => 0 ≤ i ∧ i < size

/-- Calls of the fold loop of `size_reduction` (hlll.cpp, lines 105-112). -/
def fold_R_calls (k i : Nat) : List Call :=
  (List.range i).flatMap fun j =>
    [Call.get_R i j, Call.xf_at k i, Call.get_R k j, Call.set_R k j]

/-- Calls of one step of the loop over `i` (hlll.cpp, lines 93-113), in the state `s`. -/
def coeff_step_calls (E : Backend) (k : Nat) (s : MatHouseholder × (Nat → FT)) (i : Nat) :
    List Call :=
  [Call.xf_at k i, Call.get_R k i, Call.get_R i i] ++
    (if (coeff_step E k s i).2 i ≠ 0 then fold_R_calls k i else [])

/-- Calls of the whole loop over `i = k-1, ..., 0`, with the state they leave. -/
def coeff_loop_calls (E : Backend) (m : MatHouseholder) (k : Nat) :
    (MatHouseholder × (Nat → FT)) × List Call :=
  (List.range k).reverse.foldl
    (fun p i => (coeff_step E k p.1 i, p.2 ++ coeff_step_calls E k p.1 i))
    ((m, fun _ => 0), [])

/-- Calls of one pass of the `do ... while` loop (hlll.cpp, lines 90-120). -/
def pass_calls (E : Backend) (m : MatHouseholder) (k : Nat) : List Call :=
  (coeff_loop_calls E (update_R E m k (k - 1)) k).2 ++
    [Call.norm_square_b_row k, Call.norm_square_b_row k]

/-- Calls of `size_reduction(k)` during its first `fuel` passes. -/
def size_reduction_calls (E : Backend) (sr : FT) : Nat → MatHouseholder → Nat → List Call
  | 0, _, _ => []
  | fuel + 1, m, k =>
    pass_calls E m k ++
      (if (size_reduction_pass E sr m k).2 then
        size_reduction_calls E sr fuel (size_reduction_pass E sr m k).1 k
       else [])

/-- Calls of one iteration of the main loop of `lll()` (hlll.cpp, lines 57-77). -/
def lll_step_calls (E : Backend) (delta sr : FT) (passes : Nat) (s : LLLState) : List Call :=
  size_reduction_calls E sr passes (engine_at_head E s) s.k ++
    match size_reduction E sr passes (engine_at_head E s) s.k with
    | none => []
    | some m1 =>
      [Call.get_R s.k ((s.k : Int) - 1), Call.get_R s.k s.k,
        Call.get_R ((s.k : Int) - 1) ((s.k : Int) - 1)] ++
      (if lovasz_test delta m1 s.k then [] else [Call.swap ((s.k : Int) - 1) s.k])

/-- Calls of the inner loop of the size-reduction check (hlll.cpp, lines 138-146). -/
def size_check_row_calls (m : MatHouseholder) (i : Nat) : List Nat → List Call
  | [] => []
  | j :: js =>
    [Call.get_R i j, Call.get_R j j] ++
      (if |(get_R m i j).1 / (get_R m j j).1| > 1 / 2 then []
       else size_check_row_calls m i js)

/-- Calls of the size-reduction check (hlll.cpp, lines 136-147). -/
def size_check_calls (m : MatHouseholder) : List Nat → List Call
  | [] => []
  | i :: is =>
    size_check_row_calls m i (List.range i) ++
      (if size_check_row m i (List.range i) then size_check_calls m is else [])

/-- Calls of the Lovasz check (hlll.cpp, lines 148-159). -/
def lovasz_check_calls (E : Backend) (delta : FT) (m : MatHouseholder) : List Nat → List Call
  | [] => []
  | i :: is =>
    [Call.norm_square_b_row i, Call.norm_square_R_row i ((i : Int) - 1),
      Call.get_R ((i : Int) - 1) ((i : Int) - 1)] ++
      (if lovasz_check E delta m [i] then lovasz_check_calls E delta m is else [])

/-- Calls of `is_hlll_reduced` after its `update_R()`. -/
def is_hlll_reduced_calls (E : Backend) (m : MatHouseholder) (delta : FT) : List Call :=
  size_check_calls (update_R_all E m) (List.range (update_R_all E m).d) ++
    (if size_check (update_R_all E m) (List.range (update_R_all E m).d) then
      lovasz_check_calls E delta (update_R_all E m) (List.range (update_R_all E m).d).tail
     else [])

/-- State of the coefficient loop of `size_reduction(k)`, started on the engine `m`, once the
steps `i = k-1, ..., t` are done: rows other than `k` and the exponents are as in `m`; for
`j < t` the entry `R(k,j)` holds `R(k,j) + Σ_{t ≤ l < k} x[l] * R(l,j)`; for `t ≤ j < k` it
holds `R(k,j) + Σ_{j < l < k} x[l] * R(l,j)`, and `x[j]` is minus the rounding of that value
divided by `R(j,j)`. -/
def FoldInv (E : Backend) (m : MatHouseholder) (k t : Nat)
    (s : MatHouseholder × (Nat → FT)) : Prop :=
  (∀ r c, r ≠ k → s.1.R r c = m.R r c) ∧
  s.1.row_expo = m.row_expo ∧
  (∀ j, j < t → s.1.R k j = m.R k j + ∑ l in Finset.Ico t k, s.2 l * m.R l j) ∧
  (∀ j, t ≤ j → j < k →
    s.1.R k j = m.R k j + ∑ l in Finset.Ico (j + 1) k, s.2 l * m.R l j ∧
    s.2 j = - E.rnd_we
      ((m.R k j + ∑ l in Finset.Ico (j + 1) k, s.2 l * m.R l j) / m.R j j)
      (m.row_expo k - m.row_expo j))

/-- Engines over the basis `[[1,0],[0,0]]` with two columns, scaling disabled and
`R(0,0) = 1`: the states of `size_reduction(1)` between its passes on that basis. -/
def ZeroRowState (m : MatHouseholder) : Prop :=
  m.b = engineZeroRow.b ∧ m.n = 2 ∧ m.enable_row_expo = false ∧ m.R 0 0 = 1

/-- Row `i` of the R-factor depends only on the basis rows `0 .. i`. -/
def LocalR (Rex : (Nat → Nat → ZT) → Nat → Nat → FT) : Prop :=
  ∀ (b b1 : Nat → Nat → ZT) (i : Nat), (∀ r, r ≤ i → b r = b1 r) → Rex b i = Rex b1 i

/-- A property of row `i` of a basis that depends only on the rows `0 .. i`. -/
def LocalP (P : (Nat → Nat → ZT) → Nat → Prop) : Prop :=
  ∀ (b b1 : Nat → Nat → ZT) (i : Nat), (∀ r, r ≤ i → b r = b1 r) → P b i → P b1 i

/-- Engines met by `size_reduction(k)` between its passes, started over the basis `b0`:
scaling disabled, the basis rows below `k` are those of `b0`, and the R rows below `k` hold the
R-factor of the current basis. -/
def SizeRedState (Rex : (Nat → Nat → ZT) → Nat → Nat → FT) (b0 : Nat → Nat → ZT) (k : Nat)
    (m : MatHouseholder) : Prop :=
  m.enable_row_expo = false ∧ (∀ i, m.row_expo i = -1) ∧ (∀ r, r < k → m.b r = b0 r) ∧
  (∀ i, i < k → RowValid Rex m i)

/-- Loop-head states of a run of `lll()` over an exact backend: scaling is disabled, the cursor
is at least `1`, the R rows below the cursor hold the R-factor of the current basis (row 0
possibly still waiting for the pending `update_R(0)`), and the rows `1 ≤ i < k` of the current
basis have the property `P`. -/
def RunInv (Rex : (Nat → Nat → ZT) → Nat → Nat → FT) (P : (Nat → Nat → ZT) → Nat → Prop)
    (s : LLLState) : Prop :=
  s.m.enable_row_expo = false ∧ (∀ i, s.m.row_expo i = -1) ∧ 1 ≤ s.k ∧
  (∀ i, i < s.k → (1 ≤ i ∨ s.update_R_row_0 = false) → RowValid Rex s.m i) ∧
  (∀ i, 1 ≤ i → i < s.k → P s.m.b i)

/-- The driver's Lovasz condition on rows `i - 1` and `i` of the R-factor of a basis. -/
def LovaszAt (Rex : (Nat → Nat → ZT) → Nat → Nat → FT) (delta : FT) (b : Nat → Nat → ZT)
    (i : Nat) : Prop :=
  delta * Rex b (i - 1) (i - 1) ^ 2 ≤ Rex b i (i - 1) ^ 2 + Rex b i i ^ 2

/-- Row `k` of the R-factor is linear in basis row `k`: adding integer multiples `z l` of the
rows `l < k` to row `k` adds the same multiples of their R rows to R row `k`. -/
def LinR (Rex : (Nat → Nat → ZT) → Nat → Nat → FT) : Prop :=
  ∀ (b : Nat → Nat → ZT) (k : Nat) (z : Nat → ZT) (j : Nat), j < k →
    Rex (add_rows_upto b k z k) k j =
      Rex b k j + ∑ l in Finset.range k, ((z l : ℤ) : ℚ) * Rex b l j

/-- The R-factor of the basis `b` with `d` rows is lower triangular, with nonzero entries
`R(i,i)` on the diagonal rows `i < d - 1` (the divisors of size reduction). -/
def RFactorOK (Rex : (Nat → Nat → ZT) → Nat → Nat → FT) (d : Nat) (b : Nat → Nat → ZT) :
    Prop :=
  (∀ l i, l < i → i < d → Rex b l i = 0) ∧ (∀ i, i + 1 < d → Rex b i i ≠ 0)

/-- Row `i` of the R-factor of a basis is size-reduced. -/
def SizeRedAt (Rex : (Nat → Nat → ZT) → Nat → Nat → FT) (b : Nat → Nat → ZT) (i : Nat) :
    Prop :=
  ∀ j, j < i → |Rex b i j / Rex b j j| ≤ 1 / 2

/-- The engine `lll()` is called on for the basis `[[1,0],[1,1]]`, scaling disabled. -/
def engineLow0 : MatHouseholder := MatHouseholder.mk0 2 2 engineLow.b false

/-- A basis whose first two rows are `[1, 0]` and `[*, 1]`. -/
def LowUnit (b : Nat → Nat → ZT) : Prop :=
  b 0 0 = 1 ∧ b 0 1 = 0 ∧ b 1 1 = 1

/-- Loop-head states of `lll()` over the sample backend on a two-row basis of the shape
`[[1,0],[*,1]]`: the run invariant with size-reduced rows below the cursor. -/
def LowRun (s : LLLState) : Prop :=
  RunInv (fun b i c => ((b i c : ℤ) : ℚ)) (SizeRedAt (fun b i c => ((b i c : ℤ) : ℚ))) s ∧
  LowUnit s.m.b ∧ s.m.d = 2 ∧ s.m.n = 2

/-! # Theorems -/

/-! ## The validity cursor -/

theorem invalidate_row_frame (E : Backend) (m : MatHouseholder) (k : Nat) :
    (invalidate_row E m k).b = m.b ∧ (invalidate_row E m k).R = m.R ∧
    (invalidate_row E m k).V = m.V ∧ (invalidate_row E m k).sigma = m.sigma ∧
    (invalidate_row E m k).row_expo = m.row_expo ∧ (invalidate_row E m k).d = m.d ∧
    (invalidate_row E m k).n = m.n ∧
    (invalidate_row E m k).enable_row_expo = m.enable_row_expo := by
  unfold invalidate_row
  split_ifs <;> simp

theorem invalidate_row_cursor (E : Backend) (m : MatHouseholder) (k : Nat) :
    (invalidate_row E m k).n_known_rows =
      if E.DEBUG then min m.n_known_rows k else m.n_known_rows := by
  unfold invalidate_row
  split_ifs with h1 h2
  · simp [Nat.min_eq_right (Nat.le_of_lt h2)]
  · simp [Nat.min_eq_left (Nat.le_of_not_lt h2)]
  · rfl

/-- C10 (as stated, refuted): in a build without `DEBUG` the body of `invalidate_row` is compiled
out; with cursor `2` and `k = 0` the cursor stays `2`, which is not `min 2 0`. -/
theorem C10_invalidate_row_release_counterexample :
    (invalidate_row (triangularBackend false) engineKnown2 0).n_known_rows = 2 ∧
    (invalidate_row (triangularBackend false) engineKnown2 0).n_known_rows
      ≠ min engineKnown2.n_known_rows 0 := by
  constructor
  · rfl
  · decide

/-- C10 (amended): `invalidate_row(k)` leaves the basis, R, V, sigma and row_expo unchanged; in a
`DEBUG` build the cursor becomes `min (old cursor) k`, otherwise the cursor is unchanged.  After
`swap(i, j)` the cursor is `min (old cursor) i` (hence `≤ i`) in a `DEBUG` build and unchanged
otherwise. -/
theorem C10_invalidate_row_spec (E : Backend) (m : MatHouseholder) (k i j : Nat) :
    (invalidate_row E m k).n_known_rows
        = (if E.DEBUG then min m.n_known_rows k else m.n_known_rows) ∧
    (invalidate_row E m k).b = m.b ∧ (invalidate_row E m k).R = m.R ∧
    (invalidate_row E m k).V = m.V ∧ (invalidate_row E m k).sigma = m.sigma ∧
    (invalidate_row E m k).row_expo = m.row_expo ∧
    (swap E m i j).n_known_rows
        = (if E.DEBUG then min m.n_known_rows i else m.n_known_rows) ∧
    (swap E m i j).n_known_rows ≤ (if E.DEBUG then i else m.n_known_rows) := by
  obtain ⟨hb, hR, hV, hs, he, -, -, -⟩ := invalidate_row_frame E m k
  refine ⟨invalidate_row_cursor E m k, hb, hR, hV, hs, he, ?_, ?_⟩
  · exact invalidate_row_cursor E m i
  · show (invalidate_row E m i).n_known_rows ≤ _
    rw [invalidate_row_cursor]
    split_ifs
    · exact Nat.min_le_right _ _
    · exact le_rfl

/-! ## Frame lemmas: which fields an operation can change -/

theorem foldl_inv {α β : Type} (P : α → Prop) (f : α → β → α)
    (h : ∀ a x, P a → P (f a x)) : ∀ (l : List β) (a : α), P a → P (l.foldl f a) := by
  intro l
  induction l with
  | nil => intro a ha; simpa using ha
  | cons x xs ih => intro a ha; simpa using ih (f a x) (h a x ha)

theorem SameShape.refl (m : MatHouseholder) : SameShape m m := ⟨rfl, rfl, rfl⟩

theorem SameShape.trans {a c e : MatHouseholder} (h1 : SameShape a c) (h2 : SameShape c e) :
    SameShape a e :=
  ⟨h2.1.trans h1.1, h2.2.1.trans h1.2.1, h2.2.2.trans h1.2.2⟩

theorem update_R_shape (E : Backend) (m : MatHouseholder) (i j : Nat) :
    SameShape m (update_R E m i j) := ⟨rfl, rfl, rfl⟩

theorem update_R_b (E : Backend) (m : MatHouseholder) (i j : Nat) :
    (update_R E m i j).b = m.b := rfl

theorem set_R_shape (m : MatHouseholder) (f : FT) (i j : Nat) :
    SameShape m (set_R m f i j) := ⟨rfl, rfl, rfl⟩

theorem fold_R_shape (m : MatHouseholder) (x : FT) (k i : Nat) :
    SameShape m (fold_R m x k i) := by
  unfold fold_R
  exact foldl_inv (fun a => SameShape m a) _
    (fun a j ha => ha.trans (set_R_shape a _ k j)) _ m (SameShape.refl m)

theorem fold_R_b (m : MatHouseholder) (x : FT) (k i : Nat) : (fold_R m x k i).b = m.b := by
  unfold fold_R
  refine foldl_inv (fun a => a.b = m.b) _ ?_ _ m rfl
  intro a j ha
  exact ha

theorem fold_R_row_expo (m : MatHouseholder) (x : FT) (k i : Nat) :
    (fold_R m x k i).row_expo = m.row_expo := by
  unfold fold_R
  refine foldl_inv (fun a => a.row_expo = m.row_expo) _ ?_ _ m rfl
  intro a j ha
  exact ha

theorem coeff_step_shape (E : Backend) (k : Nat) (s : MatHouseholder × (Nat → FT)) (i : Nat) :
    SameShape s.1 (coeff_step E k s i).1 ∧ (coeff_step E k s i).1.b = s.1.b ∧
    (coeff_step E k s i).1.row_expo = s.1.row_expo := by
  unfold coeff_step
  dsimp only
  split_ifs
  · exact ⟨fold_R_shape _ _ _ _, fold_R_b _ _ _ _, fold_R_row_expo _ _ _ _⟩
  · exact ⟨SameShape.refl _, rfl, rfl⟩

theorem coeff_loop_shape (E : Backend) (m : MatHouseholder) (k : Nat) :
    SameShape m (coeff_loop E m k).1 ∧ (coeff_loop E m k).1.b = m.b ∧
    (coeff_loop E m k).1.row_expo = m.row_expo := by
  unfold coeff_loop
  refine foldl_inv
    (fun a : MatHouseholder × (Nat → FT) =>
      SameShape m a.1 ∧ a.1.b = m.b ∧ a.1.row_expo = m.row_expo) _ ?_ _ _
    ⟨SameShape.refl m, rfl, rfl⟩
  intro a i ha
  obtain ⟨h1, h2, h3⟩ := coeff_step_shape E k a i
  exact ⟨ha.1.trans h1, h2.trans ha.2.1, h3.trans ha.2.2⟩

theorem add_mul_b_rows_shape (m : MatHouseholder) (k : Nat) (xf : Nat → FT) :
    SameShape m (add_mul_b_rows m k xf) := ⟨rfl, rfl, rfl⟩

theorem size_reduction_pass_shape (E : Backend) (sr : FT) (m : MatHouseholder) (k : Nat) :
    SameShape m (size_reduction_pass E sr m k).1 := by
  unfold size_reduction_pass
  dsimp only
  exact ((update_R_shape E m k (k - 1)).trans (coeff_loop_shape E _ k).1).trans
    (add_mul_b_rows_shape _ _ _)

theorem size_reduction_shape (E : Backend) (sr : FT) :
    ∀ (fuel : Nat) (m m1 : MatHouseholder) (k : Nat),
      size_reduction E sr fuel m k = some m1 → SameShape m m1 := by
  intro fuel
  induction fuel with
  | zero => intro m m1 k h; simp [size_reduction] at h
  | succ f ih =>
    intro m m1 k h
    rw [size_reduction] at h
    split_ifs at h with hc
    · exact (size_reduction_pass_shape E sr m k).trans (ih _ _ _ h)
    · cases h
      exact (size_reduction_pass_shape E sr m k).trans (update_R_shape E _ k k)

theorem invalidate_row_shape (E : Backend) (m : MatHouseholder) (k : Nat) :
    SameShape m (invalidate_row E m k) := by
  obtain ⟨-, -, -, -, -, h1, h2, h3⟩ := invalidate_row_frame E m k
  exact ⟨h1, h2, h3⟩

theorem swap_shape (E : Backend) (m : MatHouseholder) (i j : Nat) :
    SameShape m (swap E m i j) := invalidate_row_shape E m i

theorem engine_at_head_shape (E : Backend) (s : LLLState) :
    SameShape s.m (engine_at_head E s) := by
  unfold engine_at_head
  split_ifs
  · exact update_R_shape E s.m 0 0
  · exact SameShape.refl _

/-! ## The main loop as a state machine -/

theorem lll_step_cases (E : Backend) (delta sr : FT) (passes : Nat) (s s1 : LLLState)
    (e : StepLog) (h : lll_step E delta sr passes s = some (s1, e)) :
    ∃ m1, size_reduction E sr passes (engine_at_head E s) s.k = some m1 ∧
      ((lovasz_test delta m1 s.k = true ∧ s1.m = m1 ∧ s1.k = s.k + 1 ∧
          s1.update_R_row_0 = flag_at_test s ∧
          e = { ran_update_R_0 := s.update_R_row_0, swapped := none }) ∨
       (lovasz_test delta m1 s.k = false ∧ s1.m = swap E m1 (s.k - 1) s.k ∧
          s1.k = max (s.k - 1) 1 ∧
          s1.update_R_row_0 = (if s.k - 1 = 0 then !flag_at_test s else flag_at_test s) ∧
          e = { ran_update_R_0 := s.update_R_row_0, swapped := some (s.k - 1, s.k) })) := by
  unfold lll_step at h
  dsimp only at h
  cases hsr : size_reduction E sr passes (engine_at_head E s) s.k with
  | none => rw [hsr] at h; simp at h
  | some m1 =>
    rw [hsr] at h
    dsimp only at h
    refine ⟨m1, rfl, ?_⟩
    by_cases ht : lovasz_test delta m1 s.k = true
    · left
      rw [if_pos ht] at h
      simp only [Option.some.injEq, Prod.mk.injEq] at h
      obtain ⟨h1, h2⟩ := h
      subst h1 h2
      exact ⟨ht, rfl, rfl, rfl, rfl⟩
    · right
      rw [if_neg ht] at h
      simp only [Option.some.injEq, Prod.mk.injEq] at h
      obtain ⟨h1, h2⟩ := h
      subst h1 h2
      exact ⟨by simpa using ht, rfl, rfl, rfl, rfl⟩

theorem lll_step_shape (E : Backend) (delta sr : FT) (passes : Nat) (s s1 : LLLState)
    (e : StepLog) (h : lll_step E delta sr passes s = some (s1, e)) :
    SameShape s.m s1.m := by
  obtain ⟨m1, hsr, hc⟩ := lll_step_cases E delta sr passes s s1 e h
  have h1 : SameShape s.m m1 :=
    (engine_at_head_shape E s).trans (size_reduction_shape E sr _ _ _ _ hsr)
  rcases hc with ⟨-, hm, -⟩ | ⟨-, hm, -⟩
  · rw [hm]; exact h1
  · rw [hm]; exact h1.trans (swap_shape E m1 _ _)

theorem reach_inv (E : Backend) (delta sr : FT) (passes : Nat) (m0 : MatHouseholder)
    (hd : 1 ≤ m0.d) (s : LLLState) (hr : Reach E delta sr passes m0 s) :
    s.m.d = m0.d ∧ 1 ≤ s.k ∧ s.k ≤ m0.d := by
  induction hr with
  | init => exact ⟨rfl, le_refl 1, hd⟩
  | step hprev hlt hstep ih =>
    rename_i s s1 e
    obtain ⟨ihd, ihk, -⟩ := ih
    have hsh := lll_step_shape E delta sr passes s s1 e hstep
    obtain ⟨m1, -, hc⟩ := lll_step_cases E delta sr passes s s1 e hstep
    refine ⟨hsh.1.trans ihd, ?_⟩
    rcases hc with ⟨-, -, hk, -⟩ | ⟨-, -, hk, -⟩
    · rw [hk]; omega
    · rw [hk]
      refine ⟨le_max_right _ _, ?_⟩
      have : s.k - 1 ≤ m0.d := by omega
      exact max_le this hd

theorem lll_loop_reach (E : Backend) (delta sr : FT) (passes : Nat) (m0 : MatHouseholder) :
    ∀ (fuel : Nat) (s sf : LLLState) (es : List StepLog),
      Reach E delta sr passes m0 s → lll_loop E delta sr passes fuel s = some (sf, es) →
      Reach E delta sr passes m0 sf ∧ ¬ sf.k < sf.m.d := by
  intro fuel
  induction fuel with
  | zero => intro s sf es _ h; simp [lll_loop] at h
  | succ f ih =>
    intro s sf es hr h
    rw [lll_loop] at h
    split_ifs at h with hlt
    · cases hst : lll_step E delta sr passes s with
      | none => rw [hst] at h; simp at h
      | some p =>
        obtain ⟨s1, e⟩ := p
        rw [hst] at h
        dsimp only at h
        cases hl : lll_loop E delta sr passes f s1 with
        | none => rw [hl] at h; simp at h
        | some q =>
          obtain ⟨s2, es2⟩ := q
          rw [hl] at h
          simp only [Option.some.injEq, Prod.mk.injEq] at h
          obtain ⟨h1, -⟩ := h
          subst h1
          exact ih s1 s2 es2 (Reach.step hr hlt hst) hl
    · simp only [Option.some.injEq, Prod.mk.injEq] at h
      obtain ⟨h1, -⟩ := h
      subst h1
      exact ⟨hr, hlt⟩

/-- C8: cursor invariant of the `lll()` state machine.  For a basis with `d ≥ 1` rows, every
loop-head state `s` reachable from the initial state `k = 1` has `1 ≤ k ≤ d` (so `1 ≤ k < d`
when the loop test passes and the body runs, and `k = d` when it fails); an iteration from `s`
either passes the Lovasz test, keeps the size-reduced engine without a swap and sets `k` to
`k + 1`, or fails it, swaps rows `k - 1` and `k` and sets `k` to `max (k - 1) 1`; and every
final state returned by the loop has `k = d`. -/
theorem C8_cursor_invariant (E : Backend) (delta sr : FT) (passes : Nat) (m0 : MatHouseholder)
    (hd : 1 ≤ m0.d) (s : LLLState) (hr : Reach E delta sr passes m0 s) :
    1 ≤ s.k ∧ s.m.d = m0.d ∧
    (s.k < s.m.d → 1 ≤ s.k ∧ s.k < m0.d) ∧
    (¬ s.k < s.m.d → s.k = m0.d) ∧
    (∀ s1 e, lll_step E delta sr passes s = some (s1, e) →
      ∃ m1, size_reduction E sr passes (engine_at_head E s) s.k = some m1 ∧
        ((lovasz_test delta m1 s.k = true ∧ e.swapped = none ∧ s1.m = m1 ∧
            s1.k = s.k + 1) ∨
         (lovasz_test delta m1 s.k = false ∧ e.swapped = some (s.k - 1, s.k) ∧
            s1.m = swap E m1 (s.k - 1) s.k ∧ s1.k = max (s.k - 1) 1))) ∧
    (∀ fuel sf es, lll_loop E delta sr passes fuel s = some (sf, es) → sf.k = m0.d) := by
  obtain ⟨h1, h2, h3⟩ := reach_inv E delta sr passes m0 hd s hr
  refine ⟨h2, h1, fun h => ⟨h2, by omega⟩, fun h => by omega, ?_, ?_⟩
  · intro s1 e hst
    obtain ⟨m1, hsr, hc⟩ := lll_step_cases E delta sr passes s s1 e hst
    refine ⟨m1, hsr, ?_⟩
    rcases hc with ⟨ht, hm, hk, -, he⟩ | ⟨ht, hm, hk, -, he⟩
    · left; exact ⟨ht, by rw [he], hm, hk⟩
    · right; exact ⟨ht, by rw [he], hm, hk⟩
  · intro fuel sf es hl
    obtain ⟨hrf, hnf⟩ := lll_loop_reach E delta sr passes m0 fuel s sf es hr hl
    obtain ⟨g1, g2, g3⟩ := reach_inv E delta sr passes m0 hd sf hrf
    omega

/-! ## Recomputation of row 0 -/

theorem flag_at_test_false (s : LLLState) : flag_at_test s = false := by
  unfold flag_at_test
  cases s.update_R_row_0 <;> rfl

theorem lll_loop_log (E : Backend) (delta sr : FT) (passes : Nat) :
    ∀ (fuel : Nat) (s sf : LLLState) (es : List StepLog),
      1 ≤ s.k → lll_loop E delta sr passes fuel s = some (sf, es) →
      (∀ e ∈ es.head?, e.ran_update_R_0 = s.update_R_row_0) ∧
      List.Chain' (fun e1 e2 : StepLog =>
        (e2.ran_update_R_0 = true ↔ e1.swapped = some (0, 1))) es := by
  intro fuel
  induction fuel with
  | zero => intro s sf es _ h; simp [lll_loop] at h
  | succ f ih =>
    intro s sf es hk h
    rw [lll_loop] at h
    split_ifs at h with hlt
    · cases hst : lll_step E delta sr passes s with
      | none => rw [hst] at h; simp at h
      | some p =>
        obtain ⟨s1, e⟩ := p
        rw [hst] at h
        dsimp only at h
        cases hl : lll_loop E delta sr passes f s1 with
        | none => rw [hl] at h; simp at h
        | some q =>
          obtain ⟨s2, es2⟩ := q
          rw [hl] at h
          simp only [Option.some.injEq, Prod.mk.injEq] at h
          obtain ⟨-, h2⟩ := h
          subst h2
          obtain ⟨m1, -, hc⟩ := lll_step_cases E delta sr passes s s1 e hst
          have hk1 : 1 ≤ s1.k := by
            rcases hc with ⟨-, -, hk1, -⟩ | ⟨-, -, hk1, -⟩
            · rw [hk1]; omega
            · rw [hk1]; exact le_max_right _ _
          obtain ⟨ihh, ihc⟩ := ih s1 s2 es2 hk1 hl
          have hran : e.ran_update_R_0 = s.update_R_row_0 := by
            rcases hc with ⟨-, -, -, -, he⟩ | ⟨-, -, -, -, he⟩ <;> rw [he]
          refine ⟨?_, ?_⟩
          · intro e1 he1
            simp only [List.head?_cons, Option.mem_def, Option.some.injEq] at he1
            subst he1
            exact hran
          · rw [List.chain'_cons']
            refine ⟨?_, ihc⟩
            intro e2 he2
            rw [ihh e2 he2]
            rcases hc with ⟨-, -, -, hf, he⟩ | ⟨-, -, -, hf, he⟩
            · rw [hf, he, flag_at_test_false]
              simp
            · rw [hf, he, flag_at_test_false]
              by_cases h0 : s.k - 1 = 0
              · have : s.k = 1 := by omega
                simp [this]
              · have : s.k ≠ 1 := by omega
                simp [h0, this]
    · simp only [Option.some.injEq, Prod.mk.injEq] at h
      obtain ⟨-, h2⟩ := h
      subst h2
      simp

theorem lll_step_ran (E : Backend) (delta sr : FT) (passes : Nat) (s s1 : LLLState)
    (e : StepLog) (h : lll_step E delta sr passes s = some (s1, e)) :
    e.ran_update_R_0 = s.update_R_row_0 ∧
    (1 ≤ s.k → (s1.update_R_row_0 = true ↔ e.swapped = some (0, 1))) := by
  obtain ⟨m1, -, hc⟩ := lll_step_cases E delta sr passes s s1 e h
  rcases hc with ⟨-, -, -, hf, he⟩ | ⟨-, -, -, hf, he⟩
  · refine ⟨by rw [he], fun _ => ?_⟩
    rw [hf, he, flag_at_test_false]
    simp
  · refine ⟨by rw [he], fun hk => ?_⟩
    rw [hf, he, flag_at_test_false]
    by_cases h0 : s.k - 1 = 0
    · have : s.k = 1 := by omega
      simp [this]
    · have : s.k ≠ 1 := by omega
      simp [h0, this]

/-- C9: row-0 recomputation in `lll()`.  The flag `update_R_row_0` is false at the point of the
Lovasz test in every iteration; the first iteration runs `update_R(0)`; of two consecutive
iterations the second runs `update_R(0)` if and only if the first swapped rows 0 and 1; and so
in the log of a run of `lll()` the first entry has run `update_R(0)` and every later entry has
run it exactly when the entry before it is a swap of rows 0 and 1. -/
theorem C9_row0_recomputation (E : Backend) (delta sr : FT) (passes fuel : Nat)
    (m0 : MatHouseholder) (sf : LLLState) (es : List StepLog)
    (h : lll E delta sr passes fuel m0 = some (sf, es)) :
    (∀ s : LLLState, flag_at_test s = false) ∧
    (∀ s1 e, lll_step E delta sr passes (lll_init m0) = some (s1, e) →
      e.ran_update_R_0 = true) ∧
    (∀ s s1 e1 s2 e2, 1 ≤ s.k → lll_step E delta sr passes s = some (s1, e1) →
      lll_step E delta sr passes s1 = some (s2, e2) →
      (e2.ran_update_R_0 = true ↔ e1.swapped = some (0, 1))) ∧
    (∀ e ∈ es.head?, e.ran_update_R_0 = true) ∧
    List.Chain' (fun e1 e2 : StepLog =>
      (e2.ran_update_R_0 = true ↔ e1.swapped = some (0, 1))) es := by
  obtain ⟨h1, h2⟩ := lll_loop_log E delta sr passes fuel (lll_init m0) sf es (le_refl 1) h
  refine ⟨flag_at_test_false, ?_, ?_, h1, h2⟩
  · intro s1 e hst
    exact (lll_step_ran E delta sr passes _ s1 e hst).1
  · intro s s1 e1 s2 e2 hk hst1 hst2
    rw [(lll_step_ran E delta sr passes s1 s2 e2 hst2).1]
    exact (lll_step_ran E delta sr passes s s1 e1 hst1).2 hk

/-! ## The verification predicate -/

theorem update_R_all_frame (E : Backend) (m : MatHouseholder) :
    SameShape m (update_R_all E m) ∧ (update_R_all E m).b = m.b := by
  unfold update_R_all
  refine foldl_inv (fun a : MatHouseholder => SameShape m a ∧ a.b = m.b) _ ?_ _ m
    ⟨SameShape.refl m, rfl⟩
  intro a i ha
  exact ⟨ha.1.trans (update_R_shape E a i i), ha.2⟩

theorem size_check_row_iff (m : MatHouseholder) (i : Nat) (l : List Nat) :
    size_check_row m i l = true ↔ ∀ j ∈ l, |m.R i j / m.R j j| ≤ 1 / 2 := by
  induction l with
  | nil => simp [size_check_row]
  | cons j js ih =>
    simp only [size_check_row, get_R, List.mem_cons, forall_eq_or_imp]
    split_ifs with hv
    · constructor
      · intro h; cases h
      · intro h; exact absurd h.1 (not_le.mpr hv)
    · rw [ih]
      exact ⟨fun h => ⟨not_lt.mp hv, h⟩, fun h => h.2⟩

theorem size_check_iff (m : MatHouseholder) (l : List Nat) :
    size_check m l = true ↔ ∀ i ∈ l, ∀ j, j < i → |m.R i j / m.R j j| ≤ 1 / 2 := by
  induction l with
  | nil => simp [size_check]
  | cons i is ih =>
    simp only [size_check, List.mem_cons, forall_eq_or_imp]
    split_ifs with hv
    · rw [ih]
      rw [size_check_row_iff] at hv
      exact ⟨fun h => ⟨fun j hj => hv j (List.mem_range.mpr hj), h⟩, fun h => h.2⟩
    · constructor
      · intro h; cases h
      · intro h
        exfalso
        apply hv
        rw [size_check_row_iff]
        intro j hj
        exact h.1 j (List.mem_range.mp hj)

theorem lovasz_check_iff (E : Backend) (delta : FT) (m : MatHouseholder) (l : List Nat) :
    lovasz_check E delta m l = true ↔
      ∀ i ∈ l, delta * (m.R (i - 1) (i - 1) * m.R (i - 1) (i - 1)) ≤
        (norm_square_b_row E m i).1 - (norm_square_R_row m i (i - 1)).1 := by
  induction l with
  | nil => simp [lovasz_check]
  | cons i is ih =>
    simp only [lovasz_check, get_R, List.mem_cons, forall_eq_or_imp]
    split_ifs with hv
    · constructor
      · intro h; cases h
      · intro h; exact absurd h.1 (not_le.mpr hv)
    · rw [ih]
      exact ⟨fun h => ⟨not_lt.mp hv, h⟩, fun h => h.2⟩

theorem mem_range_tail (d i : Nat) : i ∈ (List.range d).tail ↔ 1 ≤ i ∧ i < d := by
  cases d with
  | zero => simp
  | succ n =>
    rw [List.range_succ_eq_map]
    simp only [List.tail_cons, List.mem_map, List.mem_range]
    constructor
    · rintro ⟨a, ha, rfl⟩; omega
    · intro h; exact ⟨i - 1, by omega, by omega⟩

theorem norm_square_R_row_val (m : MatHouseholder) (k e : Nat) :
    (norm_square_R_row m k e).1 = ∑ c in Finset.range e, m.R k c ^ 2 := by
  unfold norm_square_R_row
  by_cases h : e = 0
  · subst h; simp
  · simp only [h, if_false]
    exact Finset.sum_congr rfl (fun c _ => (sq (m.R k c)).symm)

theorem norm_square_b_row_plain (E : Backend) (m : MatHouseholder) (k : Nat)
    (h : m.enable_row_expo = false) :
    norm_square_b_row E m k = (((dot_b m k : ℤ) : ℚ), -1) := by
  unfold norm_square_b_row
  simp [h]

theorem is_hlll_reduced_conditions (E : Backend) (m : MatHouseholder) (delta eta : FT)
    (hexpo : m.enable_row_expo = false) :
    (is_hlll_reduced E m delta eta).1 = true ↔
      (∀ i j, j < i → i < m.d →
          |(update_R_all E m).R i j / (update_R_all E m).R j j| ≤ 1 / 2) ∧
      (∀ i, 1 ≤ i → i < m.d →
          delta * (update_R_all E m).R (i - 1) (i - 1) ^ 2 ≤
            ((dot_b m i : ℤ) : ℚ) - ∑ j in Finset.range (i - 1), (update_R_all E m).R i j ^ 2) := by
  obtain ⟨hsh, hb⟩ := update_R_all_frame E m
  have hdot : ∀ i, dot_b (update_R_all E m) i = dot_b m i := by
    intro i; unfold dot_b; rw [hb, hsh.2.1]
  have hex : (update_R_all E m).enable_row_expo = false := by rw [hsh.2.2]; exact hexpo
  have hA : size_check (update_R_all E m) (List.range (update_R_all E m).d) = true ↔
      ∀ i j, j < i → i < m.d →
          |(update_R_all E m).R i j / (update_R_all E m).R j j| ≤ 1 / 2 := by
    rw [size_check_iff, hsh.1]
    exact ⟨fun h i j hj hi => h i (List.mem_range.mpr hi) j hj,
           fun h i hi j hj => h i j hj (List.mem_range.mp hi)⟩
  have hB : lovasz_check E delta (update_R_all E m) (List.range (update_R_all E m).d).tail = true ↔
      ∀ i, 1 ≤ i → i < m.d →
          delta * (update_R_all E m).R (i - 1) (i - 1) ^ 2 ≤
            ((dot_b m i : ℤ) : ℚ) - ∑ j in Finset.range (i - 1), (update_R_all E m).R i j ^ 2 := by
    rw [lovasz_check_iff, hsh.1]
    have key : ∀ i, (delta * ((update_R_all E m).R (i - 1) (i - 1) *
          (update_R_all E m).R (i - 1) (i - 1)) ≤
          (norm_square_b_row E (update_R_all E m) i).1 -
            (norm_square_R_row (update_R_all E m) i (i - 1)).1) ↔
        (delta * (update_R_all E m).R (i - 1) (i - 1) ^ 2 ≤
            ((dot_b m i : ℤ) : ℚ) -
              ∑ j in Finset.range (i - 1), (update_R_all E m).R i j ^ 2) := by
      intro i
      rw [norm_square_b_row_plain E _ i hex, norm_square_R_row_val, hdot, sq]
    constructor
    · intro h i h1 h2
      exact (key i).mp (h i ((mem_range_tail _ _).mpr ⟨h1, h2⟩))
    · intro h i hi
      obtain ⟨h1, h2⟩ := (mem_range_tail _ _).mp hi
      exact (key i).mpr (h i h1 h2)
  unfold is_hlll_reduced
  dsimp only
  split_ifs with hs
  · rw [← hA, ← hB]
    exact ⟨fun h => ⟨hs, h⟩, fun h => h.2⟩
  · rw [← hA]
    constructor
    · intro h; cases h
    · intro h; exact absurd h.1 hs

/-- C7: with row-exponent scaling disabled and nonzero divisors `R(j,j)` (`j < d - 1`) in the
R matrix computed by `update_R()`, `is_hlll_reduced` returns true exactly when that matrix
satisfies (a) `|R(i,j) / R(j,j)| ≤ 1/2` for all `j < i < d` and
(b) `delta * R(i-1,i-1)^2 ≤ ||b[i]||^2 - Σ_{j < i-1} R(i,j)^2` for all `1 ≤ i < d`; hence it
returns false whenever one of the checks is violated. -/
theorem C7_is_hlll_reduced_iff (E : Backend) (m : MatHouseholder) (delta eta : FT)
    (hexpo : m.enable_row_expo = false)
    (_hdiag : ∀ j, j + 1 < m.d → (update_R_all E m).R j j ≠ 0) :
    (is_hlll_reduced E m delta eta).1 = true ↔
      (∀ i j, j < i → i < m.d →
          |(update_R_all E m).R i j / (update_R_all E m).R j j| ≤ 1 / 2) ∧
      (∀ i, 1 ≤ i → i < m.d →
          delta * (update_R_all E m).R (i - 1) (i - 1) ^ 2 ≤
            ((dot_b m i : ℤ) : ℚ) - ∑ j in Finset.range (i - 1), (update_R_all E m).R i j ^ 2) :=
  is_hlll_reduced_conditions E m delta eta hexpo

/-- C8 (witness): the initial state of `lll()` on the engine over `[[1,0],[0,1]]`. -/
theorem C8_cursor_invariant_witness :
    1 ≤ engineKnown2.d ∧
    Reach (triangularBackend true) (99 / 100) (1 / 2) 1 engineKnown2 (lll_init engineKnown2) ∧
    1 ≤ (lll_init engineKnown2).k ∧ (lll_init engineKnown2).m.d = engineKnown2.d :=
  ⟨by decide, Reach.init,
   (C8_cursor_invariant (triangularBackend true) (99 / 100) (1 / 2) 1 engineKnown2 (by decide)
      (lll_init engineKnown2) Reach.init).1,
   (C8_cursor_invariant (triangularBackend true) (99 / 100) (1 / 2) 1 engineKnown2 (by decide)
      (lll_init engineKnown2) Reach.init).2.1⟩

/-! ## Determinant of the basis -/

theorem det_swap_rows (b : Nat → Nat → ZT) (d i j : Nat) (hij : i < j) (hj : j < d) :
    (basisMatrix (swap_rows b i j) d).det = - (basisMatrix b d).det := by
  have hi : i < d := lt_trans hij hj
  have hne : (⟨i, hi⟩ : Fin d) ≠ ⟨j, hj⟩ := by
    intro h
    have := Fin.mk.inj_iff.mp h
    omega
  have hM : basisMatrix (swap_rows b i j) d =
      (basisMatrix b d).submatrix (Equiv.swap (⟨i, hi⟩ : Fin d) ⟨j, hj⟩) id := by
    ext r c
    simp only [basisMatrix, swap_rows, Matrix.of_apply, Matrix.submatrix_apply, id_eq,
      Equiv.swap_apply_def]
    by_cases h1 : r.val = i
    · have : r = ⟨i, hi⟩ := Fin.ext h1
      simp [h1, this]
    · have h1f : r ≠ ⟨i, hi⟩ := fun h => h1 (by rw [h])
      by_cases h2 : r.val = j
      · have : r = ⟨j, hj⟩ := Fin.ext h2
        have hji : j ≠ i := by omega
        subst this
        simp [hji, hne.symm]
      · have h2f : r ≠ ⟨j, hj⟩ := fun h => h2 (by rw [h])
        simp [h1, h2, h1f, h2f]
  rw [hM, Matrix.det_permute, Equiv.Perm.sign_swap hne]
  simp

theorem det_add_rows_upto (b : Nat → Nat → ZT) (d k : Nat) (z : Nat → ZT) (hk : k < d) :
    ∀ t, t ≤ k → (basisMatrix (add_rows_upto b k z t) d).det = (basisMatrix b d).det := by
  intro t
  induction t with
  | zero =>
    intro _
    have : add_rows_upto b k z 0 = b := by
      funext r c
      simp only [add_rows_upto, Finset.range_zero, Finset.sum_empty, add_zero]
      split_ifs with h
      · rw [h]
      · rfl
    rw [this]
  | succ t ih =>
    intro ht
    have htk : t < k := ht
    have htd : t < d := lt_trans htk hk
    have hne : (⟨k, hk⟩ : Fin d) ≠ ⟨t, htd⟩ := by
      intro h
      have := Fin.mk.inj_iff.mp h
      omega
    have hM : basisMatrix (add_rows_upto b k z (t + 1)) d =
        Matrix.updateRow (basisMatrix (add_rows_upto b k z t) d) ⟨k, hk⟩
          ((basisMatrix (add_rows_upto b k z t) d) ⟨k, hk⟩ +
            (z t) • (basisMatrix (add_rows_upto b k z t) d) ⟨t, htd⟩) := by
      ext r c
      by_cases h1 : r = ⟨k, hk⟩
      · subst h1
        rw [Matrix.updateRow_self]
        have htk2 : t ≠ k := by omega
        simp only [basisMatrix, add_rows_upto, Matrix.of_apply, Pi.add_apply, Pi.smul_apply,
          if_true, htk2, if_false, Finset.sum_range_succ, smul_eq_mul]
        ring
      · rw [Matrix.updateRow_ne h1]
        have h2 : r.val ≠ k := fun h => h1 (Fin.ext h)
        simp only [basisMatrix, add_rows_upto, Matrix.of_apply, h2, if_false]
    rw [hM, Matrix.det_updateRow_add_smul_self _ hne]
    exact ih (le_of_lt htk)

theorem det_add_mul_b_rows (m : MatHouseholder) (d k : Nat) (xf : Nat → FT) (hk : k < d) :
    (basisMatrix (add_mul_b_rows m k xf).b d).det = (basisMatrix m.b d).det := by
  have : (add_mul_b_rows m k xf).b = add_rows_upto m.b k (fun i => set_f (xf i)) k := rfl
  rw [this]
  exact det_add_rows_upto m.b d k _ hk k (le_refl k)

theorem size_reduction_pass_det (E : Backend) (sr : FT) (m : MatHouseholder) (d k : Nat)
    (hk : k < d) :
    (basisMatrix (size_reduction_pass E sr m k).1.b d).det = (basisMatrix m.b d).det := by
  unfold size_reduction_pass
  dsimp only
  rw [det_add_mul_b_rows _ d k _ hk, (coeff_loop_shape E _ k).2.1, update_R_b]

theorem size_reduction_det (E : Backend) (sr : FT) (d k : Nat) (hk : k < d) :
    ∀ (fuel : Nat) (m m1 : MatHouseholder), size_reduction E sr fuel m k = some m1 →
      (basisMatrix m1.b d).det = (basisMatrix m.b d).det := by
  intro fuel
  induction fuel with
  | zero => intro m m1 h; simp [size_reduction] at h
  | succ f ih =>
    intro m m1 h
    rw [size_reduction] at h
    split_ifs at h with hc
    · rw [ih _ _ h, size_reduction_pass_det E sr m d k hk]
    · cases h
      unfold update_R_row
      rw [update_R_b, size_reduction_pass_det E sr m d k hk]

theorem swap_b (E : Backend) (m : MatHouseholder) (i j : Nat) :
    (swap E m i j).b = swap_rows m.b i j := by
  unfold swap
  dsimp only
  rw [(invalidate_row_frame E m i).1]

theorem engine_at_head_b (E : Backend) (s : LLLState) : (engine_at_head E s).b = s.m.b := by
  unfold engine_at_head
  split_ifs
  · rfl
  · rfl

/-- C3: determinant preservation.  On the first `d` rows and columns of the basis,
`swap(i, j)` with `i < j < d` negates the determinant, `add_mul_b_rows(k, x)` with `k < d`
leaves it unchanged, and an iteration of the main loop of `lll()` run at a cursor
`1 ≤ k < d` leaves its absolute value unchanged. -/
theorem C3_determinant_preserved (E : Backend) (m : MatHouseholder) :
    (∀ i j, i < j → j < m.d →
        (basisMatrix (swap E m i j).b m.d).det = - (basisMatrix m.b m.d).det) ∧
    (∀ k xf, k < m.d →
        (basisMatrix (add_mul_b_rows m k xf).b m.d).det = (basisMatrix m.b m.d).det) ∧
    (∀ delta sr passes k k_max flag s1 e, 1 ≤ k → k < m.d →
        lll_step E delta sr passes
          { m := m, k := k, k_max := k_max, update_R_row_0 := flag } = some (s1, e) →
        |(basisMatrix s1.m.b m.d).det| = |(basisMatrix m.b m.d).det|) := by
  refine ⟨?_, ?_, ?_⟩
  · intro i j hij hj
    rw [swap_b]
    exact det_swap_rows m.b m.d i j hij hj
  · intro k xf hk
    exact det_add_mul_b_rows m m.d k xf hk
  · intro delta sr passes k k_max flag s1 e hk1 hk hst
    obtain ⟨m1, hsr, hc⟩ := lll_step_cases E delta sr passes _ s1 e hst
    have h1 : (basisMatrix m1.b m.d).det = (basisMatrix m.b m.d).det := by
      rw [size_reduction_det E sr m.d k hk _ _ _ hsr, engine_at_head_b]
    rcases hc with ⟨-, hm, -⟩ | ⟨-, hm, -⟩
    · rw [hm, h1]
    · rw [hm, swap_b]
      dsimp only
      rw [det_swap_rows m1.b m.d (k - 1) k (by omega) hk, h1, abs_neg]

/-! ## Passes of the size-reduction loop -/

theorem size_reduction_pass_b (E : Backend) (sr : FT) (m : MatHouseholder) (k : Nat) :
    (size_reduction_pass E sr m k).1.b = add_rows_upto m.b k (pass_coeffs E m k) k := by
  unfold size_reduction_pass
  dsimp only
  show (add_mul_b_rows _ k _).b = _
  unfold add_mul_b_rows add_rows_upto pass_coeffs
  dsimp only
  rw [(coeff_loop_shape E _ k).2.1, update_R_b]

theorem dot_b_pass (E : Backend) (sr : FT) (m : MatHouseholder) (k : Nat) :
    dot_b (size_reduction_pass E sr m k).1 k =
      ∑ c in Finset.range m.n,
        (m.b k c + ∑ i in Finset.range k, pass_coeffs E m k i * m.b i c) ^ 2 := by
  unfold dot_b
  rw [size_reduction_pass_b, (size_reduction_pass_shape E sr m k).2.1]
  refine Finset.sum_congr rfl (fun c _ => ?_)
  simp only [add_rows_upto, if_true]
  ring

theorem dot_b_pos (m : MatHouseholder) (k : Nat) (h : RowIndep m.b m.n k) : 0 < dot_b m k := by
  have := h (fun _ => 0)
  simp only [zero_mul, Finset.sum_const_zero, sub_zero] at this
  unfold dot_b
  refine lt_of_lt_of_eq this (Finset.sum_congr rfl (fun c _ => ?_))
  ring

theorem rowIndep_pass (E : Backend) (sr : FT) (m : MatHouseholder) (k : Nat)
    (h : RowIndep m.b m.n k) :
    RowIndep (size_reduction_pass E sr m k).1.b (size_reduction_pass E sr m k).1.n k := by
  intro z
  rw [size_reduction_pass_b, (size_reduction_pass_shape E sr m k).2.1]
  have := h (fun i => z i - pass_coeffs E m k i)
  refine lt_of_lt_of_eq this (Finset.sum_congr rfl (fun c _ => ?_))
  congr 1
  simp only [add_rows_upto, if_true]
  have hs : ∑ i in Finset.range k, z i * (if i = k then
        m.b k c + ∑ i in Finset.range k, pass_coeffs E m k i * m.b i c else m.b i c)
      = ∑ i in Finset.range k, z i * m.b i c := by
    refine Finset.sum_congr rfl (fun i hi => ?_)
    have : i ≠ k := by
      have := Finset.mem_range.mp hi
      omega
    rw [if_neg this]
  rw [hs]
  simp only [sub_mul, Finset.sum_sub_distrib]
  ring

theorem pass_repeat_iff (E : Backend) (sr : FT) (m : MatHouseholder) (k : Nat)
    (hexact : m.enable_row_expo = true → ExactExp E) :
    (size_reduction_pass E sr m k).2 = true ↔
      ((dot_b (size_reduction_pass E sr m k).1 k : ℤ) : ℚ) ≤ sr * ((dot_b m k : ℤ) : ℚ) := by
  have hold : dot_b (coeff_loop E (update_R E m k (k - 1)) k).1 k = dot_b m k := by
    unfold dot_b
    rw [(coeff_loop_shape E _ k).2.1, (coeff_loop_shape E _ k).1.2.1, update_R_b]
    rfl
  have hflag : (coeff_loop E (update_R E m k (k - 1)) k).1.enable_row_expo
      = m.enable_row_expo := (coeff_loop_shape E _ k).1.2.2
  have hnew : dot_b (add_mul_b_rows (coeff_loop E (update_R E m k (k - 1)) k).1 k
      (coeff_loop E (update_R E m k (k - 1)) k).2) k
      = dot_b (size_reduction_pass E sr m k).1 k := rfl
  unfold size_reduction_pass
  dsimp only
  rw [decide_eq_true_iff]
  cases hen : m.enable_row_expo with
  | false =>
    have h1 : (coeff_loop E (update_R E m k (k - 1)) k).1.enable_row_expo = false := by
      rw [hflag, hen]
    have h2 : (add_mul_b_rows (coeff_loop E (update_R E m k (k - 1)) k).1 k
        (coeff_loop E (update_R E m k (k - 1)) k).2).enable_row_expo = false := h1
    rw [norm_square_b_row_plain E _ k h1, norm_square_b_row_plain E _ k h2, hold]
    simp only [gt_iff_lt, lt_self_iff_false, if_false]
  | true =>
    obtain hE := hexact hen
    have h1 : (coeff_loop E (update_R E m k (k - 1)) k).1.enable_row_expo = true := by
      rw [hflag, hen]
    have h2 : (add_mul_b_rows (coeff_loop E (update_R E m k (k - 1)) k).1 k
        (coeff_loop E (update_R E m k (k - 1)) k).2).enable_row_expo = true := h1
    unfold norm_square_b_row
    rw [h1, h2]
    simp only [if_true]
    rw [hold, hnew]
    obtain ⟨ho, -⟩ := hE (dot_b m k)
    obtain ⟨hn, hn0⟩ := hE (dot_b (size_reduction_pass E sr m k).1 k)
    have hgt : (E.get_f_exp (dot_b (size_reduction_pass E sr m k).1 k)).2 > -1 := by omega
    rw [if_pos hgt, ho, hn]
    unfold mul_2si
    have h2pos : (0 : ℚ) < (2 : ℚ) ^ (E.get_f_exp (dot_b m k)).2 := by positivity
    rw [zpow_sub₀ (by norm_num : (2 : ℚ) ≠ 0), ← mul_div_assoc, div_le_iff₀ h2pos]
    constructor <;> intro h <;> linarith

/-! ## Termination of the size-reduction loop -/

theorem size_reduction_terminates (E : Backend) (sr : FT) (k : Nat) (hsr1 : sr < 1) :
    ∀ (N : Nat) (m : MatHouseholder), (m.enable_row_expo = true → ExactExp E) →
      RowIndep m.b m.n k → dot_b m k ≤ (N : ℤ) →
      ∃ m1, size_reduction E sr N m k = some m1 := by
  intro N
  induction N with
  | zero =>
    intro m _ hind hle
    have := dot_b_pos m k hind
    simp only [Nat.cast_zero] at hle
    exact absurd (lt_of_lt_of_le this hle) (lt_irrefl _)
  | succ N ih =>
    intro m hex hind hle
    rw [size_reduction]
    by_cases hc : (size_reduction_pass E sr m k).2 = true
    · simp only [hc, if_true]
      have hex1 : (size_reduction_pass E sr m k).1.enable_row_expo = true → ExactExp E := by
        rw [(size_reduction_pass_shape E sr m k).2.2]; exact hex
      refine ih _ hex1 (rowIndep_pass E sr m k hind) ?_
      have hq := (pass_repeat_iff E sr m k hex).mp hc
      have hpos : (0 : ℚ) < ((dot_b m k : ℤ) : ℚ) := by exact_mod_cast dot_b_pos m k hind
      have hlt : ((dot_b (size_reduction_pass E sr m k).1 k : ℤ) : ℚ) < ((dot_b m k : ℤ) : ℚ) := by
        nlinarith
      have hlt2 : dot_b (size_reduction_pass E sr m k).1 k < dot_b m k := by exact_mod_cast hlt
      push_cast at hle
      have h3 := Int.lt_iff_add_one_le.mp hlt2
      linarith
    · simp only [hc]
      exact ⟨_, rfl⟩

/-- C5 (amended): let `0 < sr < 1`, let the backend's `get_f_exp` be exact when row-exponent
scaling is enabled, and let `b[k]` not be an integer combination of the rows before it.  Then a
pass of `size_reduction(k)` is repeated exactly when the exact squared norm of `b[k]` after the
pass is `≤ sr` times the one before it, a repeated pass strictly decreases that norm, and the
`do ... while` loop ends after at most `||b[k]||^2` passes. -/
theorem C5_size_reduction_terminates (E : Backend) (sr : FT) (m : MatHouseholder) (k : Nat)
    (_hsr0 : 0 < sr) (hsr1 : sr < 1) (hexact : m.enable_row_expo = true → ExactExp E)
    (hind : RowIndep m.b m.n k) :
    ((size_reduction_pass E sr m k).2 = true ↔
      ((dot_b (size_reduction_pass E sr m k).1 k : ℤ) : ℚ) ≤ sr * ((dot_b m k : ℤ) : ℚ)) ∧
    ((size_reduction_pass E sr m k).2 = true →
      dot_b (size_reduction_pass E sr m k).1 k < dot_b m k) ∧
    ∃ m1, size_reduction E sr (dot_b m k).toNat m k = some m1 := by
  have hpos := dot_b_pos m k hind
  refine ⟨pass_repeat_iff E sr m k hexact, ?_, ?_⟩
  · intro hc
    have hq := (pass_repeat_iff E sr m k hexact).mp hc
    have hposq : (0 : ℚ) < ((dot_b m k : ℤ) : ℚ) := by exact_mod_cast hpos
    have hlt : ((dot_b (size_reduction_pass E sr m k).1 k : ℤ) : ℚ) < ((dot_b m k : ℤ) : ℚ) := by
      nlinarith
    exact_mod_cast hlt
  · refine size_reduction_terminates E sr k hsr1 _ m hexact hind ?_
    rw [Int.toNat_of_nonneg (le_of_lt hpos)]

theorem triangularBackend_exactExp (dbg : Bool) : ExactExp (triangularBackend dbg) := by
  intro z
  simp [triangularBackend]

theorem rowIndep_id2 : RowIndep basisId2 2 1 := by
  intro z
  simp only [Finset.sum_range_succ, Finset.sum_range_zero, basisId2]
  norm_num
  positivity

/-- C5 (witness): row 1 of the engine with basis and R equal to `[[1,0],[0,1]]`, `sr = 1/2`. -/
theorem C5_size_reduction_terminates_witness :
    (0 : ℚ) < 1 / 2 ∧ (1 / 2 : ℚ) < 1 ∧ ExactExp (triangularBackend false) ∧
    RowIndep engineId2R.b engineId2R.n 1 ∧
    ∃ m1, size_reduction (triangularBackend false) (1 / 2) (dot_b engineId2R 1).toNat
      engineId2R 1 = some m1 :=
  ⟨by norm_num, by norm_num, triangularBackend_exactExp false, rowIndep_id2,
   (C5_size_reduction_terminates (triangularBackend false) (1 / 2) engineId2R 1 (by norm_num)
      (by norm_num) (fun _ => triangularBackend_exactExp false) rowIndep_id2).2.2⟩

/-! ## Running `lll()` on a reduced basis -/

theorem update_R_valid (E : Backend) (Rex : (Nat → Nat → ZT) → Nat → Nat → FT)
    (hR : ExactR E Rex) (m : MatHouseholder) (i j : Nat) :
    (∀ c, c ≤ j → (update_R E m i j).R i c = Rex m.b i c) ∧
    (∀ r, r ≠ i → ∀ c, (update_R E m i j).R r c = m.R r c) ∧
    (update_R E m i j).b = m.b ∧ (update_R E m i j).d = m.d ∧ (update_R E m i j).n = m.n ∧
    (update_R E m i j).enable_row_expo = m.enable_row_expo ∧
    (m.enable_row_expo = false → (update_R E m i j).row_expo = m.row_expo) := by
  refine ⟨(hR m i j).1, (hR m i j).2, rfl, rfl, rfl, rfl, ?_⟩
  intro h
  unfold update_R
  simp [h]

theorem update_R_all_valid (E : Backend) (Rex : (Nat → Nat → ZT) → Nat → Nat → FT)
    (hR : ExactR E Rex) (m : MatHouseholder) :
    ∀ t, ((List.range t).foldl (fun acc i => update_R_row E acc i) m).b = m.b ∧
      ∀ i, i < t → RowValid Rex ((List.range t).foldl (fun acc i => update_R_row E acc i) m) i := by
  intro t
  induction t with
  | zero => exact ⟨rfl, fun i hi => absurd hi (Nat.not_lt_zero i)⟩
  | succ t ih =>
    obtain ⟨ihb, ihv⟩ := ih
    rw [List.range_succ, List.foldl_append]
    simp only [List.foldl_cons, List.foldl_nil]
    obtain ⟨h1, h2, h3, -⟩ := update_R_valid E Rex hR
      ((List.range t).foldl (fun acc i => update_R_row E acc i) m) t t
    refine ⟨h3.trans ihb, ?_⟩
    intro i hi c hc
    show (update_R E ((List.range t).foldl (fun acc i => update_R_row E acc i) m) t t).R i c =
      Rex (update_R E ((List.range t).foldl (fun acc i => update_R_row E acc i) m) t t).b i c
    rw [h3]
    by_cases hit : i = t
    · subst hit
      exact h1 c hc
    · rw [h2 i hit c]
      exact ihv i (by omega) c hc

theorem coeff_step_zero (E : Backend) (hrnd : RoundsSmallToZero E) (m : MatHouseholder)
    (k i : Nat) (h : |m.R k i / m.R i i| ≤ 1 / 2) :
    coeff_step E k (m, fun _ => 0) i = (m, fun _ => 0) := by
  unfold coeff_step
  simp only [get_R]
  rw [hrnd _ _ h]
  simp

theorem coeff_loop_zero (E : Backend) (hrnd : RoundsSmallToZero E) (m : MatHouseholder)
    (k : Nat) (h : ∀ i, i < k → |m.R k i / m.R i i| ≤ 1 / 2) :
    coeff_loop E m k = (m, fun _ => 0) := by
  unfold coeff_loop
  have key : ∀ l : List Nat, (∀ i ∈ l, i < k) →
      l.foldl (coeff_step E k) (m, fun _ => 0) = (m, fun _ => 0) := by
    intro l
    induction l with
    | nil => intro _; rfl
    | cons i is ih =>
      intro hl
      rw [List.foldl_cons, coeff_step_zero E hrnd m k i (h i (hl i (List.mem_cons_self _ _)))]
      exact ih (fun j hj => hl j (List.mem_cons_of_mem _ hj))
  exact key _ (fun i hi => List.mem_range.mp (List.mem_reverse.mp hi))

theorem add_mul_b_rows_zero (m : MatHouseholder) (k : Nat) :
    add_mul_b_rows m k (fun _ => 0) = m := by
  unfold add_mul_b_rows
  have : (fun r c => if r = k then
      m.b k c + ∑ i in Finset.range k, set_f ((fun _ => (0 : FT)) i) * m.b i c else m.b r c)
      = m.b := by
    funext r c
    simp only [set_f, Int.floor_zero, zero_mul, Finset.sum_const_zero, add_zero]
    split_ifs with h
    · rw [h]
    · rfl
  rw [this]

theorem size_reduction_one_pass (E : Backend) (sr : FT) (hsr1 : sr < 1)
    (hrnd : RoundsSmallToZero E) (m : MatHouseholder) (k : Nat)
    (hen : m.enable_row_expo = false) (hpos : 0 < dot_b m k)
    (h : ∀ i, i < k →
      |(update_R E m k (k - 1)).R k i / (update_R E m k (k - 1)).R i i| ≤ 1 / 2) :
    size_reduction E sr 1 m k = some (update_R_row E (update_R E m k (k - 1)) k) := by
  have h1 : (size_reduction_pass E sr m k).1 = update_R E m k (k - 1) := by
    unfold size_reduction_pass
    dsimp only
    rw [coeff_loop_zero E hrnd _ k h]
    exact add_mul_b_rows_zero _ k
  have h2 : (size_reduction_pass E sr m k).2 = false := by
    cases hc : (size_reduction_pass E sr m k).2 with
    | false => rfl
    | true =>
      exfalso
      have hq := (pass_repeat_iff E sr m k (fun h => by rw [hen] at h; cases h)).mp hc
      rw [h1] at hq
      have hd : dot_b (update_R E m k (k - 1)) k = dot_b m k := rfl
      rw [hd] at hq
      have hposq : (0 : ℚ) < ((dot_b m k : ℤ) : ℚ) := by exact_mod_cast hpos
      nlinarith
  rw [size_reduction]
  simp only [h2, h1]
  rfl

theorem update_R_over (E : Backend) (Rex : (Nat → Nat → ZT) → Nat → Nat → FT)
    (hR : ExactR E Rex) (m0 m : MatHouseholder) (i j : Nat) (hm : EngineOver m0 m) :
    EngineOver m0 (update_R E m i j) ∧
    (∀ c, c ≤ j → (update_R E m i j).R i c = Rex m0.b i c) ∧
    (∀ r, r ≠ i → RowValid Rex m r → RowValid Rex (update_R E m i j) r) := by
  obtain ⟨hb, hd, hn, hen, hrow⟩ := hm
  obtain ⟨h1, h2, h3, h4, h5, h6, h7⟩ := update_R_valid E Rex hR m i j
  refine ⟨⟨h3.trans hb, h4.trans hd, h5.trans hn, h6.trans hen, ?_⟩, ?_, ?_⟩
  · intro t
    rw [h7 hen]
    exact hrow t
  · intro c hc
    rw [h1 c hc, hb]
  · intro r hr hv c hc
    rw [h2 r hr c, h3]
    exact hv c hc

theorem dot_b_over (m0 m : MatHouseholder) (k : Nat) (hm : EngineOver m0 m) :
    dot_b m k = dot_b m0 k := by
  unfold dot_b
  rw [hm.1, hm.2.2.1]

theorem idem_step (E : Backend) (Rex : (Nat → Nat → ZT) → Nat → Nat → FT) (delta sr : FT)
    (m0 : MatHouseholder) (s : LLLState) (hR : ExactR E Rex) (hrnd : RoundsSmallToZero E)
    (hsr1 : sr < 1)
    (hsize : ∀ i j, j < i → i < m0.d → |Rex m0.b i j / Rex m0.b j j| ≤ 1 / 2)
    (hlov : ∀ i, 1 ≤ i → i < m0.d →
      delta * (Rex m0.b (i - 1) (i - 1) * Rex m0.b (i - 1) (i - 1)) ≤
        Rex m0.b i i * Rex m0.b i i + Rex m0.b i (i - 1) * Rex m0.b i (i - 1))
    (hpos : ∀ i, 1 ≤ i → i < m0.d → 0 < dot_b m0 i)
    (hinv : IdemInv Rex m0 s) (hk : s.k < m0.d) :
    ∃ s1 e, lll_step E delta sr 1 s = some (s1, e) ∧ e.swapped = none ∧ s1.k = s.k + 1 ∧
      IdemInv Rex m0 s1 := by
  obtain ⟨ib, id_, in_, ien, irow, ik, ival⟩ := hinv
  have hs : EngineOver m0 s.m := ⟨ib, id_, in_, ien, irow⟩
  -- the engine after the optional `update_R(0)`
  have hh : EngineOver m0 (engine_at_head E s) ∧
      ∀ i, i < s.k → RowValid Rex (engine_at_head E s) i := by
    unfold engine_at_head
    cases hf : s.update_R_row_0 with
    | true =>
      simp only [if_true]
      obtain ⟨g1, g2, g3⟩ := update_R_over E Rex hR m0 s.m 0 0 hs
      refine ⟨g1, ?_⟩
      intro i hi
      by_cases h0 : i = 0
      · subst h0
        intro c hc
        show (update_R E s.m 0 0).R 0 c = Rex (update_R E s.m 0 0).b 0 c
        rw [g2 c hc, g1.1]
      · exact g3 i h0 (ival i hi (Or.inl (by omega)))
    | false =>
      simp only [Bool.false_eq_true, if_false]
      exact ⟨hs, fun i hi => ival i hi (Or.inr hf)⟩
  obtain ⟨hho, hhv⟩ := hh
  -- the engine after `update_R(k, k - 1)`
  obtain ⟨a1, a2, a3⟩ := update_R_over E Rex hR m0 (engine_at_head E s) s.k (s.k - 1) hho
  have hratio : ∀ i, i < s.k →
      |(update_R E (engine_at_head E s) s.k (s.k - 1)).R s.k i /
        (update_R E (engine_at_head E s) s.k (s.k - 1)).R i i| ≤ 1 / 2 := by
    intro i hi
    have e1 := a2 i (by omega)
    have e2 := a3 i (by omega) (hhv i hi) i (le_refl i)
    rw [a1.1] at e2
    rw [e1, e2]
    exact hsize s.k i hi hk
  have hsr := size_reduction_one_pass E sr hsr1 hrnd (engine_at_head E s) s.k hho.2.2.2.1
    (by rw [dot_b_over m0 _ s.k hho]; exact hpos s.k ik hk) hratio
  -- the engine after the final `update_R(k)`
  obtain ⟨c1, c2, c3⟩ := update_R_over E Rex hR m0
    (update_R E (engine_at_head E s) s.k (s.k - 1)) s.k s.k a1
  have hval : ∀ i, i < s.k + 1 → RowValid Rex
      (update_R_row E (update_R E (engine_at_head E s) s.k (s.k - 1)) s.k) i := by
    intro i hi
    by_cases hik : i = s.k
    · subst hik
      intro c hc
      show (update_R E (update_R E (engine_at_head E s) s.k (s.k - 1)) s.k s.k).R s.k c = Rex
        (update_R E (update_R E (engine_at_head E s) s.k (s.k - 1)) s.k s.k).b s.k c
      rw [c2 c hc, c1.1]
    · exact c3 i hik (a3 i hik (hhv i (by omega)))
  have htest : lovasz_test delta
      (update_R_row E (update_R E (engine_at_head E s) s.k (s.k - 1)) s.k) s.k = true := by
    have r1 := hval s.k (by omega) (s.k - 1) (by omega)
    have r2 := hval s.k (by omega) s.k (le_refl _)
    have r3 := hval (s.k - 1) (by omega) (s.k - 1) (le_refl _)
    have hbb : (update_R_row E (update_R E (engine_at_head E s) s.k (s.k - 1)) s.k).b = m0.b :=
      c1.1
    have hexp : (update_R_row E (update_R E (engine_at_head E s) s.k (s.k - 1)) s.k).row_expo
        (s.k - 1) = -1 := c1.2.2.2.2 (s.k - 1)
    rw [hbb] at r1 r2 r3
    unfold lovasz_test
    simp only [get_R, r1, r2, r3, hexp, gt_iff_lt, lt_self_iff_false, if_false,
      decide_eq_true_eq]
    exact hlov s.k ik hk
  refine ⟨{ m := update_R_row E (update_R E (engine_at_head E s) s.k (s.k - 1)) s.k,
             k := s.k + 1, k_max := if s.k > s.k_max then s.k else s.k_max,
             update_R_row_0 := flag_at_test s },
          { ran_update_R_0 := s.update_R_row_0, swapped := none }, ?_, ?_, ?_, ?_⟩
  · unfold lll_step
    dsimp only
    rw [hsr]
    dsimp only
    rw [if_pos htest]
  · rfl
  · rfl
  · exact ⟨c1.1, c1.2.1, c1.2.2.1, c1.2.2.2.1, c1.2.2.2.2, by show 1 ≤ s.k + 1; omega,
      fun i hi _ => hval i hi⟩

theorem idem_loop (E : Backend) (Rex : (Nat → Nat → ZT) → Nat → Nat → FT) (delta sr : FT)
    (m0 : MatHouseholder) (hR : ExactR E Rex) (hrnd : RoundsSmallToZero E) (hsr1 : sr < 1)
    (hsize : ∀ i j, j < i → i < m0.d → |Rex m0.b i j / Rex m0.b j j| ≤ 1 / 2)
    (hlov : ∀ i, 1 ≤ i → i < m0.d →
      delta * (Rex m0.b (i - 1) (i - 1) * Rex m0.b (i - 1) (i - 1)) ≤
        Rex m0.b i i * Rex m0.b i i + Rex m0.b i (i - 1) * Rex m0.b i (i - 1))
    (hpos : ∀ i, 1 ≤ i → i < m0.d → 0 < dot_b m0 i) :
    ∀ (t : Nat) (s : LLLState), IdemInv Rex m0 s → s.k + t = m0.d →
      ∃ sf es, lll_loop E delta sr 1 (t + 1) s = some (sf, es) ∧ sf.m.b = m0.b ∧
        (∀ e ∈ es, e.swapped = none) ∧ es.length = t := by
  intro t
  induction t with
  | zero =>
    intro s hinv hk
    refine ⟨s, [], ?_, hinv.1, by simp, rfl⟩
    rw [lll_loop]
    have : ¬ s.k < s.m.d := by rw [hinv.2.1]; omega
    rw [if_neg this]
  | succ t ih =>
    intro s hinv hk
    have hlt : s.k < m0.d := by omega
    obtain ⟨s1, e, hst, he, hk1, hinv1⟩ :=
      idem_step E Rex delta sr m0 s hR hrnd hsr1 hsize hlov hpos hinv hlt
    obtain ⟨sf, es, hl, hb, hes, hlen⟩ := ih s1 hinv1 (by omega)
    refine ⟨sf, e :: es, ?_, hb, ?_, by simp [hlen]⟩
    · rw [lll_loop]
      have : s.k < s.m.d := by rw [hinv.2.1]; exact hlt
      rw [if_pos this, hst]
      dsimp only
      rw [hl]
    · intro e1 he1
      rcases List.mem_cons.mp he1 with h | h
      · rw [h]; exact he
      · exact hes e1 h

theorem lll_reduced_run (E : Backend) (Rex : (Nat → Nat → ZT) → Nat → Nat → FT)
    (delta eta sr : FT) (m0 : MatHouseholder) (hen : m0.enable_row_expo = false)
    (hrow : ∀ i, m0.row_expo i = -1) (hd : 1 ≤ m0.d) (hR : ExactR E Rex)
    (hrnd : RoundsSmallToZero E) (hsr1 : sr < 1)
    (hnorm : ∀ i, 1 ≤ i → i < m0.d →
      ((dot_b m0 i : ℤ) : ℚ) = ∑ j in Finset.range (i + 1), Rex m0.b i j ^ 2)
    (hdelta : 0 < delta) (hdiag : ∀ j, j + 1 < m0.d → Rex m0.b j j ≠ 0)
    (hred : (is_hlll_reduced E m0 delta eta).1 = true) :
    ∃ sf es, lll E delta sr 1 m0.d m0 = some (sf, es) ∧ sf.m.b = m0.b ∧
      (∀ e ∈ es, e.swapped = none) ∧ es.length = m0.d - 1 := by
  obtain ⟨hA, hB⟩ := (is_hlll_reduced_conditions E m0 delta eta hen).mp hred
  obtain ⟨hub, huv⟩ := update_R_all_valid E Rex hR m0 m0.d
  have hval : ∀ i c, i < m0.d → c ≤ i → (update_R_all E m0).R i c = Rex m0.b i c := by
    intro i c hi hc
    have := huv i hi c hc
    rw [hub] at this
    exact this
  have hsize : ∀ i j, j < i → i < m0.d → |Rex m0.b i j / Rex m0.b j j| ≤ 1 / 2 := by
    intro i j hj hi
    have := hA i j hj hi
    rwa [hval i j hi (le_of_lt hj), hval j j (by omega) (le_refl j)] at this
  have hlov : ∀ i, 1 ≤ i → i < m0.d →
      delta * (Rex m0.b (i - 1) (i - 1) * Rex m0.b (i - 1) (i - 1)) ≤
        Rex m0.b i i * Rex m0.b i i + Rex m0.b i (i - 1) * Rex m0.b i (i - 1) := by
    intro i h1 hi
    have h := hB i h1 hi
    rw [hval (i - 1) (i - 1) (by omega) (le_refl _), hnorm i h1 hi] at h
    have hsum : ∑ j in Finset.range (i - 1), (update_R_all E m0).R i j ^ 2
        = ∑ j in Finset.range (i - 1), Rex m0.b i j ^ 2 := by
      refine Finset.sum_congr rfl (fun j hj => ?_)
      have := Finset.mem_range.mp hj
      rw [hval i j hi (by omega)]
    rw [hsum] at h
    obtain ⟨p, rfl⟩ : ∃ p, i = p + 1 := ⟨i - 1, by omega⟩
    simp only [Nat.add_sub_cancel] at h ⊢
    rw [Finset.sum_range_succ, Finset.sum_range_succ] at h
    nlinarith
  have hpos : ∀ i, 1 ≤ i → i < m0.d → 0 < dot_b m0 i := by
    intro i h1 hi
    have hl := hlov i h1 hi
    have hn := hnorm i h1 hi
    have hne := hdiag (i - 1) (by omega)
    have hsq : 0 < Rex m0.b (i - 1) (i - 1) * Rex m0.b (i - 1) (i - 1) :=
      mul_self_pos.mpr hne
    obtain ⟨p, rfl⟩ : ∃ p, i = p + 1 := ⟨i - 1, by omega⟩
    simp only [Nat.add_sub_cancel] at hl hsq
    rw [Finset.sum_range_succ, Finset.sum_range_succ] at hn
    have hnn : 0 ≤ ∑ j in Finset.range p, Rex m0.b (p + 1) j ^ 2 :=
      Finset.sum_nonneg (fun j _ => sq_nonneg _)
    have hq : (0 : ℚ) < ((dot_b m0 (p + 1) : ℤ) : ℚ) := by
      rw [hn]
      nlinarith
    exact_mod_cast hq
  have hinit : IdemInv Rex m0 (lll_init m0) := by
    refine ⟨rfl, rfl, rfl, hen, hrow, le_refl 1, ?_⟩
    intro i hi hor
    exfalso
    have hi0 : i < 1 := hi
    rcases hor with h | h
    · omega
    · cases h
  obtain ⟨sf, es, hl, hb, hes, hlen⟩ :=
    idem_loop E Rex delta sr m0 hR hrnd hsr1 hsize hlov hpos (m0.d - 1) (lll_init m0) hinit
      (by show 1 + (m0.d - 1) = m0.d; omega)
  refine ⟨sf, es, ?_, hb, hes, hlen⟩
  unfold lll
  have : m0.d = m0.d - 1 + 1 := by omega
  rw [this]
  exact hl

/-! ## The sample backend -/

theorem triangularBackend_exactR (dbg : Bool) :
    ExactR (triangularBackend dbg) (fun b i c => ((b i c : ℤ) : ℚ)) := by
  intro m i j
  constructor
  · intro c _
    simp [triangularBackend]
  · intro r hr c
    simp [triangularBackend, hr]

theorem rint_small (q : ℚ) (h : |q| ≤ 1 / 2) : rint q = 0 := by
  obtain ⟨h1, h2⟩ := abs_le.mp h
  unfold rint
  by_cases hq : 0 ≤ q
  · have hf : ⌊q⌋ = 0 := by
      rw [Int.floor_eq_iff]
      constructor
      · simpa using hq
      · norm_num; linarith
    rw [hf]
    simp only [Int.cast_zero, sub_zero]
    split_ifs <;> first | rfl | (exfalso; linarith) | (exfalso; omega)
  · have hf : ⌊q⌋ = -1 := by
      rw [Int.floor_eq_iff]
      constructor
      · norm_num; linarith
      · norm_num; linarith
    rw [hf]
    simp only [Int.reduceNeg, Int.cast_neg, Int.cast_one, sub_neg_eq_add]
    split_ifs <;> first | rfl | (exfalso; linarith) | (exfalso; omega)

theorem triangularBackend_rounds (dbg : Bool) : RoundsSmallToZero (triangularBackend dbg) := by
  intro q e h
  simp [triangularBackend, rint_small q h]

theorem update_R_all_triangular (dbg : Bool) (m : MatHouseholder) (i c : Nat) (hi : i < m.d)
    (hc : c ≤ i) : (update_R_all (triangularBackend dbg) m).R i c = ((m.b i c : ℤ) : ℚ) := by
  obtain ⟨hub, huv⟩ := update_R_all_valid (triangularBackend dbg) _
    (triangularBackend_exactR dbg) m m.d
  have := huv i hi c hc
  rw [hub] at this
  exact this

theorem is_hlll_reduced_id2 (dbg : Bool) :
    (is_hlll_reduced (triangularBackend dbg) engineId2 (99 / 100) (51 / 100)).1 = true := by
  rw [is_hlll_reduced_conditions _ _ _ _ rfl]
  have hd : engineId2.d = 2 := rfl
  constructor
  · intro i j hj hi
    rw [hd] at hi
    have hi1 : i = 1 := by omega
    have hj0 : j = 0 := by omega
    subst hi1 hj0
    rw [update_R_all_triangular dbg engineId2 1 0 (by decide) (by decide),
      update_R_all_triangular dbg engineId2 0 0 (by decide) (le_refl 0)]
    simp [engineId2, MatHouseholder.mk0, basisId2]
  · intro i h1 hi
    rw [hd] at hi
    have hi1 : i = 1 := by omega
    subst hi1
    rw [update_R_all_triangular dbg engineId2 0 0 (by decide) (le_refl 0)]
    simp [engineId2, MatHouseholder.mk0, basisId2, dot_b, Finset.sum_range_succ]
    norm_num

theorem id2_norm_identity (i : Nat) (h1 : 1 ≤ i) (hi : i < engineId2.d) :
    ((dot_b engineId2 i : ℤ) : ℚ)
      = ∑ j in Finset.range (i + 1), (fun b i c => ((b i c : ℤ) : ℚ)) engineId2.b i j ^ 2 := by
  have hd : engineId2.d = 2 := rfl
  rw [hd] at hi
  have hi1 : i = 1 := by omega
  subst hi1
  simp [engineId2, MatHouseholder.mk0, basisId2, dot_b, Finset.sum_range_succ]

theorem id2_diag (j : Nat) (_hj : j + 1 < engineId2.d) :
    (fun b i c => (((b i c : ℤ)) : ℚ)) engineId2.b j j ≠ 0 := by
  have hd : engineId2.d = 2 := rfl
  rw [hd] at _hj
  have : j = 0 := by omega
  subst this
  simp [engineId2, MatHouseholder.mk0, basisId2]

/-! ## Idempotence -/

/-- C9 (witness): the run of `lll()` on `[[1,0],[0,1]]` with `delta = 0.99`. -/
theorem C9_row0_recomputation_witness :
    ∃ sf es, lll (triangularBackend true) (99 / 100) (1 / 2) 1 engineId2.d engineId2
        = some (sf, es) ∧ es.length = 1 ∧
      (∀ e ∈ es.head?, e.ran_update_R_0 = true) ∧
      List.Chain' (fun e1 e2 : StepLog =>
        (e2.ran_update_R_0 = true ↔ e1.swapped = some (0, 1))) es := by
  obtain ⟨sf, es, h, -, -, hlen⟩ :=
    lll_reduced_run (triangularBackend true) (fun b i c => ((b i c : ℤ) : ℚ))
      (99 / 100) (51 / 100) (1 / 2) engineId2 rfl (fun _ => rfl) (by decide)
      (triangularBackend_exactR true) (triangularBackend_rounds true) (by norm_num)
      id2_norm_identity (by norm_num) id2_diag (is_hlll_reduced_id2 true)
  exact ⟨sf, es, h, hlen,
    (C9_row0_recomputation (triangularBackend true) (99 / 100) (1 / 2) 1 engineId2.d
      engineId2 sf es h).2.2.2⟩

/-! ## Row swap and truncated norm -/

theorem swap_rows_twice (b : Nat → Nat → ZT) (i j : Nat) :
    swap_rows (swap_rows b i j) i j = b := by
  funext r
  unfold swap_rows
  by_cases h1 : r = i
  · subst h1
    by_cases h2 : j = r
    · subst h2; simp
    · simp [h2]
  · by_cases h2 : r = j
    · subst h2; simp [h1]
    · simp [h1, h2]

/-- C11: `swap(i, j)` exchanges exactly two basis rows.  After `swap(i, j)` (in particular for
`0 ≤ i < j < d`) basis row `i` is the old row `j`, basis row `j` is the old row `i`, every other
basis row is unchanged, R, V, sigma and row_expo are unchanged, and a second `swap(i, j)`
restores the original basis. -/
theorem C11_swap_exchanges_rows (E : Backend) (m : MatHouseholder) (i j : Nat) :
    (swap E m i j).b i = m.b j ∧ (swap E m i j).b j = m.b i ∧
    (∀ r, r ≠ i → r ≠ j → (swap E m i j).b r = m.b r) ∧
    (swap E m i j).R = m.R ∧ (swap E m i j).V = m.V ∧ (swap E m i j).sigma = m.sigma ∧
    (swap E m i j).row_expo = m.row_expo ∧
    (swap E (swap E m i j) i j).b = m.b := by
  obtain ⟨-, hR, hV, hs, he, -, -, -⟩ := invalidate_row_frame E m i
  refine ⟨?_, ?_, ?_, hR, hV, hs, he, ?_⟩
  · rw [swap_b]; simp [swap_rows]
  · rw [swap_b]
    unfold swap_rows
    by_cases h : j = i
    · subst h; simp
    · simp [h]
  · intro r h1 h2
    rw [swap_b]
    simp [swap_rows, h1, h2]
  · rw [swap_b, swap_b]
    exact swap_rows_twice m.b i j

/-- C12: `norm_square_R_row(k, end)` returns `f = Σ_{j < end} R(k,j)^2`, which is exactly `0`
when `end = 0`, and `expo = 2 * row_expo[k]`.  It is a function of the engine that returns only
these two outputs, so it changes no engine state. -/
theorem C12_norm_square_R_row (m : MatHouseholder) (k end_ : Nat) :
    (norm_square_R_row m k end_).1 = ∑ j in Finset.range end_, m.R k j ^ 2 ∧
    (norm_square_R_row m k 0).1 = 0 ∧
    (norm_square_R_row m k end_).2 = 2 * m.row_expo k := by
  refine ⟨norm_square_R_row_val m k end_, ?_, rfl⟩
  simp [norm_square_R_row]

/-! ## The two Lovasz tests -/

theorem lovasz_test_plain (delta : FT) (m : MatHouseholder) (k : Nat)
    (hrow : m.row_expo (k - 1) = -1) :
    lovasz_test delta m k = true ↔
      delta * m.R (k - 1) (k - 1) ^ 2 ≤ m.R k (k - 1) ^ 2 + m.R k k ^ 2 := by
  unfold lovasz_test
  simp only [get_R, hrow, gt_iff_lt, lt_self_iff_false, if_false, decide_eq_true_eq]
  constructor <;> intro h <;> nlinarith

/-- C18: the driver's and the verifier's Lovasz tests agree.  With row-exponent scaling disabled
and `||b[i]||^2 = Σ_{j ≤ i} R(i,j)^2` for a row `i ≥ 1`, the driver's test at cursor `i` is
`delta * R(i-1,i-1)^2 ≤ R(i,i-1)^2 + R(i,i)^2`, the verifier's check of row `i` is
`delta * R(i-1,i-1)^2 ≤ ||b[i]||^2 - norm_square_R_row(i, i-1)`, and the two have the same
value. -/
theorem C18_lovasz_tests_agree (E : Backend) (delta : FT) (m : MatHouseholder) (i : Nat)
    (hen : m.enable_row_expo = false) (hrow : ∀ r, m.row_expo r = -1) (hi : 1 ≤ i)
    (hnorm : ((dot_b m i : ℤ) : ℚ) = ∑ j in Finset.range (i + 1), m.R i j ^ 2) :
    (lovasz_test delta m i = true ↔
      delta * m.R (i - 1) (i - 1) ^ 2 ≤ m.R i (i - 1) ^ 2 + m.R i i ^ 2) ∧
    (lovasz_check E delta m [i] = true ↔
      delta * m.R (i - 1) (i - 1) ^ 2 ≤
        ((dot_b m i : ℤ) : ℚ) - (norm_square_R_row m i (i - 1)).1) ∧
    (lovasz_test delta m i = true ↔ lovasz_check E delta m [i] = true) := by
  have h1 := lovasz_test_plain delta m i (hrow (i - 1))
  have h2 : lovasz_check E delta m [i] = true ↔
      delta * m.R (i - 1) (i - 1) ^ 2 ≤
        ((dot_b m i : ℤ) : ℚ) - (norm_square_R_row m i (i - 1)).1 := by
    rw [lovasz_check_iff]
    simp only [List.mem_singleton, forall_eq, norm_square_b_row_plain E m i hen, sq]
  have h3 : ((dot_b m i : ℤ) : ℚ) - (norm_square_R_row m i (i - 1)).1
      = m.R i (i - 1) ^ 2 + m.R i i ^ 2 := by
    rw [hnorm, norm_square_R_row_val]
    obtain ⟨p, rfl⟩ : ∃ p, i = p + 1 := ⟨i - 1, by omega⟩
    simp only [Nat.add_sub_cancel]
    rw [Finset.sum_range_succ, Finset.sum_range_succ]
    ring
  refine ⟨h1, h2, ?_⟩
  rw [h1, h2, h3]

/-- C18 (witness): row 1 of the engine with basis and R equal to `[[1,0],[0,1]]`. -/
theorem C18_lovasz_tests_agree_witness :
    engineId2R.enable_row_expo = false ∧ (∀ r, engineId2R.row_expo r = -1) ∧
    (lovasz_test (99 / 100) engineId2R 1 = true ↔
      lovasz_check (triangularBackend false) (99 / 100) engineId2R [1] = true) :=
  ⟨rfl, fun _ => rfl,
   (C18_lovasz_tests_agree (triangularBackend false) (99 / 100) engineId2R 1 rfl (fun _ => rfl)
      (le_refl 1)
      (by simp [engineId2R, MatHouseholder.mk0, basisId2, dot_b, Finset.sum_range_succ])).2.2⟩

/-- C20: `is_hlll_reduced` does not depend on its `eta` argument: for any two values of `eta`
the result and the engine it leaves are the same, and the bound of the size-reduction check is
the constant `1/2`: a true result implies `|R(i,j) / R(j,j)| ≤ 1/2` for all `j < i < d`, and a
pair with `|R(i,j) / R(j,j)| > 1/2` makes the result false, whatever `eta` is. -/
theorem C20_eta_irrelevant (E : Backend) (m : MatHouseholder) (delta eta1 eta2 : FT) :
    is_hlll_reduced E m delta eta1 = is_hlll_reduced E m delta eta2 ∧
    ((is_hlll_reduced E m delta eta1).1 = true →
      ∀ i j, j < i → i < m.d →
        |(update_R_all E m).R i j / (update_R_all E m).R j j| ≤ 1 / 2) ∧
    (∀ i j, j < i → i < m.d →
      1 / 2 < |(update_R_all E m).R i j / (update_R_all E m).R j j| →
      (is_hlll_reduced E m delta eta1).1 = false ∧
      (is_hlll_reduced E m delta eta2).1 = false) := by
  have hd : (update_R_all E m).d = m.d := (update_R_all_frame E m).1.1
  have key : ∀ eta, (is_hlll_reduced E m delta eta).1 = true →
      ∀ i j, j < i → i < m.d →
        |(update_R_all E m).R i j / (update_R_all E m).R j j| ≤ 1 / 2 := by
    intro eta h i j hj hi
    unfold is_hlll_reduced at h
    dsimp only at h
    split_ifs at h with hs
    rw [size_check_iff, hd] at hs
    exact hs i (List.mem_range.mpr hi) j hj
  refine ⟨rfl, key eta1, ?_⟩
  intro i j hj hi hv
  constructor
  · cases hr : (is_hlll_reduced E m delta eta1).1 with
    | false => rfl
    | true => exact absurd (key eta1 hr i j hj hi) (not_le.mpr hv)
  · cases hr : (is_hlll_reduced E m delta eta2).1 with
    | false => rfl
    | true => exact absurd (key eta2 hr i j hj hi) (not_le.mpr hv)

/-! ## Row exponents in the Lovasz test -/

theorem two_zpow_double (e : Int) : (2 : ℚ) ^ (2 * e) = ((2 : ℚ) ^ e) ^ 2 := by
  rw [mul_comm, zpow_mul]
  norm_cast

/-- C15: exponent normalisation of the driver's Lovasz test is sound.  When the row-exponent
table is in its documented state (non-negative entries when scaling is enabled, `-1` everywhere
when it is disabled), the comparison `tmp <= s` of `lll()` at cursor `k` holds if and only if
`delta * trueR(k-1,k-1)^2 ≤ trueR(k,k-1)^2 + trueR(k,k)^2`. -/
theorem C15_lovasz_test_sound (delta : FT) (m : MatHouseholder) (k : Nat)
    (hinv : ExpoInvariant m) :
    lovasz_test delta m k = true ↔
      delta * trueR m (k - 1) (k - 1) ^ 2 ≤ trueR m k (k - 1) ^ 2 + trueR m k k ^ 2 := by
  unfold ExpoInvariant at hinv
  cases hen : m.enable_row_expo with
  | false =>
    rw [hen] at hinv
    simp only [Bool.false_eq_true, if_false] at hinv
    rw [lovasz_test_plain delta m k (hinv (k - 1))]
    simp only [trueR, hen, Bool.false_eq_true, if_false]
  | true =>
    rw [hen] at hinv
    simp only [if_true] at hinv
    have h1 : m.row_expo (k - 1) > -1 := by have := hinv (k - 1); omega
    unfold lovasz_test
    simp only [get_R, h1, if_true, decide_eq_true_eq, trueR, hen, mul_2si]
    have hA : (0 : ℚ) < (2 : ℚ) ^ (m.row_expo (k - 1)) := by positivity
    have hB : (0 : ℚ) < (2 : ℚ) ^ (m.row_expo k) := by positivity
    rw [two_zpow_double, zpow_sub₀ (by norm_num : (2 : ℚ) ≠ 0), div_pow, ← mul_div_assoc,
      le_div_iff₀ (by positivity)]
    constructor <;> intro h <;> nlinarith

/-- C15 (witness): an engine with scaling enabled and row exponents `0` and `1`. -/
theorem C15_lovasz_test_sound_witness :
    ExpoInvariant engineExpo ∧
    (lovasz_test (99 / 100) engineExpo 1 = true ↔
      (99 / 100) * trueR engineExpo (1 - 1) (1 - 1) ^ 2
        ≤ trueR engineExpo 1 (1 - 1) ^ 2 + trueR engineExpo 1 1 ^ 2) :=
  have h : ExpoInvariant engineExpo := by
    unfold ExpoInvariant
    simp only [engineExpo, MatHouseholder.mk0, if_true]
    intro i
    split_ifs <;> decide
  ⟨h, C15_lovasz_test_sound (99 / 100) engineExpo 1 h⟩

/-! ## The fold step of size reduction -/

theorem get_R_fst (m : MatHouseholder) (i j : Nat) : (get_R m i j).1 = m.R i j := rfl

theorem set_R_R (m : MatHouseholder) (f : FT) (i j r c : Nat) :
    (set_R m f i j).R r c = if r = i ∧ c = j then f else m.R r c := rfl

theorem fold_R_entries (m : MatHouseholder) (x : FT) (k i : Nat) (hik : i ≠ k) :
    ∀ t r c, ((List.range t).foldl
        (fun acc j => set_R acc ((get_R acc k j).1 + x * (get_R acc i j).1) k j) m).R r c
      = if r = k ∧ c < t then m.R k c + x * m.R i c else m.R r c := by
  intro t
  induction t with
  | zero => intro r c; simp
  | succ t ih =>
    intro r c
    rw [List.range_succ, List.foldl_append, List.foldl_cons, List.foldl_nil, set_R_R,
      get_R_fst, get_R_fst, ih, ih, ih]
    by_cases h1 : r = k ∧ c = t
    · obtain ⟨hr, hc⟩ := h1
      subst hr hc
      simp [hik]
    · rw [if_neg h1]
      by_cases h2 : r = k
      · have hc : c ≠ t := fun h => h1 ⟨h2, h⟩
        have : c < t + 1 ↔ c < t := by omega
        simp [h2, this]
      · simp [h2]

theorem fold_R_spec (m : MatHouseholder) (x : FT) (k i : Nat) (hik : i ≠ k) (r c : Nat) :
    (fold_R m x k i).R r c = if r = k ∧ c < i then m.R k c + x * m.R i c else m.R r c := by
  unfold fold_R
  exact fold_R_entries m x k i hik i r c

theorem coeff_step_R (E : Backend) (k : Nat) (s : MatHouseholder × (Nat → FT)) (i : Nat)
    (hik : i ≠ k) (r c : Nat) :
    (coeff_step E k s i).1.R r c =
      if r = k ∧ c < i then s.1.R k c + (coeff_step E k s i).2 i * s.1.R i c
      else s.1.R r c := by
  unfold coeff_step
  dsimp only
  by_cases hx : - E.rnd_we ((get_R s.1 k i).1 / (get_R s.1 i i).1)
      ((get_R s.1 k i).2 - (get_R s.1 i i).2) = 0
  · rw [if_neg (not_not.mpr hx)]
    simp only [if_true, hx, zero_mul, add_zero]
    split_ifs with h1
    · rw [h1.1]
    · rfl
  · rw [if_pos hx]
    simp only [if_true]
    exact fold_R_spec _ _ k i hik r c

theorem coeff_step_xf (E : Backend) (k : Nat) (s : MatHouseholder × (Nat → FT)) (i : Nat) :
    (coeff_step E k s i).2 i
        = - E.rnd_we (s.1.R k i / s.1.R i i) (s.1.row_expo k - s.1.row_expo i) ∧
    ∀ t, t ≠ i → (coeff_step E k s i).2 t = s.2 t := by
  unfold coeff_step
  dsimp only
  split_ifs <;> simp +contextual [get_R]

theorem coeff_step_trueR (E : Backend) (k : Nat) (s : MatHouseholder × (Nat → FT)) (i j : Nat)
    (hik : i < k) (hj : j < i) (hen : s.1.enable_row_expo = true) :
    (coeff_step E k s i).1.R k j = s.1.R k j + (coeff_step E k s i).2 i * s.1.R i j ∧
    trueR (coeff_step E k s i).1 k j =
      trueR s.1 k j +
        ((coeff_step E k s i).2 i * (2 : ℚ) ^ (s.1.row_expo k - s.1.row_expo i)) *
          trueR s.1 i j ∧
    (s.1.row_expo k = s.1.row_expo i →
      trueR (coeff_step E k s i).1 k j =
        trueR s.1 k j + (coeff_step E k s i).2 i * trueR s.1 i j) := by
  obtain ⟨hsh, -, hre⟩ := coeff_step_shape E k s i
  have hR : (coeff_step E k s i).1.R k j
      = s.1.R k j + (coeff_step E k s i).2 i * s.1.R i j := by
    rw [coeff_step_R E k s i (by omega) k j, if_pos ⟨rfl, hj⟩]
  have hen1 : (coeff_step E k s i).1.enable_row_expo = true := by rw [hsh.2.2, hen]
  have hT : trueR (coeff_step E k s i).1 k j =
      trueR s.1 k j +
        ((coeff_step E k s i).2 i * (2 : ℚ) ^ (s.1.row_expo k - s.1.row_expo i)) *
          trueR s.1 i j := by
    unfold trueR
    rw [hen1, hen, hre, hR]
    simp only [if_true]
    have hA : (2 : ℚ) ^ (s.1.row_expo i) ≠ 0 := by positivity
    rw [zpow_sub₀ (by norm_num : (2 : ℚ) ≠ 0)]
    field_simp
    ring
  refine ⟨hR, hT, ?_⟩
  intro he
  rw [hT, he, sub_self, zpow_zero, mul_one]

theorem rint_one : rint 1 = 1 := by
  simp [rint]

/-- C16 (as stated, refuted): with row exponents `row_expo[2] = 1` and `row_expo[1] = 0`, the
step `i = 1` of `size_reduction(2)` computes `x[1] = -1` and writes `R(2,0) = 0 + (-1) * 1`,
which at row 2's exponent stands for `-2`, whereas `trueR(2,0) + x[1] * trueR(1,0) = -1`. -/
theorem C16_unaligned_counterexample :
    (coeff_step (triangularBackend false) 2 (engineExpo3, fun _ => 0) 1).2 1 = -1 ∧
    trueR (coeff_step (triangularBackend false) 2 (engineExpo3, fun _ => 0) 1).1 2 0 = -2 ∧
    trueR engineExpo3 2 0 +
      (coeff_step (triangularBackend false) 2 (engineExpo3, fun _ => 0) 1).2 1 *
        trueR engineExpo3 1 0 = -1 := by
  have hx : (coeff_step (triangularBackend false) 2 (engineExpo3, fun _ => 0) 1).2 1 = -1 := by
    rw [(coeff_step_xf (triangularBackend false) 2 (engineExpo3, fun _ => 0) 1).1]
    simp [triangularBackend, engineExpo3, rint_one]
  refine ⟨hx, ?_, ?_⟩
  · rw [(coeff_step_trueR (triangularBackend false) 2 (engineExpo3, fun _ => 0) 1 0
      (by decide) (by decide) rfl).2.1, hx]
    simp [trueR, engineExpo3, MatHouseholder.mk0]
  · rw [hx]
    simp [trueR, engineExpo3, MatHouseholder.mk0]

/-- C16 (amended): in the step `i < k` of `size_reduction(k)` the fold writes, for every
`j < i`, `R(k,j) + x[i] * R(i,j)` on the stored entries, without touching the exponents.  With
row-exponent scaling enabled the value written, read at row `k`'s exponent, is
`trueR(k,j) + (x[i] * 2^(row_expo[k] - row_expo[i])) * trueR(i,j)`; it is
`trueR(k,j) + x[i] * trueR(i,j)` when `row_expo[k] = row_expo[i]`.  (When `x[i] = 0` nothing is
written and the same equations hold.) -/
theorem C16_fold_exponents (E : Backend) (k : Nat) (s : MatHouseholder × (Nat → FT))
    (i j : Nat) (hik : i < k) (hj : j < i) (hen : s.1.enable_row_expo = true) :
    (coeff_step E k s i).1.R k j = s.1.R k j + (coeff_step E k s i).2 i * s.1.R i j ∧
    trueR (coeff_step E k s i).1 k j =
      trueR s.1 k j +
        ((coeff_step E k s i).2 i * (2 : ℚ) ^ (s.1.row_expo k - s.1.row_expo i)) *
          trueR s.1 i j ∧
    (s.1.row_expo k = s.1.row_expo i →
      trueR (coeff_step E k s i).1 k j =
        trueR s.1 k j + (coeff_step E k s i).2 i * trueR s.1 i j) :=
  coeff_step_trueR E k s i j hik hj hen

/-- C16 (witness): step `i = 1` of `size_reduction(2)` on an engine with row exponents
`0, 0, 1`. -/
theorem C16_fold_exponents_witness :
    (1 : Nat) < 2 ∧ (0 : Nat) < 1 ∧ engineExpo3.enable_row_expo = true ∧
    trueR (coeff_step (triangularBackend false) 2 (engineExpo3, fun _ => 0) 1).1 2 0 =
      trueR engineExpo3 2 0 +
        ((coeff_step (triangularBackend false) 2 (engineExpo3, fun _ => 0) 1).2 1 *
          (2 : ℚ) ^ (engineExpo3.row_expo 2 - engineExpo3.row_expo 1)) *
          trueR engineExpo3 1 0 :=
  ⟨by decide, by decide, rfl,
   (C16_fold_exponents (triangularBackend false) 2 (engineExpo3, fun _ => 0) 1 0
      (by decide) (by decide) rfl).2.1⟩

/-! ## One pass bounds every coefficient by one half -/

theorem sum_Ico_off (f g : Nat → FT) (h : Nat → FT) (t a k : Nat) (hat : t < a)
    (hfg : ∀ l, l ≠ t → f l = g l) :
    ∑ l in Finset.Ico a k, f l * h l = ∑ l in Finset.Ico a k, g l * h l := by
  refine Finset.sum_congr rfl (fun l hl => ?_)
  have := (Finset.mem_Ico.mp hl).1
  rw [hfg l (by omega)]

theorem coeffInv_step (E : Backend) (m : MatHouseholder) (k t : Nat)
    (s : MatHouseholder × (Nat → FT)) (hrnd : RoundsNearest E)
    (hrow : ∀ r, m.row_expo r = -1) (hnz : ∀ i, i < k → m.R i i ≠ 0) (htk : t < k)
    (hinv : CoeffInv m k (t + 1) s) : CoeffInv m k t (coeff_step E k s t) := by
  obtain ⟨ha, hb, hc, hd⟩ := hinv
  obtain ⟨hx, hoff⟩ := coeff_step_xf E k s t
  have htk' : t ≠ k := by omega
  have hcc : s.1.R t t = m.R t t := ha t t htk'
  have hexp : s.1.row_expo k - s.1.row_expo t = 0 := by
    rw [hb, hrow k, hrow t]; norm_num
  rw [hexp, hcc, hc t (Nat.lt_succ_self t)] at hx
  obtain ⟨z, hz, hzb⟩ := hrnd
    ((m.R k t + ∑ l in Finset.Ico (t + 1) k, s.2 l * m.R l t) / m.R t t)
  rw [hz] at hx
  have hsum : ∀ j, ∑ l in Finset.Ico t k, (coeff_step E k s t).2 l * m.R l j
      = (coeff_step E k s t).2 t * m.R t j + ∑ l in Finset.Ico (t + 1) k, s.2 l * m.R l j := by
    intro j
    rw [Finset.sum_eq_sum_Ico_succ_bot htk,
      sum_Ico_off _ s.2 (fun l => m.R l j) t (t + 1) k (Nat.lt_succ_self t) hoff]
  refine ⟨?_, ?_, ?_, ?_⟩
  · intro r c hr
    rw [coeff_step_R E k s t htk' r c, if_neg (fun h => hr h.1)]
    exact ha r c hr
  · rw [(coeff_step_shape E k s t).2.2, hb]
  · intro j hj
    rw [coeff_step_R E k s t htk' k j, if_pos ⟨rfl, hj⟩, hc j (by omega), ha t j htk', hsum j]
    ring
  · intro i hti hik
    by_cases hit : i = t
    · subst hit
      refine ⟨⟨-z, by rw [hx]; push_cast; ring⟩, ?_⟩
      rw [hsum i, hx]
      have hne := hnz i hik
      have hfac : m.R k i + (-(z : ℚ) * m.R i i +
          ∑ l in Finset.Ico (i + 1) k, s.2 l * m.R l i)
          = m.R i i * ((m.R k i + ∑ l in Finset.Ico (i + 1) k, s.2 l * m.R l i) / m.R i i
              - (z : ℚ)) := by
        field_simp
        ring
      rw [hfac, abs_mul]
      have hnn : 0 ≤ |m.R i i| := abs_nonneg _
      nlinarith
    · have hlt : t < i := by omega
      obtain ⟨g1, g2⟩ := hd i (by omega) hik
      refine ⟨?_, ?_⟩
      · rw [hoff i hit]; exact g1
      · rw [sum_Ico_off _ s.2 (fun l => m.R l i) t i k hlt hoff]
        exact g2

theorem coeffInv_loop (E : Backend) (m : MatHouseholder) (k : Nat) (hrnd : RoundsNearest E)
    (hrow : ∀ r, m.row_expo r = -1) (hnz : ∀ i, i < k → m.R i i ≠ 0) :
    ∀ t, t ≤ k → ∀ s, CoeffInv m k t s →
      CoeffInv m k 0 ((List.range t).reverse.foldl (coeff_step E k) s) := by
  intro t
  induction t with
  | zero => intro _ s hs; simpa using hs
  | succ t ih =>
    intro ht s hs
    rw [List.range_succ, List.reverse_append, List.reverse_singleton, List.singleton_append,
      List.foldl_cons]
    exact ih (by omega) _ (coeffInv_step E m k t s hrnd hrow hnz (by omega) hs)

theorem coeffInv_init (m : MatHouseholder) (k : Nat) : CoeffInv m k k (m, fun _ => 0) := by
  refine ⟨fun _ _ _ => rfl, rfl, ?_, ?_⟩
  · intro j _
    simp
  · intro i h1 h2
    omega

theorem coeff_loop_bound (E : Backend) (m : MatHouseholder) (k : Nat) (hrnd : RoundsNearest E)
    (hrow : ∀ r, m.row_expo r = -1) (hnz : ∀ i, i < k → m.R i i ≠ 0) :
    CoeffInv m k 0 (coeff_loop E m k) := by
  unfold coeff_loop
  exact coeffInv_loop E m k hrnd hrow hnz k (le_refl k) _ (coeffInv_init m k)

theorem rint_nearest (q : ℚ) : |q - ((rint q : ℤ) : ℚ)| ≤ 1 / 2 := by
  have h0 : (0 : ℚ) ≤ q - ⌊q⌋ := by linarith [Int.floor_le q]
  have h1 : q - ⌊q⌋ < 1 := by linarith [Int.lt_floor_add_one q]
  unfold rint
  rw [abs_le]
  split_ifs with ha hb hc
  · constructor <;> linarith
  · push_cast; constructor <;> linarith
  · constructor <;> linarith
  · push_cast; constructor <;> linarith

theorem triangularBackend_nearest (dbg : Bool) : RoundsNearest (triangularBackend dbg) := by
  intro q
  exact ⟨rint q, rfl, rint_nearest q⟩

/-- C14: one pass of `size_reduction(k)` bounds every coefficient by one half.  With
row-exponent scaling disabled, a rounding that returns a nearest integer and `R(i,i) ≠ 0` for
`i < k`, the coefficients `x` computed by the loop over `i = k-1, ..., 0` (each from the folded
value of `R(k,i)` read at its step) are integers, and for every `i < k`,
`|R(k,i) + Σ_{i ≤ l < k} x[l] * R(l,i)| ≤ |R(i,i)| / 2`, where `R` is the matrix at the start of
the loop. -/
theorem C14_pass_bounds_coefficients (E : Backend) (m : MatHouseholder) (k : Nat)
    (hrnd : RoundsNearest E) (hrow : ∀ r, m.row_expo r = -1)
    (hnz : ∀ i, i < k → m.R i i ≠ 0) :
    ∀ i, i < k →
      (∃ z : ℤ, (coeff_loop E m k).2 i = (z : ℚ)) ∧
      |m.R k i + ∑ l in Finset.Ico i k, (coeff_loop E m k).2 l * m.R l i| ≤ |m.R i i| / 2 := by
  intro i hi
  exact (coeff_loop_bound E m k hrnd hrow hnz).2.2.2 i (Nat.zero_le i) hi

/-- C14 (witness): the coefficient loop of `size_reduction(1)` on the engine with basis and R
equal to `[[1,0],[0,1]]`. -/
theorem C14_pass_bounds_coefficients_witness :
    RoundsNearest (triangularBackend false) ∧ (∀ r, engineId2R.row_expo r = -1) ∧
    (∀ i, i < 1 → engineId2R.R i i ≠ 0) ∧
    ∀ i, i < 1 →
      (∃ z : ℤ, (coeff_loop (triangularBackend false) engineId2R 1).2 i = (z : ℚ)) ∧
      |engineId2R.R 1 i + ∑ l in Finset.Ico i 1,
          (coeff_loop (triangularBackend false) engineId2R 1).2 l * engineId2R.R l i|
        ≤ |engineId2R.R i i| / 2 :=
  have hnz : ∀ i, i < 1 → engineId2R.R i i ≠ 0 := by
    intro i hi
    have : i = 0 := by omega
    subst this
    simp [engineId2R]
  ⟨triangularBackend_nearest false, fun _ => rfl, hnz,
   C14_pass_bounds_coefficients (triangularBackend false) engineId2R 1
     (triangularBackend_nearest false) (fun _ => rfl) hnz⟩

/-! ## The row combination applied to the basis -/

theorem coeff_loop_one (E : Backend) (m : MatHouseholder) :
    coeff_loop E m 1 = coeff_step E 1 (m, fun _ => 0) 0 := by
  simp [coeff_loop, List.range_succ]

theorem pass_b_row (E : Backend) (sr : FT) (m : MatHouseholder) (k c : Nat) :
    (size_reduction_pass E sr m k).1.b k c =
      m.b k c + ∑ i in Finset.range k,
        set_f ((coeff_loop E (update_R E m k (k - 1)) k).2 i) * m.b i c := by
  rw [size_reduction_pass_b]
  simp [add_rows_upto, pass_coeffs]

theorem foldInv_step (E : Backend) (m : MatHouseholder) (k t : Nat)
    (s : MatHouseholder × (Nat → FT)) (htk : t < k) (hinv : FoldInv E m k (t + 1) s) :
    FoldInv E m k t (coeff_step E k s t) := by
  obtain ⟨ha, hb, hc, hd⟩ := hinv
  obtain ⟨hx, hoff⟩ := coeff_step_xf E k s t
  have htk' : t ≠ k := by omega
  rw [ha t t htk', hb, hc t (Nat.lt_succ_self t)] at hx
  have hsum : ∀ j, ∑ l in Finset.Ico t k, (coeff_step E k s t).2 l * m.R l j
      = (coeff_step E k s t).2 t * m.R t j + ∑ l in Finset.Ico (t + 1) k, s.2 l * m.R l j := by
    intro j
    rw [Finset.sum_eq_sum_Ico_succ_bot htk,
      sum_Ico_off _ s.2 (fun l => m.R l j) t (t + 1) k (Nat.lt_succ_self t) hoff]
  refine ⟨?_, ?_, ?_, ?_⟩
  · intro r c hr
    rw [coeff_step_R E k s t htk' r c, if_neg (fun h => hr h.1)]
    exact ha r c hr
  · rw [(coeff_step_shape E k s t).2.2, hb]
  · intro j hj
    rw [coeff_step_R E k s t htk' k j, if_pos ⟨rfl, hj⟩, hc j (by omega), ha t j htk', hsum j]
    ring
  · intro j htj hjk
    have hkeep : (coeff_step E k s t).1.R k j = s.1.R k j := by
      rw [coeff_step_R E k s t htk' k j, if_neg (fun h => by omega)]
    by_cases hjt : j = t
    · subst hjt
      rw [hkeep, hc j (Nat.lt_succ_self j),
        sum_Ico_off _ s.2 (fun l => m.R l j) j (j + 1) k (Nat.lt_succ_self j) hoff]
      exact ⟨rfl, hx⟩
    · have hlt : t < j := by omega
      obtain ⟨g1, g2⟩ := hd j (by omega) hjk
      rw [hkeep, hoff j hjt,
        sum_Ico_off _ s.2 (fun l => m.R l j) t (j + 1) k (by omega) hoff]
      exact ⟨g1, g2⟩

theorem foldInv_loop (E : Backend) (m : MatHouseholder) (k : Nat) :
    ∀ t, t ≤ k → ∀ s, FoldInv E m k t s →
      FoldInv E m k 0 ((List.range t).reverse.foldl (coeff_step E k) s) := by
  intro t
  induction t with
  | zero => intro _ s hs; simpa using hs
  | succ t ih =>
    intro ht s hs
    rw [List.range_succ, List.reverse_append, List.reverse_singleton, List.singleton_append,
      List.foldl_cons]
    exact ih (by omega) _ (foldInv_step E m k t s (by omega) hs)

theorem coeff_loop_fold (E : Backend) (m : MatHouseholder) (k : Nat) :
    FoldInv E m k 0 (coeff_loop E m k) := by
  unfold coeff_loop
  refine foldInv_loop E m k k (le_refl k) _ ⟨fun _ _ _ => rfl, rfl, ?_, ?_⟩
  · intro j _
    simp
  · intro j h1 h2
    omega

theorem dot_b_nonneg (m : MatHouseholder) (k : Nat) : 0 ≤ dot_b m k := by
  unfold dot_b
  exact Finset.sum_nonneg (fun c _ => mul_self_nonneg _)

theorem set_f_zero : set_f 0 = 0 := by
  unfold set_f
  exact Int.floor_zero

theorem zero_pass (E : Backend) (sr : FT) (m : MatHouseholder) (k : Nat) (hsr1 : sr < 1)
    (hexact : m.enable_row_expo = true → ExactExp E)
    (hx : ∀ i, i < k → (coeff_loop E (update_R E m k (k - 1)) k).2 i = 0) :
    (size_reduction_pass E sr m k).1.b = m.b ∧
    ((size_reduction_pass E sr m k).2 = false ↔ 0 < dot_b m k) ∧
    (0 < dot_b m k →
      size_reduction E sr 1 m k = some (update_R_row E (size_reduction_pass E sr m k).1 k)) := by
  have hb : (size_reduction_pass E sr m k).1.b = m.b := by
    funext r c
    by_cases hr : r = k
    · subst hr
      rw [pass_b_row]
      have : ∑ i in Finset.range r,
          set_f ((coeff_loop E (update_R E m r (r - 1)) r).2 i) * m.b i c = 0 := by
        refine Finset.sum_eq_zero (fun i hi => ?_)
        rw [hx i (Finset.mem_range.mp hi), set_f_zero, zero_mul]
      rw [this, add_zero]
    · rw [size_reduction_pass_b]
      simp [add_rows_upto, hr]
  have hdot : dot_b (size_reduction_pass E sr m k).1 k = dot_b m k := by
    unfold dot_b
    rw [hb, (size_reduction_pass_shape E sr m k).2.1]
  have hiff : (size_reduction_pass E sr m k).2 = false ↔ 0 < dot_b m k := by
    have h := pass_repeat_iff E sr m k hexact
    rw [hdot] at h
    have hnn : (0 : ℚ) ≤ ((dot_b m k : ℤ) : ℚ) := by exact_mod_cast dot_b_nonneg m k
    constructor
    · intro hf
      by_contra hnp
      have h0 : dot_b m k = 0 := le_antisymm (not_lt.mp hnp) (dot_b_nonneg m k)
      have : (size_reduction_pass E sr m k).2 = true := by
        rw [h, h0]; simp
      rw [hf] at this
      cases this
    · intro hp
      cases hc : (size_reduction_pass E sr m k).2 with
      | false => rfl
      | true =>
        exfalso
        have hq := h.mp hc
        have hpq : (0 : ℚ) < ((dot_b m k : ℤ) : ℚ) := by exact_mod_cast hp
        nlinarith
  refine ⟨hb, hiff, ?_⟩
  intro hp
  rw [size_reduction]
  simp only [hiff.mpr hp, Bool.false_eq_true, if_false]

/-- C17 (as stated, refuted): on the basis `[[1,0],[0,0]]` the pass of `size_reduction(1)`
computes `x[0] = 0` and leaves the basis unchanged, but the do-while condition is true after it
(the squared norm of `b[1]` is `0`, and `0 <= sr * 0`), so the loop does not exit. -/
theorem C17_zero_row_counterexample :
    (∀ i, i < 1 →
      (coeff_loop (triangularBackend false)
        (update_R (triangularBackend false) engineZeroRow 1 (1 - 1)) 1).2 i = 0) ∧
    (size_reduction_pass (triangularBackend false) (1 / 2) engineZeroRow 1).1.b
      = engineZeroRow.b ∧
    (size_reduction_pass (triangularBackend false) (1 / 2) engineZeroRow 1).2 = true := by
  have hx : ∀ i, i < 1 →
      (coeff_loop (triangularBackend false)
        (update_R (triangularBackend false) engineZeroRow 1 (1 - 1)) 1).2 i = 0 := by
    intro i hi
    have : i = 0 := by omega
    subst this
    rw [coeff_loop_one, (coeff_step_xf _ 1 _ 0).1]
    simp [update_R, triangularBackend, engineZeroRow, MatHouseholder.mk0, rint]
  obtain ⟨hb, hiff, -⟩ := zero_pass (triangularBackend false) (1 / 2) engineZeroRow 1
    (by norm_num) (fun _ => triangularBackend_exactExp false) hx
  refine ⟨hx, hb, ?_⟩
  cases hc : (size_reduction_pass (triangularBackend false) (1 / 2) engineZeroRow 1).2 with
  | true => rfl
  | false =>
    exfalso
    have hp := hiff.mp hc
    have h0 : dot_b engineZeroRow 1 = 0 := by
      simp [dot_b, engineZeroRow, MatHouseholder.mk0, Finset.sum_range_succ]
    rw [h0] at hp
    exact lt_irrefl _ hp

/-- C17 (amended): let `sr < 1` (and `get_f_exp` exact when scaling is enabled).  If a pass of
`size_reduction(k)` computes `x[i] = 0` for all `i < k`, then the basis is unchanged by that
pass, and the do-while condition after it is false exactly when `b[k]` is not the zero row; in
that case the loop exits immediately after that pass. -/
theorem C17_zero_pass_exits (E : Backend) (sr : FT) (m : MatHouseholder) (k : Nat)
    (_hsr0 : 0 < sr) (hsr1 : sr < 1) (hexact : m.enable_row_expo = true → ExactExp E)
    (hx : ∀ i, i < k → (coeff_loop E (update_R E m k (k - 1)) k).2 i = 0) :
    (size_reduction_pass E sr m k).1.b = m.b ∧
    ((size_reduction_pass E sr m k).2 = false ↔ 0 < dot_b m k) ∧
    (0 < dot_b m k →
      size_reduction E sr 1 m k = some (update_R_row E (size_reduction_pass E sr m k).1 k)) :=
  zero_pass E sr m k hsr1 hexact hx

theorem engineId2R_coeffs (i : Nat) (hi : i < 1) :
    (coeff_loop (triangularBackend false)
      (update_R (triangularBackend false) engineId2R 1 (1 - 1)) 1).2 i = 0 := by
  have : i = 0 := by omega
  subst this
  rw [coeff_loop_one, (coeff_step_xf _ 1 _ 0).1]
  simp [update_R, triangularBackend, engineId2R, MatHouseholder.mk0, basisId2, rint]

/-- C17 (witness): the pass of `size_reduction(1)` on the engine with basis and R equal to
`[[1,0],[0,1]]`, `sr = 1/2`. -/
theorem C17_zero_pass_exits_witness :
    (0 : ℚ) < 1 / 2 ∧ (1 / 2 : ℚ) < 1 ∧
    (∀ i, i < 1 → (coeff_loop (triangularBackend false)
      (update_R (triangularBackend false) engineId2R 1 (1 - 1)) 1).2 i = 0) ∧
    (size_reduction_pass (triangularBackend false) (1 / 2) engineId2R 1).1.b = engineId2R.b ∧
    ((size_reduction_pass (triangularBackend false) (1 / 2) engineId2R 1).2 = false ↔
      0 < dot_b engineId2R 1) :=
  ⟨by norm_num, by norm_num, engineId2R_coeffs,
   (C17_zero_pass_exits (triangularBackend false) (1 / 2) engineId2R 1 (by norm_num)
      (by norm_num) (fun _ => triangularBackend_exactExp false) engineId2R_coeffs).1,
   (C17_zero_pass_exits (triangularBackend false) (1 / 2) engineId2R 1 (by norm_num)
      (by norm_num) (fun _ => triangularBackend_exactExp false) engineId2R_coeffs).2.1⟩

/-! ## Index preconditions of the engine calls -/

theorem foldl_inv_mem {α β : Type} (P : α → Prop) (f : α → β → α) :
    ∀ (l : List β) (a : α), (∀ a x, x ∈ l → P a → P (f a x)) → P a → P (l.foldl f a) := by
  intro l
  induction l with
  | nil => intro a _ ha; simpa using ha
  | cons x xs ih =>
    intro a h ha
    rw [List.foldl_cons]
    exact ih (f a x) (fun a y hy => h a y (List.mem_cons_of_mem _ hy))
      (h a x (List.mem_cons_self _ _) ha)

theorem fold_R_calls_ok (d k i : Nat) (hik : i < k) (hk : k < d) :
    ∀ c ∈ fold_R_calls k i, c.ok d := by
  intro c hc
  unfold fold_R_calls at hc
  rw [List.mem_flatMap] at hc
  obtain ⟨j, hj, hcj⟩ := hc
  have hji := List.mem_range.mp hj
  simp only [List.mem_cons, List.mem_singleton, List.not_mem_nil, or_false] at hcj
  rcases hcj with h | h | h | h <;> subst h <;> simp only [Call.ok] <;> omega

theorem coeff_step_calls_ok (E : Backend) (d k : Nat) (s : MatHouseholder × (Nat → FT))
    (i : Nat) (hik : i < k) (hk : k < d) :
    ∀ c ∈ coeff_step_calls E k s i, c.ok d := by
  intro c hc
  unfold coeff_step_calls at hc
  rw [List.mem_append] at hc
  rcases hc with h | h
  · simp only [List.mem_cons, List.mem_singleton, List.not_mem_nil, or_false] at h
    rcases h with h | h | h <;> subst h <;> simp only [Call.ok] <;> omega
  · split_ifs at h
    · exact fold_R_calls_ok d k i hik hk c h
    · cases h

theorem coeff_loop_calls_ok (E : Backend) (d k : Nat) (m : MatHouseholder) (hk : k < d) :
    ∀ c ∈ (coeff_loop_calls E m k).2, c.ok d := by
  unfold coeff_loop_calls
  refine foldl_inv_mem
    (fun p : (MatHouseholder × (Nat → FT)) × List Call => ∀ c ∈ p.2, c.ok d) _ _ _ ?_ ?_
  · intro p i hi hp c hc
    have hik : i < k := List.mem_range.mp (List.mem_reverse.mp hi)
    rcases List.mem_append.mp hc with h | h
    · exact hp c h
    · exact coeff_step_calls_ok E d k p.1 i hik hk c h
  · intro c hc
    cases hc

theorem pass_calls_ok (E : Backend) (d k : Nat) (m : MatHouseholder) (hk : k < d) :
    ∀ c ∈ pass_calls E m k, c.ok d := by
  intro c hc
  unfold pass_calls at hc
  rcases List.mem_append.mp hc with h | h
  · exact coeff_loop_calls_ok E d k _ hk c h
  · simp only [List.mem_cons, List.mem_singleton, List.not_mem_nil, or_false] at h
    rcases h with h | h <;> subst h <;> simp only [Call.ok] <;> omega

theorem size_reduction_calls_ok (E : Backend) (sr : FT) (d k : Nat) (hk : k < d) :
    ∀ (fuel : Nat) (m : MatHouseholder), ∀ c ∈ size_reduction_calls E sr fuel m k, c.ok d := by
  intro fuel
  induction fuel with
  | zero => intro m c hc; cases hc
  | succ f ih =>
    intro m c hc
    rw [size_reduction_calls] at hc
    rcases List.mem_append.mp hc with h | h
    · exact pass_calls_ok E d k m hk c h
    · split_ifs at h
      · exact ih _ c h
      · cases h

theorem reach_cursor (E : Backend) (delta sr : FT) (passes : Nat) (m0 : MatHouseholder)
    (s : LLLState) (hr : Reach E delta sr passes m0 s) : s.m.d = m0.d ∧ 1 ≤ s.k := by
  induction hr with
  | init => exact ⟨rfl, le_refl 1⟩
  | step hprev hlt hstep ih =>
    rename_i s s1 e
    have hsh := lll_step_shape E delta sr passes s s1 e hstep
    obtain ⟨m1, -, hc⟩ := lll_step_cases E delta sr passes s s1 e hstep
    refine ⟨hsh.1.trans ih.1, ?_⟩
    rcases hc with ⟨-, -, hk, -⟩ | ⟨-, -, hk, -⟩
    · rw [hk]; omega
    · rw [hk]; exact le_max_right _ _

theorem lll_step_calls_ok (E : Backend) (delta sr : FT) (passes d : Nat) (s : LLLState)
    (h1 : 1 ≤ s.k) (hk : s.k < d) : ∀ c ∈ lll_step_calls E delta sr passes s, c.ok d := by
  intro c hc
  unfold lll_step_calls at hc
  rcases List.mem_append.mp hc with h | h
  · exact size_reduction_calls_ok E sr d s.k hk passes _ c h
  · cases hsr : size_reduction E sr passes (engine_at_head E s) s.k with
    | none => rw [hsr] at h; cases h
    | some m1 =>
      rw [hsr] at h
      dsimp only at h
      rcases List.mem_append.mp h with g | g
      · simp only [List.mem_cons, List.mem_singleton, List.not_mem_nil, or_false] at g
        rcases g with g | g | g <;> subst g <;> simp only [Call.ok] <;> omega
      · split_ifs at g
        · cases g
        · simp only [List.mem_singleton] at g
          subst g
          simp only [Call.ok]
          omega

theorem size_check_row_calls_ok (m : MatHouseholder) (d i : Nat) (hi : i < d) :
    ∀ l : List Nat, (∀ j ∈ l, j < i) → ∀ c ∈ size_check_row_calls m i l, c.ok d := by
  intro l
  induction l with
  | nil => intro _ c hc; cases hc
  | cons j js ih =>
    intro hl c hc
    have hj := hl j (List.mem_cons_self _ _)
    rw [size_check_row_calls] at hc
    rcases List.mem_append.mp hc with h | h
    · simp only [List.mem_cons, List.mem_singleton, List.not_mem_nil, or_false] at h
      rcases h with h | h <;> subst h <;> simp only [Call.ok] <;> omega
    · split_ifs at h
      · cases h
      · exact ih (fun t ht => hl t (List.mem_cons_of_mem _ ht)) c h

theorem size_check_calls_ok (m : MatHouseholder) (d : Nat) :
    ∀ l : List Nat, (∀ i ∈ l, i < d) → ∀ c ∈ size_check_calls m l, c.ok d := by
  intro l
  induction l with
  | nil => intro _ c hc; cases hc
  | cons i is ih =>
    intro hl c hc
    rw [size_check_calls] at hc
    rcases List.mem_append.mp hc with h | h
    · exact size_check_row_calls_ok m d i (hl i (List.mem_cons_self _ _)) _
        (fun j hj => List.mem_range.mp hj) c h
    · split_ifs at h
      · exact ih (fun t ht => hl t (List.mem_cons_of_mem _ ht)) c h
      · cases h

theorem lovasz_check_calls_ok (E : Backend) (delta : FT) (m : MatHouseholder) (d : Nat) :
    ∀ l : List Nat, (∀ i ∈ l, 1 ≤ i ∧ i < d) → ∀ c ∈ lovasz_check_calls E delta m l, c.ok d := by
  intro l
  induction l with
  | nil => intro _ c hc; cases hc
  | cons i is ih =>
    intro hl c hc
    obtain ⟨hi1, hid⟩ := hl i (List.mem_cons_self _ _)
    rw [lovasz_check_calls] at hc
    rcases List.mem_append.mp hc with h | h
    · simp only [List.mem_cons, List.mem_singleton, List.not_mem_nil, or_false] at h
      rcases h with h | h | h <;> subst h <;> simp only [Call.ok] <;> omega
    · split_ifs at h
      · exact ih (fun t ht => hl t (List.mem_cons_of_mem _ ht)) c h
      · cases h

theorem coeff_loop_calls_state (E : Backend) (m : MatHouseholder) (k : Nat) :
    (coeff_loop_calls E m k).1 = coeff_loop E m k := by
  unfold coeff_loop_calls coeff_loop
  have key : ∀ (l : List Nat) (s : MatHouseholder × (Nat → FT)) (cs : List Call),
      (l.foldl (fun (p : (MatHouseholder × (Nat → FT)) × List Call) i =>
          (coeff_step E k p.1 i, p.2 ++ coeff_step_calls E k p.1 i)) (s, cs)).1
        = l.foldl (coeff_step E k) s := by
    intro l
    induction l with
    | nil => intro s cs; rfl
    | cons i is ih => intro s cs; rw [List.foldl_cons, List.foldl_cons]; exact ih _ _
  exact key _ _ _

/-- C19: every index precondition asserted by the engine holds at every call made by the driver
and the verifier.  The call log of the coefficient loop is threaded through the states of
that loop.  On an engine with `d` rows, the calls to `get_R`, `set_R`,
`norm_square_b_row` and `swap` and the accesses `xf[i]` issued by an iteration of `lll()` run
from a reachable loop-head state with `k < d`, those issued by `size_reduction(k)` for
`1 ≤ k < d`, and the calls to `get_R`, `norm_square_b_row` and `norm_square_R_row` issued by
`is_hlll_reduced` all satisfy their `FPLLL_DEBUG_CHECK` conditions (`0 ≤ j ≤ i < d`,
`0 ≤ k < d`, `0 ≤ end ≤ k < d`, `0 ≤ i < j < d`, and `0 ≤ i < k` for `xf[i]`). -/
theorem C19_index_preconditions (E : Backend) (delta sr : FT) (passes : Nat)
    (m0 : MatHouseholder) :
    (∀ m k, (coeff_loop_calls E m k).1 = coeff_loop E m k) ∧
    (∀ s, Reach E delta sr passes m0 s → s.k < s.m.d →
      ∀ c ∈ lll_step_calls E delta sr passes s, c.ok m0.d) ∧
    (∀ k fuel m, 1 ≤ k → k < m0.d → ∀ c ∈ size_reduction_calls E sr fuel m k, c.ok m0.d) ∧
    (∀ c ∈ is_hlll_reduced_calls E m0 delta, c.ok m0.d) := by
  refine ⟨coeff_loop_calls_state E, ?_, ?_, ?_⟩
  · intro s hr hlt c hc
    obtain ⟨hd, hk⟩ := reach_cursor E delta sr passes m0 s hr
    rw [hd] at hlt
    exact lll_step_calls_ok E delta sr passes m0.d s hk hlt c hc
  · intro k fuel m _ hk c hc
    exact size_reduction_calls_ok E sr m0.d k hk fuel m c hc
  · intro c hc
    have hd : (update_R_all E m0).d = m0.d := (update_R_all_frame E m0).1.1
    unfold is_hlll_reduced_calls at hc
    rw [hd] at hc
    rcases List.mem_append.mp hc with h | h
    · exact size_check_calls_ok _ m0.d _ (fun i hi => List.mem_range.mp hi) c h
    · split_ifs at h
      · exact lovasz_check_calls_ok E delta _ m0.d _
          (fun i hi => (mem_range_tail _ _).mp hi) c h
      · cases h

/-! ## The size-reduction loop on a zero row -/

theorem zeroRow_coeffs (m : MatHouseholder) (h : ZeroRowState m) (i : Nat) (hi : i < 1) :
    (coeff_loop (triangularBackend false)
      (update_R (triangularBackend false) m 1 (1 - 1)) 1).2 i = 0 := by
  obtain ⟨hb, -, -, hR⟩ := h
  have : i = 0 := by omega
  subst this
  rw [coeff_loop_one, (coeff_step_xf _ 1 _ 0).1]
  simp [update_R, triangularBackend, hb, hR, engineZeroRow, MatHouseholder.mk0, rint]

theorem zeroRow_dot (m : MatHouseholder) (h : ZeroRowState m) : dot_b m 1 = 0 := by
  obtain ⟨hb, hn, -, -⟩ := h
  unfold dot_b
  rw [hb, hn]
  simp [engineZeroRow, MatHouseholder.mk0, Finset.sum_range_succ]

theorem zeroRow_pass (sr : FT) (hsr1 : sr < 1) (m : MatHouseholder) (h : ZeroRowState m) :
    ZeroRowState (size_reduction_pass (triangularBackend false) sr m 1).1 ∧
    (size_reduction_pass (triangularBackend false) sr m 1).2 = true := by
  obtain ⟨hb, hiff, -⟩ := zero_pass (triangularBackend false) sr m 1 hsr1
    (fun _ => triangularBackend_exactExp false) (zeroRow_coeffs m h)
  have hsh := size_reduction_pass_shape (triangularBackend false) sr m 1
  have hR : (size_reduction_pass (triangularBackend false) sr m 1).1.R 0 0 = 1 := by
    have hf := (coeff_loop_fold (triangularBackend false)
      (update_R (triangularBackend false) m 1 (1 - 1)) 1).1 0 0 (by decide)
    show (coeff_loop (triangularBackend false)
      (update_R (triangularBackend false) m 1 (1 - 1)) 1).1.R 0 0 = 1
    rw [hf]
    simp [update_R, triangularBackend, h.2.2.2]
  refine ⟨⟨hb.trans h.1, hsh.2.1.trans h.2.1, hsh.2.2.trans h.2.2.1, hR⟩, ?_⟩
  cases hc : (size_reduction_pass (triangularBackend false) sr m 1).2 with
  | true => rfl
  | false =>
    exfalso
    have hp := hiff.mp hc
    rw [zeroRow_dot m h] at hp
    exact lt_irrefl _ hp

theorem zeroRow_never (sr : FT) (hsr1 : sr < 1) :
    ∀ (fuel : Nat) (m : MatHouseholder), ZeroRowState m →
      size_reduction (triangularBackend false) sr fuel m 1 = none := by
  intro fuel
  induction fuel with
  | zero => intro m _; rfl
  | succ f ih =>
    intro m h
    obtain ⟨h1, h2⟩ := zeroRow_pass sr hsr1 m h
    rw [size_reduction]
    simp only [h2, if_true]
    exact ih _ h1

theorem engineZeroRow_state : ZeroRowState engineZeroRow := by
  refine ⟨rfl, rfl, rfl, ?_⟩
  simp [engineZeroRow]

/-- C5 (as stated, refuted): on the basis `[[1,0],[0,0]]`, with `R(0,0) = 1`, the pass of
`size_reduction(1)` is repeated although the exact squared norm of `b[1]` did not decrease
(it is `0` before and after), and no number of passes ends the loop. -/
theorem C5_zero_row_counterexample :
    (size_reduction_pass (triangularBackend false) (1 / 2) engineZeroRow 1).2 = true ∧
    dot_b (size_reduction_pass (triangularBackend false) (1 / 2) engineZeroRow 1).1 1
      = dot_b engineZeroRow 1 ∧
    ¬ ∃ fuel m1,
        size_reduction (triangularBackend false) (1 / 2) fuel engineZeroRow 1 = some m1 := by
  obtain ⟨h1, h2⟩ := zeroRow_pass (1 / 2) (by norm_num) engineZeroRow engineZeroRow_state
  refine ⟨h2, ?_, ?_⟩
  · rw [zeroRow_dot _ h1, zeroRow_dot _ engineZeroRow_state]
  · rintro ⟨fuel, m1, h⟩
    rw [zeroRow_never (1 / 2) (by norm_num) fuel engineZeroRow engineZeroRow_state] at h
    cases h

theorem lll_zero_row (delta : FT) (passes fuel : Nat) :
    lll (triangularBackend false) delta (1 / 2) passes fuel
      (MatHouseholder.mk0 2 2 engineZeroRow.b false) = none := by
  unfold lll
  cases fuel with
  | zero => rfl
  | succ f =>
    rw [lll_loop]
    have hlt : (lll_init (MatHouseholder.mk0 2 2 engineZeroRow.b false)).k <
        (lll_init (MatHouseholder.mk0 2 2 engineZeroRow.b false)).m.d := by decide
    rw [if_pos hlt]
    have hst : ZeroRowState (engine_at_head (triangularBackend false)
        (lll_init (MatHouseholder.mk0 2 2 engineZeroRow.b false))) := by
      refine ⟨rfl, rfl, rfl, ?_⟩
      simp [engine_at_head, lll_init, update_R_row, update_R, triangularBackend,
        MatHouseholder.mk0, engineZeroRow]
    have hsr : size_reduction (triangularBackend false) (1 / 2) passes
        (engine_at_head (triangularBackend false)
          (lll_init (MatHouseholder.mk0 2 2 engineZeroRow.b false)))
        (lll_init (MatHouseholder.mk0 2 2 engineZeroRow.b false)).k = none :=
      zeroRow_never (1 / 2) (by norm_num) passes _ hst
    have hstep : lll_step (triangularBackend false) delta (1 / 2) passes
        (lll_init (MatHouseholder.mk0 2 2 engineZeroRow.b false)) = none := by
      unfold lll_step
      dsimp only
      rw [hsr]
    rw [hstep]

/-- C7 (witness): the engine over `[[1,0],[0,1]]`, where `update_R()` leaves `R(0,0) = 1`. -/
theorem C7_is_hlll_reduced_iff_witness :
    engineKnown2.enable_row_expo = false ∧
    (∀ j, j + 1 < engineKnown2.d →
      (update_R_all (triangularBackend true) engineKnown2).R j j ≠ 0) ∧
    ((is_hlll_reduced (triangularBackend true) engineKnown2 (99 / 100) (51 / 100)).1 = true ↔
      (∀ i j, j < i → i < engineKnown2.d →
          |(update_R_all (triangularBackend true) engineKnown2).R i j /
            (update_R_all (triangularBackend true) engineKnown2).R j j| ≤ 1 / 2) ∧
      (∀ i, 1 ≤ i → i < engineKnown2.d →
          (99 / 100) * (update_R_all (triangularBackend true) engineKnown2).R (i - 1) (i - 1) ^ 2 ≤
            ((dot_b engineKnown2 i : ℤ) : ℚ) -
              ∑ j in Finset.range (i - 1),
                (update_R_all (triangularBackend true) engineKnown2).R i j ^ 2)) :=
  have hdiag : ∀ j, j + 1 < engineKnown2.d →
      (update_R_all (triangularBackend true) engineKnown2).R j j ≠ 0 := by
    intro j hj
    have hd : engineKnown2.d = 2 := rfl
    rw [hd] at hj
    have : j = 0 := by omega
    subst this
    rw [update_R_all_triangular true engineKnown2 0 0 (by decide) (le_refl 0)]
    simp [engineKnown2, MatHouseholder.mk0, basisId2]
  ⟨rfl, hdiag,
   C7_is_hlll_reduced_iff (triangularBackend true) engineKnown2 (99 / 100) (51 / 100) rfl hdiag⟩

/-! ## Runs of `lll()` over an exact backend -/

theorem pass_b_other (E : Backend) (sr : FT) (m : MatHouseholder) (k r : Nat) (hr : r ≠ k) :
    (size_reduction_pass E sr m k).1.b r = m.b r := by
  rw [size_reduction_pass_b]
  funext c
  simp [add_rows_upto, hr]

theorem pass_R (E : Backend) (sr : FT) (m : MatHouseholder) (k : Nat) :
    (size_reduction_pass E sr m k).1.R = (coeff_loop E (update_R E m k (k - 1)) k).1.R := rfl

theorem pass_row_expo (E : Backend) (sr : FT) (m : MatHouseholder) (k : Nat)
    (hen : m.enable_row_expo = false) :
    (size_reduction_pass E sr m k).1.row_expo = m.row_expo := by
  show (coeff_loop E (update_R E m k (k - 1)) k).1.row_expo = m.row_expo
  rw [(coeff_loop_shape E _ k).2.2]
  unfold update_R
  simp [hen]

theorem update_R_state (E : Backend) (Rex : (Nat → Nat → ZT) → Nat → Nat → FT)
    (hR : ExactR E Rex) (b0 : Nat → Nat → ZT) (k j : Nat) (m : MatHouseholder)
    (hm : SizeRedState Rex b0 k m) :
    SizeRedState Rex b0 k (update_R E m k j) ∧
    (∀ c, c ≤ j → (update_R E m k j).R k c = Rex m.b k c) := by
  obtain ⟨hen, hrow, hb, hv⟩ := hm
  obtain ⟨h1, h2, h3, -, -, h6, h7⟩ := update_R_valid E Rex hR m k j
  refine ⟨⟨h6.trans hen, ?_, ?_, ?_⟩, h1⟩
  · intro i
    rw [h7 hen]
    exact hrow i
  · intro r hr
    rw [h3]
    exact hb r hr
  · intro i hi c hc
    rw [h2 i (by omega) c, h3]
    exact hv i hi c hc

theorem pass_state (E : Backend) (Rex : (Nat → Nat → ZT) → Nat → Nat → FT) (sr : FT)
    (hR : ExactR E Rex) (hloc : LocalR Rex) (b0 : Nat → Nat → ZT) (k : Nat)
    (m : MatHouseholder) (hm : SizeRedState Rex b0 k m) :
    SizeRedState Rex b0 k (size_reduction_pass E sr m k).1 := by
  obtain ⟨⟨hen1, hrow1, hb1, hv1⟩, -⟩ := update_R_state E Rex hR b0 k (k - 1) m hm
  obtain ⟨hen, hrow, hb, hv⟩ := hm
  have hbr : ∀ r, r < k → (size_reduction_pass E sr m k).1.b r = m.b r :=
    fun r hr => pass_b_other E sr m k r (by omega)
  refine ⟨(size_reduction_pass_shape E sr m k).2.2.trans hen, ?_, ?_, ?_⟩
  · intro i
    rw [pass_row_expo E sr m k hen]
    exact hrow i
  · intro r hr
    rw [hbr r hr]
    exact hb r hr
  · intro i hi c hc
    have hfold := (coeff_loop_fold E (update_R E m k (k - 1)) k).1 i c (by omega)
    have hrex : Rex (size_reduction_pass E sr m k).1.b i = Rex m.b i :=
      hloc _ _ i (fun r hr => hbr r (by omega))
    rw [pass_R, hfold, hrex]
    have := hv1 i hi c hc
    rw [update_R_b] at this
    exact this

theorem size_reduction_state (E : Backend) (Rex : (Nat → Nat → ZT) → Nat → Nat → FT) (sr : FT)
    (hR : ExactR E Rex) (hloc : LocalR Rex) (b0 : Nat → Nat → ZT) (k : Nat)
    (T : (Nat → Nat → ZT) → Prop)
    (hT : ∀ m, SizeRedState Rex b0 k m → T (size_reduction_pass E sr m k).1.b) :
    ∀ (fuel : Nat) (m m2 : MatHouseholder), SizeRedState Rex b0 k m →
      size_reduction E sr fuel m k = some m2 →
      SizeRedState Rex b0 k m2 ∧ RowValid Rex m2 k ∧ T m2.b := by
  intro fuel
  induction fuel with
  | zero => intro m m2 _ h; simp [size_reduction] at h
  | succ f ih =>
    intro m m2 hm h
    rw [size_reduction] at h
    have hp := pass_state E Rex sr hR hloc b0 k m hm
    split_ifs at h with hc
    · exact ih _ _ hp h
    · cases h
      obtain ⟨hs, hk⟩ := update_R_state E Rex hR b0 k k _ hp
      refine ⟨hs, ?_, hT m hm⟩
      intro c hc'
      exact hk c hc'

theorem engine_at_head_state (E : Backend) (Rex : (Nat → Nat → ZT) → Nat → Nat → FT)
    (P : (Nat → Nat → ZT) → Nat → Prop) (hR : ExactR E Rex) (s : LLLState)
    (hinv : RunInv Rex P s) : SizeRedState Rex s.m.b s.k (engine_at_head E s) := by
  obtain ⟨hen, hrow, -, hv, -⟩ := hinv
  unfold engine_at_head
  cases hf : s.update_R_row_0 with
  | true =>
    simp only [if_true]
    obtain ⟨h1, h2, h3, -, -, h6, h7⟩ := update_R_valid E Rex hR s.m 0 0
    refine ⟨h6.trans hen, ?_, fun r _ => by rw [show (update_R_row E s.m 0).b = s.m.b from rfl],
      ?_⟩
    · intro i
      show (update_R E s.m 0 0).row_expo i = -1
      rw [h7 hen]
      exact hrow i
    · intro i hi c hc
      show (update_R E s.m 0 0).R i c = Rex (update_R E s.m 0 0).b i c
      rw [h3]
      by_cases h0 : i = 0
      · subst h0
        exact h1 c hc
      · rw [h2 i h0 c]
        exact hv i hi (Or.inl (by omega)) c hc
  | false =>
    simp only [Bool.false_eq_true, if_false]
    exact ⟨hen, hrow, fun _ _ => rfl, fun i hi => hv i hi (Or.inr hf)⟩

theorem swap_frame (E : Backend) (m : MatHouseholder) (i j : Nat) :
    (swap E m i j).R = m.R ∧ (swap E m i j).row_expo = m.row_expo ∧
    (swap E m i j).enable_row_expo = m.enable_row_expo := by
  obtain ⟨-, hR, -, -, he, -, -, hen⟩ := invalidate_row_frame E m i
  exact ⟨hR, he, hen⟩

theorem swap_rows_other (b : Nat → Nat → ZT) (i j r : Nat) (h1 : r ≠ i) (h2 : r ≠ j) :
    swap_rows b i j r = b r := by
  simp [swap_rows, h1, h2]

theorem run_step (E : Backend) (Rex : (Nat → Nat → ZT) → Nat → Nat → FT)
    (P : (Nat → Nat → ZT) → Nat → Prop) (delta sr : FT) (passes : Nat)
    (hR : ExactR E Rex) (hloc : LocalR Rex) (hP : LocalP P) (s s1 : LLLState) (e : StepLog)
    (hinv : RunInv Rex P s) (hst : lll_step E delta sr passes s = some (s1, e))
    (hest : ∀ m1, size_reduction E sr passes (engine_at_head E s) s.k = some m1 →
      lovasz_test delta m1 s.k = true → P m1.b s.k) :
    RunInv Rex P s1 := by
  obtain ⟨m1, hsr, hc⟩ := lll_step_cases E delta sr passes s s1 e hst
  obtain ⟨⟨qen, qrow, qb, qv⟩, qk, -⟩ :=
    size_reduction_state E Rex sr hR hloc s.m.b s.k (fun _ => True) (fun _ _ => trivial)
      passes _ m1 (engine_at_head_state E Rex P hR s hinv) hsr
  obtain ⟨-, -, ik, -, iP⟩ := hinv
  have hPm1 : ∀ i, 1 ≤ i → i < s.k → P m1.b i := by
    intro i h1 hi
    exact hP s.m.b m1.b i (fun r hr => (qb r (by omega)).symm) (iP i h1 hi)
  rcases hc with ⟨ht, hm, hk, hf, -⟩ | ⟨-, hm, hk, hf, -⟩
  · unfold RunInv
    rw [hm, hk, hf]
    refine ⟨qen, qrow, by omega, ?_, ?_⟩
    · intro i hi _
      by_cases hik : i = s.k
      · subst hik; exact qk
      · exact qv i (by omega)
    · intro i h1 hi
      by_cases hik : i = s.k
      · subst hik; exact hest m1 hsr ht
      · exact hPm1 i h1 (by omega)
  · obtain ⟨sR, sE, sN⟩ := swap_frame E m1 (s.k - 1) s.k
    have hrows : ∀ i, i + 1 < s.k → ∀ r, r ≤ i →
        m1.b r = (swap E m1 (s.k - 1) s.k).b r := by
      intro i hi r hr
      rw [swap_b, swap_rows_other m1.b (s.k - 1) s.k r (by omega) (by omega)]
    unfold RunInv
    rw [hm, hk, hf, flag_at_test_false]
    refine ⟨sN.trans qen, ?_, le_max_right _ _, ?_, ?_⟩
    · intro i
      rw [sE]
      exact qrow i
    · intro i hi hor
      by_cases hk1 : s.k - 1 = 0
      · exfalso
        have hik : i < 1 := by simpa [hk1] using hi
        rcases hor with h | h
        · omega
        · simp [hk1] at h
      · have hi' : i + 1 < s.k := by
          have : max (s.k - 1) 1 = s.k - 1 := max_eq_left (by omega)
          rw [this] at hi
          omega
        intro c hc
        rw [sR, ← hloc m1.b _ i (hrows i hi')]
        exact qv i (by omega) c hc
    · intro i h1 hi
      have hi' : i + 1 < s.k := by
        have : max (s.k - 1) 1 ≤ s.k - 1 ∨ s.k - 1 = 0 := by
          by_cases h : s.k - 1 = 0
          · exact Or.inr h
          · exact Or.inl (le_of_eq (max_eq_left (by omega)))
        rcases this with h | h
        · omega
        · rw [h] at hi
          simp at hi
          omega
      exact hP m1.b _ i (hrows i hi') (hPm1 i h1 (by omega))

theorem run_invariant (E : Backend) (Rex : (Nat → Nat → ZT) → Nat → Nat → FT)
    (P : (Nat → Nat → ZT) → Nat → Prop) (delta sr : FT) (passes : Nat) (m0 : MatHouseholder)
    (hR : ExactR E Rex) (hloc : LocalR Rex) (hP : LocalP P)
    (hen : m0.enable_row_expo = false) (hrow : ∀ i, m0.row_expo i = -1)
    (hest : ∀ s m1, Reach E delta sr passes m0 s → RunInv Rex P s → s.k < s.m.d →
      size_reduction E sr passes (engine_at_head E s) s.k = some m1 →
      lovasz_test delta m1 s.k = true → P m1.b s.k) :
    ∀ s, Reach E delta sr passes m0 s → RunInv Rex P s := by
  intro s hr
  induction hr with
  | init =>
    refine ⟨hen, hrow, le_refl 1, ?_, ?_⟩
    · intro i hi hor
      exfalso
      have hi0 : i < 1 := hi
      rcases hor with h | h
      · omega
      · cases h
    · intro i h1 hi
      exfalso
      have hi0 : i < 1 := hi
      omega
  | step hprev hlt hstep ih =>
    rename_i s s1 e
    exact run_step E Rex P delta sr passes hR hloc hP s s1 e ih hstep
      (fun m1 hsr ht => hest s m1 hprev ih hlt hsr ht)

/-! ## The Lovasz postcondition of `lll()` -/

theorem lovaszAt_local (Rex : (Nat → Nat → ZT) → Nat → Nat → FT) (delta : FT)
    (hloc : LocalR Rex) : LocalP (LovaszAt Rex delta) := by
  intro b b1 i hb h
  unfold LovaszAt at h ⊢
  rw [← hloc b b1 i hb, ← hloc b b1 (i - 1) (fun r hr => hb r (by omega))]
  exact h

theorem lovasz_established (E : Backend) (Rex : (Nat → Nat → ZT) → Nat → Nat → FT)
    (P : (Nat → Nat → ZT) → Nat → Prop) (delta sr : FT) (passes : Nat)
    (hR : ExactR E Rex) (hloc : LocalR Rex) (s : LLLState) (m1 : MatHouseholder)
    (hinv : RunInv Rex P s)
    (hsr : size_reduction E sr passes (engine_at_head E s) s.k = some m1)
    (ht : lovasz_test delta m1 s.k = true) : LovaszAt Rex delta m1.b s.k := by
  obtain ⟨⟨-, qrow, -, qv⟩, qk, -⟩ :=
    size_reduction_state E Rex sr hR hloc s.m.b s.k (fun _ => True) (fun _ _ => trivial)
      passes _ m1 (engine_at_head_state E Rex P hR s hinv) hsr
  have ik : 1 ≤ s.k := hinv.2.2.1
  have h := (lovasz_test_plain delta m1 s.k (qrow (s.k - 1))).mp ht
  rw [qv (s.k - 1) (by omega) (s.k - 1) (le_refl _), qk (s.k - 1) (by omega),
    qk s.k (le_refl _)] at h
  exact h

theorem lll_lovasz_rows (E : Backend) (Rex : (Nat → Nat → ZT) → Nat → Nat → FT)
    (delta sr : FT) (passes fuel : Nat) (m0 : MatHouseholder) (sf : LLLState)
    (es : List StepLog) (hen : m0.enable_row_expo = false) (hrow : ∀ i, m0.row_expo i = -1)
    (hR : ExactR E Rex) (hloc : LocalR Rex)
    (hrun : lll E delta sr passes fuel m0 = some (sf, es)) :
    sf.m.enable_row_expo = false ∧ ∀ i, 1 ≤ i → i < sf.m.d → LovaszAt Rex delta sf.m.b i := by
  obtain ⟨hreach, hexit⟩ :=
    lll_loop_reach E delta sr passes m0 fuel (lll_init m0) sf es Reach.init hrun
  have hinv := run_invariant E Rex (LovaszAt Rex delta) delta sr passes m0 hR hloc
    (lovaszAt_local Rex delta hloc) hen hrow
    (fun s m1 _ hs _ hsr ht =>
      lovasz_established E Rex _ delta sr passes hR hloc s m1 hs hsr ht) sf hreach
  exact ⟨hinv.1, fun i h1 hi => hinv.2.2.2.2 i h1 (by omega)⟩

theorem lll_lovasz_post (E : Backend) (Rex : (Nat → Nat → ZT) → Nat → Nat → FT)
    (delta sr : FT) (passes fuel : Nat) (m0 : MatHouseholder) (sf : LLLState)
    (es : List StepLog) (hen : m0.enable_row_expo = false) (hrow : ∀ i, m0.row_expo i = -1)
    (hR : ExactR E Rex) (hloc : LocalR Rex)
    (hrun : lll E delta sr passes fuel m0 = some (sf, es))
    (hnorm : ∀ i, 1 ≤ i → i < sf.m.d →
      ((dot_b sf.m i : ℤ) : ℚ) = ∑ j in Finset.range (i + 1), Rex sf.m.b i j ^ 2) :
    (∀ i, 1 ≤ i → i < sf.m.d →
      delta * (update_R_all E sf.m).R (i - 1) (i - 1) ^ 2 ≤
        ((dot_b sf.m i : ℤ) : ℚ) -
          ∑ j in Finset.range (i - 1), (update_R_all E sf.m).R i j ^ 2) ∧
    lovasz_check E delta (update_R_all E sf.m) (List.range (update_R_all E sf.m).d).tail
      = true := by
  obtain ⟨hsen, hlov⟩ := lll_lovasz_rows E Rex delta sr passes fuel m0 sf es hen hrow hR hloc hrun
  obtain ⟨hub, huv⟩ := update_R_all_valid E Rex hR sf.m sf.m.d
  obtain ⟨hsh, hbb⟩ := update_R_all_frame E sf.m
  have hval : ∀ i c, i < sf.m.d → c ≤ i → (update_R_all E sf.m).R i c = Rex sf.m.b i c := by
    intro i c hi hc
    have := huv i hi c hc
    rw [hub] at this
    exact this
  have hform : ∀ i, 1 ≤ i → i < sf.m.d →
      delta * (update_R_all E sf.m).R (i - 1) (i - 1) ^ 2 ≤
        ((dot_b sf.m i : ℤ) : ℚ) -
          ∑ j in Finset.range (i - 1), (update_R_all E sf.m).R i j ^ 2 := by
    intro i h1 hi
    have h := hlov i h1 hi
    unfold LovaszAt at h
    have hsum : ∑ j in Finset.range (i - 1), (update_R_all E sf.m).R i j ^ 2
        = ∑ j in Finset.range (i - 1), Rex sf.m.b i j ^ 2 := by
      refine Finset.sum_congr rfl (fun j hj => ?_)
      have := Finset.mem_range.mp hj
      rw [hval i j hi (by omega)]
    rw [hval (i - 1) (i - 1) (by omega) (le_refl _), hsum, hnorm i h1 hi]
    obtain ⟨p, rfl⟩ : ∃ p, i = p + 1 := ⟨i - 1, by omega⟩
    simp only [Nat.add_sub_cancel] at h ⊢
    rw [Finset.sum_range_succ, Finset.sum_range_succ]
    linarith
  refine ⟨hform, ?_⟩
  rw [lovasz_check_iff, hsh.1]
  intro i hi
  obtain ⟨h1, h2⟩ := (mem_range_tail _ _).mp hi
  have hex : (update_R_all E sf.m).enable_row_expo = false := by rw [hsh.2.2]; exact hsen
  have hdot : dot_b (update_R_all E sf.m) i = dot_b sf.m i := by
    unfold dot_b; rw [hbb, hsh.2.1]
  rw [norm_square_b_row_plain E _ i hex, norm_square_R_row_val, hdot, ← sq]
  exact hform i h1 h2

/-- C2: Lovasz postcondition of `lll()`, over an exact backend.  Let row-exponent scaling be
disabled and let `update_R` yield the R-factor `Rex` of the current basis, row `i` of which
depends only on the basis rows `0 .. i`.  When `lll()` returns with a basis whose rows `i ≥ 1`
satisfy `||b[i]||^2 = Σ_{j ≤ i} R(i,j)^2`, then for all `1 ≤ i < d` the R matrix recomputed by
`update_R()` satisfies `delta * R(i-1,i-1)^2 ≤ ||b[i]||^2 - Σ_{j < i-1} R(i,j)^2`, that is, the
Lovasz loop of `is_hlll_reduced` finds no violation. -/
theorem C2_lovasz_postcondition (E : Backend) (Rex : (Nat → Nat → ZT) → Nat → Nat → FT)
    (delta sr : FT) (passes fuel : Nat) (m0 : MatHouseholder) (sf : LLLState)
    (es : List StepLog) (hen : m0.enable_row_expo = false) (hrow : ∀ i, m0.row_expo i = -1)
    (hR : ExactR E Rex) (hloc : LocalR Rex)
    (hrun : lll E delta sr passes fuel m0 = some (sf, es))
    (hnorm : ∀ i, 1 ≤ i → i < sf.m.d →
      ((dot_b sf.m i : ℤ) : ℚ) = ∑ j in Finset.range (i + 1), Rex sf.m.b i j ^ 2) :
    (∀ i, 1 ≤ i → i < sf.m.d →
      delta * (update_R_all E sf.m).R (i - 1) (i - 1) ^ 2 ≤
        ((dot_b sf.m i : ℤ) : ℚ) -
          ∑ j in Finset.range (i - 1), (update_R_all E sf.m).R i j ^ 2) ∧
    lovasz_check E delta (update_R_all E sf.m) (List.range (update_R_all E sf.m).d).tail
      = true :=
  lll_lovasz_post E Rex delta sr passes fuel m0 sf es hen hrow hR hloc hrun hnorm

theorem castR_local : LocalR (fun b i c => ((b i c : ℤ) : ℚ)) := by
  intro b b1 i hb
  funext c
  show ((b i c : ℤ) : ℚ) = ((b1 i c : ℤ) : ℚ)
  rw [hb i (le_refl i)]

/-! ## The size-reduction postcondition of `lll()` -/

theorem sizeRedAt_local (Rex : (Nat → Nat → ZT) → Nat → Nat → FT) (hloc : LocalR Rex) :
    LocalP (SizeRedAt Rex) := by
  intro b b1 i hb h j hj
  rw [← hloc b b1 i hb, ← hloc b b1 j (fun r hr => hb r (by omega))]
  exact h j hj

theorem pass_size_reduced (E : Backend) (Rex : (Nat → Nat → ZT) → Nat → Nat → FT) (sr : FT)
    (hR : ExactR E Rex) (hloc : LocalR Rex) (hlin : LinR Rex) (hrnd : RoundsNearest E)
    (b0 : Nat → Nat → ZT) (k d : Nat) (hk : k < d) (hok : RFactorOK Rex d b0)
    (m : MatHouseholder) (hm : SizeRedState Rex b0 k m) :
    SizeRedAt Rex (size_reduction_pass E sr m k).1.b k := by
  obtain ⟨⟨hen1, hrow1, hb1, hv1⟩, hk1⟩ := update_R_state E Rex hR b0 k (k - 1) m hm
  obtain ⟨hen, hrow, hb, hv⟩ := hm
  obtain ⟨htri, hdiag⟩ := hok
  -- the R-factor rows below `k` are those of `b0`
  have hrex : ∀ i, i < k → Rex m.b i = Rex b0 i :=
    fun i hi => hloc _ _ i (fun r hr => hb r (by omega))
  have hR1 : ∀ i c, i < k → c ≤ i → (update_R E m k (k - 1)).R i c = Rex m.b i c := by
    intro i c hi hc
    have := hv1 i hi c hc
    rw [update_R_b] at this
    exact this
  have hnz : ∀ i, i < k → (update_R E m k (k - 1)).R i i ≠ 0 := by
    intro i hi
    rw [hR1 i i hi (le_refl i), hrex i hi]
    exact hdiag i (by omega)
  obtain ⟨-, -, -, hbound⟩ := coeff_loop_bound E (update_R E m k (k - 1)) k hrnd hrow1 hnz
  intro j hj
  obtain ⟨-, hbj⟩ := hbound j (Nat.zero_le j) hj
  have hcoef : ∀ l, l < k → ((pass_coeffs E m k l : ℤ) : ℚ)
      = (coeff_loop E (update_R E m k (k - 1)) k).2 l := by
    intro l hl
    obtain ⟨⟨z, hz⟩, -⟩ := hbound l (Nat.zero_le l) hl
    unfold pass_coeffs set_f
    rw [hz, Int.floor_intCast]
  have hnew : Rex (size_reduction_pass E sr m k).1.b k j =
      (update_R E m k (k - 1)).R k j + ∑ l in Finset.Ico j k,
        (coeff_loop E (update_R E m k (k - 1)) k).2 l * (update_R E m k (k - 1)).R l j := by
    rw [size_reduction_pass_b, hlin m.b k _ j hj, hk1 j (by omega),
      ← Finset.sum_range_add_sum_Ico _ (le_of_lt hj)]
    have hzero : ∑ l in Finset.range j, ((pass_coeffs E m k l : ℤ) : ℚ) * Rex m.b l j = 0 := by
      refine Finset.sum_eq_zero (fun l hl => ?_)
      have hlj := Finset.mem_range.mp hl
      rw [hrex l (by omega), htri l j hlj (by omega), mul_zero]
    rw [hzero, zero_add]
    congr 1
    refine Finset.sum_congr rfl (fun l hl => ?_)
    obtain ⟨h1, h2⟩ := Finset.mem_Ico.mp hl
    rw [hcoef l h2, hR1 l j h2 h1]
  have hdiv : Rex (size_reduction_pass E sr m k).1.b j j = (update_R E m k (k - 1)).R j j := by
    rw [hloc _ m.b j (fun r hr => pass_b_other E sr m k r (by omega)), hR1 j j hj (le_refl j)]
  rw [hnew, hdiv, abs_div, div_le_iff₀ (abs_pos.mpr (hnz j hj))]
  linarith

theorem sizeRed_established (E : Backend) (Rex : (Nat → Nat → ZT) → Nat → Nat → FT)
    (P : (Nat → Nat → ZT) → Nat → Prop) (sr : FT) (passes d : Nat)
    (hR : ExactR E Rex) (hloc : LocalR Rex) (hlin : LinR Rex) (hrnd : RoundsNearest E)
    (s : LLLState) (m1 : MatHouseholder) (hinv : RunInv Rex P s) (hk : s.k < d)
    (hok : RFactorOK Rex d s.m.b)
    (hsr : size_reduction E sr passes (engine_at_head E s) s.k = some m1) :
    SizeRedAt Rex m1.b s.k :=
  (size_reduction_state E Rex sr hR hloc s.m.b s.k (fun b => SizeRedAt Rex b s.k)
    (fun m hm => pass_size_reduced E Rex sr hR hloc hlin hrnd s.m.b s.k d hk hok m hm)
    passes _ m1 (engine_at_head_state E Rex P hR s hinv) hsr).2.2

theorem castR_lin : LinR (fun b i c => ((b i c : ℤ) : ℚ)) := by
  intro b k z j _
  show (((add_rows_upto b k z k) k j : ℤ) : ℚ) = _
  unfold add_rows_upto
  rw [if_pos rfl]
  push_cast
  rfl

theorem size_reduction_inv (E : Backend) (sr : FT) (k : Nat) (I : MatHouseholder → Prop)
    (hpass : ∀ m, I m → I (size_reduction_pass E sr m k).1)
    (hupd : ∀ m, I m → I (update_R_row E m k)) :
    ∀ (fuel : Nat) (m m1 : MatHouseholder), I m →
      size_reduction E sr fuel m k = some m1 → I m1 := by
  intro fuel
  induction fuel with
  | zero => intro m m1 _ h; simp [size_reduction] at h
  | succ f ih =>
    intro m m1 hm h
    rw [size_reduction] at h
    split_ifs at h with hc
    · exact ih _ _ (hpass m hm) h
    · cases h
      exact hupd _ (hpass m hm)

theorem lowUnit_pass (E : Backend) (sr : FT) (m : MatHouseholder) (h : LowUnit m.b) :
    LowUnit (size_reduction_pass E sr m 1).1.b := by
  obtain ⟨h1, h2, h3⟩ := h
  rw [size_reduction_pass_b]
  unfold add_rows_upto
  refine ⟨?_, ?_, ?_⟩
  · simp [h1]
  · simp [h2]
  · simp [h3, h2]

theorem lowUnit_indep (b : Nat → Nat → ZT) (h : LowUnit b) : RowIndep b 2 1 := by
  obtain ⟨h1, h2, h3⟩ := h
  intro z
  simp only [Finset.sum_range_succ, Finset.sum_range_zero, h1, h2, h3]
  have := sq_nonneg (b 1 0 - (0 + z 0 * 1))
  nlinarith

theorem lowUnit_ok (b : Nat → Nat → ZT) (h : LowUnit b) :
    RFactorOK (fun b i c => ((b i c : ℤ) : ℚ)) 2 b := by
  obtain ⟨h1, h2, -⟩ := h
  constructor
  · intro l i hl hi
    have hi1 : i = 1 := by omega
    have hl0 : l = 0 := by omega
    subst hi1; subst hl0
    show ((b 0 1 : ℤ) : ℚ) = 0
    rw [h2]; simp
  · intro i hi
    have hi0 : i = 0 := by omega
    subst hi0
    show ((b 0 0 : ℤ) : ℚ) ≠ 0
    rw [h1]; norm_num

theorem lowRun_step (passes : Nat) (s s1 : LLLState) (e : StepLog) (hs : LowRun s)
    (hk : s.k < 2)
    (hst : lll_step (triangularBackend false) (99 / 100) (1 / 2) passes s = some (s1, e)) :
    LowRun s1 ∧ s1.k = 2 ∧ s1.m.b 1 0 = 0 := by
  obtain ⟨hinv, hlow, hd, hn⟩ := hs
  have hk1 : s.k = 1 := by have := hinv.2.2.1; omega
  obtain ⟨m1, hsr, hc⟩ := lll_step_cases _ _ _ _ s s1 e hst
  have hok := lowUnit_ok s.m.b hlow
  have hest : ∀ m2, size_reduction (triangularBackend false) (1 / 2) passes
      (engine_at_head (triangularBackend false) s) s.k = some m2 →
      SizeRedAt (fun b i c => ((b i c : ℤ) : ℚ)) m2.b s.k :=
    fun m2 h2 => sizeRed_established (triangularBackend false) (fun b i c => ((b i c : ℤ) : ℚ))
      _ (1 / 2) passes 2 (triangularBackend_exactR false) castR_local castR_lin
      (triangularBackend_nearest false) s m2 hinv hk hok h2
  have hsz := hest m1 hsr
  obtain ⟨⟨-, qrow, -, qv⟩, qk, -⟩ :=
    size_reduction_state (triangularBackend false) (fun b i c => ((b i c : ℤ) : ℚ)) (1 / 2)
      (triangularBackend_exactR false) castR_local s.m.b s.k (fun _ => True)
      (fun _ _ => trivial) passes _ m1
      (engine_at_head_state _ _ _ (triangularBackend_exactR false) s hinv) hsr
  have hlow1 : LowUnit m1.b :=
    size_reduction_inv (triangularBackend false) (1 / 2) s.k (fun m => LowUnit m.b)
      (fun m h => by rw [hk1]; exact lowUnit_pass _ _ m h) (fun m h => h) passes _ m1
      (by show LowUnit (engine_at_head _ s).b; rw [engine_at_head_b]; exact hlow) hsr
  rw [hk1] at hsz qk qv
  have hb10 : m1.b 1 0 = 0 := by
    have h : |((m1.b 1 0 : ℤ) : ℚ) / ((m1.b 0 0 : ℤ) : ℚ)| ≤ 1 / 2 := hsz 0 (by norm_num)
    rw [hlow1.1, Int.cast_one, div_one] at h
    have h2 : |m1.b 1 0| < 1 := by
      have : ((|m1.b 1 0| : ℤ) : ℚ) < 1 := by rw [Int.cast_abs]; linarith
      exact_mod_cast this
    exact Int.abs_lt_one_iff.mp h2
  have hR10 : m1.R 1 0 = 0 := by
    have := qk 0 (by norm_num)
    rw [this]
    show ((m1.b 1 0 : ℤ) : ℚ) = 0
    rw [hb10]; simp
  have hR11 : m1.R 1 1 = 1 := by
    have := qk 1 (le_refl 1)
    rw [this]
    show ((m1.b 1 1 : ℤ) : ℚ) = 1
    rw [hlow1.2.2]; simp
  have hR00 : m1.R 0 0 = 1 := by
    have := qv 0 (by norm_num) 0 (le_refl 0)
    rw [this]
    show ((m1.b 0 0 : ℤ) : ℚ) = 1
    rw [hlow1.1]; simp
  have ht : lovasz_test (99 / 100) m1 1 = true := by
    unfold lovasz_test get_R
    simp [hR10, hR11, hR00, qrow]
    norm_num
  rw [hk1] at hc
  rcases hc with ⟨-, hm, hk2, -, -⟩ | ⟨hf, -⟩
  · refine ⟨⟨?_, ?_, ?_, ?_⟩, hk2, ?_⟩
    · exact run_step (triangularBackend false) (fun b i c => ((b i c : ℤ) : ℚ)) _ (99 / 100)
        (1 / 2) passes (triangularBackend_exactR false) castR_local
        (sizeRedAt_local _ castR_local) s s1 e hinv hst (fun m2 h2 _ => hest m2 h2)
    · rw [hm]; exact hlow1
    · rw [(lll_step_shape _ _ _ _ s s1 e hst).1, hd]
    · rw [(lll_step_shape _ _ _ _ s s1 e hst).2.1, hn]
    · rw [hm]; exact hb10
  · rw [ht] at hf
    cases hf

theorem low_reach (passes : Nat) (s : LLLState)
    (hs : Reach (triangularBackend false) (99 / 100) (1 / 2) passes engineLow0 s) :
    LowRun s := by
  induction hs with
  | init =>
    refine ⟨⟨rfl, fun _ => rfl, le_refl 1, ?_, ?_⟩, ?_, rfl, rfl⟩
    · intro i hi hor
      exfalso
      have hi0 : i < 1 := hi
      rcases hor with h | h
      · omega
      · cases h
    · intro i h1 hi
      exfalso
      have hi0 : i < 1 := hi
      omega
    · refine ⟨?_, ?_, ?_⟩ <;> simp [lll_init, engineLow0, engineLow, MatHouseholder.mk0]
  | step _ hlt hstep ih =>
    exact (lowRun_step passes _ _ _ ih (by rw [← ih.2.2.1]; exact hlt) hstep).1

theorem low_run :
    ∃ sf es, lll (triangularBackend false) (99 / 100) (1 / 2) 2 2 engineLow0 = some (sf, es) ∧
      sf.m.b 1 0 = 0 ∧ LowRun sf := by
  have h0 : LowRun (lll_init engineLow0) := low_reach 2 _ Reach.init
  have hlowh : LowUnit (engine_at_head (triangularBackend false) (lll_init engineLow0)).b := by
    rw [engine_at_head_b]; exact h0.2.1
  have hnh : (engine_at_head (triangularBackend false) (lll_init engineLow0)).n = 2 := by
    rw [(engine_at_head_shape (triangularBackend false) (lll_init engineLow0)).2.1]
    exact h0.2.2.2
  obtain ⟨m1, hsr⟩ := size_reduction_terminates (triangularBackend false) (1 / 2) 1
    (by norm_num) 2 (engine_at_head (triangularBackend false) (lll_init engineLow0))
    (fun _ => triangularBackend_exactExp false)
    (by rw [hnh]; exact lowUnit_indep _ hlowh)
    (by
      unfold dot_b
      rw [hnh, engine_at_head_b]
      simp [lll_init, engineLow0, engineLow, MatHouseholder.mk0, Finset.sum_range_succ])
  obtain ⟨s1, e, hst⟩ : ∃ s1 e, lll_step (triangularBackend false) (99 / 100) (1 / 2) 2
      (lll_init engineLow0) = some (s1, e) := by
    unfold lll_step
    dsimp only
    have hsr1 : size_reduction (triangularBackend false) (1 / 2) 2
        (engine_at_head (triangularBackend false) (lll_init engineLow0))
        (lll_init engineLow0).k = some m1 := hsr
    rw [hsr1]
    dsimp only
    split_ifs <;> exact ⟨_, _, rfl⟩
  obtain ⟨hlr, hk2, hb⟩ := lowRun_step 2 _ s1 e h0 (by show 1 < 2; omega) hst
  refine ⟨s1, [e], ?_, hb, hlr⟩
  unfold lll
  rw [lll_loop, if_pos (by show 1 < 2; omega), hst]
  dsimp only
  rw [lll_loop, if_neg (by rw [hk2, hlr.2.2.1]; omega)]

/-- C2 (witness): the run of `lll()` on `[[1,0],[1,1]]` with `delta = 0.99`. -/
theorem C2_lovasz_postcondition_witness :
    ∃ sf es, lll (triangularBackend false) (99 / 100) (1 / 2) 2 2 engineLow0 = some (sf, es) ∧
      (∀ i, 1 ≤ i → i < sf.m.d →
        ((dot_b sf.m i : ℤ) : ℚ) =
          ∑ j in Finset.range (i + 1), (fun b i c => ((b i c : ℤ) : ℚ)) sf.m.b i j ^ 2) ∧
      lovasz_check (triangularBackend false) (99 / 100)
        (update_R_all (triangularBackend false) sf.m)
        (List.range (update_R_all (triangularBackend false) sf.m).d).tail = true := by
  obtain ⟨sf, es, h, -, -, -, hd, hn⟩ := low_run
  have hnorm : ∀ i, 1 ≤ i → i < sf.m.d →
      ((dot_b sf.m i : ℤ) : ℚ) =
        ∑ j in Finset.range (i + 1), (fun b i c => ((b i c : ℤ) : ℚ)) sf.m.b i j ^ 2 := by
    intro i h1 hi
    rw [hd] at hi
    have hi1 : i = 1 := by omega
    subst hi1
    unfold dot_b
    rw [hn]
    simp only [Finset.sum_range_succ, Finset.sum_range_zero]
    push_cast
    ring
  exact ⟨sf, es, h, hnorm,
    (C2_lovasz_postcondition (triangularBackend false) (fun b i c => ((b i c : ℤ) : ℚ))
      (99 / 100) (1 / 2) 2 2 engineLow0 sf es rfl (fun _ => rfl)
      (triangularBackend_exactR false) castR_local h hnorm).2⟩

end HLLL
